import Mathlib

/-!
Verification of the LLTI static lookup structures.

This file gives a shallow embedding of the three lookup layouts of the LLTI
repository (`SortedLookup`, `EytzingerLookup`, and the two generations of
`VebLookup`) and proves, or refutes, the specified properties about them.

Conventions of the embedding:
* C++ `std::vector` contents are modelled as Lean `List`s; in-bounds indexed
  reads are `List.getD` (all reads performed by the modelled code are
  in bounds on the states the code actually reaches, which the proofs make
  explicit).
* `std::sort` with the key comparator `a.first < b.first` leaves the order of
  equal keys unspecified; it is modelled by the stable `List.mergeSort` under
  the reflexive comparator `a.first ≤ b.first`, one of the permitted outcomes.
* machine integers are modelled as `Nat`/`Int`; truncating conversions,
  where the source performs them, are modelled by explicit `% 2 ^ 32`
  arithmetic.
-/

namespace LLTI


/-- Key comparator used by every `build`: order entries by their `int64_t`
key (`a.first < b.first` in the source, taken up to equal keys). -/
def entryLe {V : Type} (a b : Int × V) : Bool := decide (a.1 ≤ b.1)

/-- The sorting step shared by all three `build` implementations
(`std::sort(entries.begin(), entries.end(), key comparator)`). -/
def sortEntries {V : Type} (entries : List (Int × V)) : List (Int × V) :=
  entries.mergeSort entryLe

/-- Keys of the sorted entry sequence, in sort order. -/
def sortedKeys {V : Type} (entries : List (Int × V)) : List Int :=
  (sortEntries entries).map Prod.fst

/-- Values of the sorted entry sequence, in sort order. -/
def sortedVals {V : Type} (entries : List (Int × V)) : List V :=
  (sortEntries entries).map Prod.snd

/-! ### The sorted-array baseline (`include/llti/sorted_lookup.h`) -/

/-- `SortedLookup`: two parallel vectors, keys ascending. -/
structure SortedLookup (V : Type) where
  keys : List Int
  vals : List V
deriving DecidableEq

/-- `SortedLookup::build`: sort the entries and copy keys and values into the
two parallel vectors. -/
def SortedLookup.build {V : Type} (entries : List (Int × V)) : SortedLookup V :=
  { keys := sortedKeys entries, vals := sortedVals entries }

/-- Binary search as performed by `std::lower_bound` on the `keys` vector:
the classical `(lo, hi)` halving loop. -/
def lowerBoundAux (keys : List Int) (target : Int) (lo hi : Nat) : Nat :=
  if _h : lo < hi then
    let mid := (lo + hi) / 2
    if keys.getD mid 0 < target then lowerBoundAux keys target (mid + 1) hi
    else lowerBoundAux keys target lo mid
  else lo
termination_by hi - lo
decreasing_by
  · omega
  · omega

/-- `std::lower_bound(keys.begin(), keys.end(), target)`, as an index. -/
def lowerBound (keys : List Int) (target : Int) : Nat :=
  lowerBoundAux keys target 0 keys.length

/-- `SortedLookup::find`: lower-bound binary search, then return the value at
the found index iff it is in range and its key equals the target. -/
def SortedLookup.find {V : Type} [Inhabited V] (s : SortedLookup V) (target : Int) :
    Option V :=
  let i := lowerBound s.keys target
  if i < s.keys.length ∧ s.keys.getD i 0 = target then some (s.vals.getD i default)
  else none

/-! ### Reference characterisation of the lower-bound index -/

/-- The mathematical lower-bound index: the length of the longest prefix of
keys strictly below the target. -/
def lbIdx (keys : List Int) (target : Int) : Nat :=
  (keys.takeWhile (fun k => decide (k < target))).length

/-! ### In-order traversal of the implicit BFS-indexed tree

`VebLookup::inorder_complete` walks the implicit binary tree on indices
`1..N` (children of `i` at `2i` and `2i+1`) in left-root-right order.  The
same traversal describes which array slot `EytzingerLookup::fill_eytzinger`
fills from which rank of the sorted input, so the whole development below is
phrased in terms of it.  The `bfs = 0` guard is a totality artifact: the
source only ever calls the procedure with `bfs ≥ 1`, and `0` is its own
child under `bfs ↦ 2·bfs`. -/

/-- `VebLookup::inorder_complete(bfs_idx, N)`: the list of BFS indices
`≤ N` of the subtree rooted at `bfs_idx`, in in-order. -/
def inorderComplete (N : Nat) (bfs : Nat) : List Nat :=
  if bfs = 0 ∨ bfs > N then []
  else inorderComplete N (2 * bfs) ++ bfs :: inorderComplete N (2 * bfs + 1)
termination_by N + 1 - bfs
decreasing_by
  · omega
  · omega

/-- `i` is an ancestor of `j` in the implicit tree (including `i = j`):
repeated halving of `j` reaches `i`. -/
def isAnc (i j : Nat) : Prop := ∃ d, j / 2 ^ d = i

/-! ### The Eytzinger layout (`EytzingerLookup`) -/

/-- `EytzingerLookup`: 1-indexed parallel vectors (`keys[0]` unused padding),
implicit tree in BFS order, plus the element count `n`. -/
structure EytzingerLookup (V : Type) where
  keys : List Int
  vals : List V
  n : Nat
deriving DecidableEq

/-- `EytzingerLookup::fill_eytzinger`: recursively fill BFS position
`tree_idx` from the running cursor into the sorted entry list.  The state is
`(keys, vals, sorted_idx)`; the source threads `sorted_idx` by reference.
The `tree_idx = 0` disjunct is a totality artifact (the source only calls
this with `tree_idx ≥ 1`). -/
def fillEytzinger {V : Type} [Inhabited V] (sorted : List (Int × V)) (n : Nat)
    (tree_idx : Nat) (st : List Int × List V × Nat) : List Int × List V × Nat :=
  if tree_idx = 0 ∨ tree_idx > n then st
  else
    let st1 := fillEytzinger sorted n (2 * tree_idx) st
    let e := sorted.getD st1.2.2 (0, default)
    let st2 : List Int × List V × Nat :=
      (st1.1.set tree_idx e.1, st1.2.1.set tree_idx e.2, st1.2.2 + 1)
    fillEytzinger sorted n (2 * tree_idx + 1) st2
termination_by n + 1 - tree_idx
decreasing_by
  · omega
  · omega

/-- `EytzingerLookup::build`: sort, then fill positions `1..n` from the
sorted order; index `0` is left as padding. -/
def EytzingerLookup.build {V : Type} [Inhabited V] (entries : List (Int × V)) :
    EytzingerLookup V :=
  let s := sortEntries entries
  let n := s.length
  if n = 0 then { keys := [], vals := [], n := 0 }
  else
    let st := fillEytzinger s n 1
      (List.replicate (n + 1) 0, List.replicate (n + 1) default, 0)
    { keys := st.1, vals := st.2.1, n := n }

/-! ### The Eytzinger branchless search -/

/-- Number of trailing one bits of a natural number. -/
def trailingOnes (x : Nat) : Nat :=
  if _h : x % 2 = 1 then trailingOnes (x / 2) + 1 else 0
termination_by x
decreasing_by omega

/-- `__builtin_ffs`: one-based index of the least significant set bit,
`0` on a zero argument. -/
def ffs (x : Nat) : Nat :=
  if x = 0 then 0
  else if x % 2 = 1 then 1
  else ffs (x / 2) + 1
termination_by x
decreasing_by omega

/-- The branchless descent loop of `EytzingerLookup::find`:
`while (i <= n) i = 2*i + (keys[i] < target);`.  The `1 ≤ i` conjunct is a
totality artifact: the loop starts at `i = 1` and `i` only grows. -/
def eytDescend (n : Nat) (keys : List Int) (target : Int) (i : Nat) : Nat :=
  if _h : 1 ≤ i ∧ i ≤ n then
    eytDescend n keys target (2 * i + if keys.getD i 0 < target then 1 else 0)
  else i
termination_by n + 1 - i
decreasing_by
  have : (if keys.getD i 0 < target then 1 else 0) ≤ 1 := by split <;> omega
  omega

/-- The index `EytzingerLookup::find` holds after the loop and the recovery
step `i >>= __builtin_ffs(static_cast<int>(~i))`.  The cast truncates the
64-bit complement to its low 32 bits, hence the `% 2 ^ 32`. -/
def eytRecovered (n : Nat) (keys : List Int) (target : Int) : Nat :=
  let i0 := eytDescend n keys target 1
  i0 >>> ffs (2 ^ 32 - 1 - i0 % 2 ^ 32)

/-- `EytzingerLookup::find`: branchless descent from the root, recovery, then
`return &vals[i]` iff `i > 0 && i <= n && keys[i] == target`. -/
def EytzingerLookup.find {V : Type} [Inhabited V] (s : EytzingerLookup V)
    (target : Int) : Option V :=
  if s.n = 0 then none
  else
    let i := eytRecovered s.n s.keys target
    if 0 < i ∧ i ≤ s.n ∧ s.keys.getD i 0 = target then some (s.vals.getD i default)
    else none

/-- Reference descent: same loop, but tracking the last position at which it
went left (the candidate) instead of recovering it from the exit index. -/
def descendCand (n : Nat) (keys : List Int) (target : Int) (i : Nat) (cand : Nat) :
    Nat :=
  if _h : 1 ≤ i ∧ i ≤ n then
    if keys.getD i 0 < target then descendCand n keys target (2 * i + 1) cand
    else descendCand n keys target (2 * i) i
  else cand
termination_by n + 1 - i
decreasing_by
  · omega
  · omega

/-- Exact recovery of the exit index: strip the trailing ones and one zero. -/
def exr (x : Nat) : Nat := x / 2 ^ (trailingOnes x + 1)

/-! ### The vEB layout, second generation (`include/llti/sorted_lookup.h`)

`VebLookup` stores an explicit tree: `SearchData` packs the key and the two
child indices (`children[0]` = left, `children[1]` = right, `0` = absent).
-/

/-- One 16-byte node of the explicit vEB tree: `{int64_t key;
uint32_t children[2];}`.  `c0`/`c1` are `children[0]`/`children[1]`. -/
structure SearchData where
  key : Int
  c0 : Nat
  c1 : Nat
deriving DecidableEq

instance : Inhabited SearchData := ⟨⟨0, 0, 0⟩⟩

/-- `VebLookup`: node vector, value vector, count, root index. -/
structure VebLookup (V : Type) where
  tree : List SearchData
  vals : List V
  n : Nat
  root_idx : Nat
deriving DecidableEq

/-- A freshly constructed `VebLookup` (all members default-initialised). -/
def VebLookup.init {V : Type} : VebLookup V :=
  { tree := [], vals := [], n := 0, root_idx := 0 }

/-- `std::vector::resize(m)`: keep the first `m` elements, value-initialise
the rest. -/
def listResize {α : Type} (l : List α) (m : Nat) (d : α) : List α :=
  l.take m ++ List.replicate (m - l.length) d

/-- `VebLookup::build_veb_complete(bfs_idx, h, N)`: emit the complete
subtree of height `h` under `bfs_idx` in vEB block order (top half first,
then the bottom subtrees left to right), restricted to indices `≤ N`.  The
source breaks out of the bottom loop at the first out-of-range subtree
root; since the roots increase with `i`, guarding each iteration is
equivalent. -/
def buildVebComplete (N : Nat) (bfs : Nat) (h : Nat) : List Nat :=
  if h = 0 ∨ bfs > N then []
  else if h = 1 then [bfs]
  else
    let bh := h / 2
    let th := h - bh
    buildVebComplete N bfs th ++
      (List.range (2 ^ th)).flatMap (fun c =>
        if bfs * 2 ^ th + c > N then []
        else buildVebComplete N (bfs * 2 ^ th + c) bh)
termination_by h
decreasing_by
  · omega
  · omega

/-- The index-map loops
`for (i) map[order[i]] = i + base;` (`base = 1` for `bfs_to_veb`,
`base = 0` for `bfs_to_sorted`). -/
def fillIdxMap (order : List Nat) (start : Nat) (acc : List Nat) : List Nat :=
  match order with
  | [] => acc
  | b :: rest => fillIdxMap rest (start + 1) (acc.set b start)

/-- `bfs_to_veb`: vEB slot (1-based) of each in-range BFS index. -/
def bfsToVeb (n : Nat) (order : List Nat) : List Nat :=
  fillIdxMap order 1 (List.replicate (n + 1) 0)

/-- `bfs_to_sorted`: sorted rank of each in-range BFS index. -/
def bfsToSorted (n : Nat) (order : List Nat) : List Nat :=
  fillIdxMap order 0 (List.replicate (n + 1) 0)

/-- The main build loop of `VebLookup::build`: for each BFS index place the
entry of its sorted rank into its vEB slot and store the children's vEB
slots (or `0` past the leaves). -/
def vebFillTree {V : Type} [Inhabited V] (n : Nat) (sorted : List (Int × V))
    (b2v b2s : List Nat) (bfsList : List Nat)
    (st : List SearchData × List V) : List SearchData × List V :=
  match bfsList with
  | [] => st
  | bfs :: rest =>
      let veb_idx := b2v.getD bfs 0
      let e := sorted.getD (b2s.getD bfs 0) (0, default)
      let nd : SearchData :=
        ⟨e.1,
          (if 2 * bfs ≤ n then b2v.getD (2 * bfs) 0 else 0),
          (if 2 * bfs + 1 ≤ n then b2v.getD (2 * bfs + 1) 0 else 0)⟩
      vebFillTree n sorted b2v b2s rest (st.1.set veb_idx nd, st.2.set veb_idx e.2)

/-- `VebLookup::build`, as a state transformer: the source sets the member
`n` before the capacity check, so a failed build leaves `n` updated while
the other members keep their previous values.  `64 - __builtin_clzll(n)`
is `Nat.log2 n + 1` for `n ≥ 1`. -/
def VebLookup.buildSt {V : Type} [Inhabited V] (s : VebLookup V)
    (entries : List (Int × V)) : VebLookup V × Option String :=
  let sorted := sortEntries entries
  let n := sorted.length
  let s1 : VebLookup V := { s with n := n }
  if n = 0 then (s1, none)
  else if n + 1 > 2 ^ 32 - 1 then (s1, some "CapacityExceeded")
  else
    let h := Nat.log2 n + 1
    let veb_order := buildVebComplete n 1 h
    let b2v := bfsToVeb n veb_order
    let b2s := bfsToSorted n (inorderComplete n 1)
    let st := vebFillTree n sorted b2v b2s (List.range' 1 n)
      (listResize s.tree (n + 1) default, listResize s.vals (n + 1) default)
    ({ tree := st.1, vals := st.2, n := n, root_idx := b2v.getD 1 0 }, none)

/-- `VebLookup::build` on a fresh structure, with the thrown
`std::overflow_error` as an `Except` error. -/
def VebLookup.build {V : Type} [Inhabited V] (entries : List (Int × V)) :
    Except String (VebLookup V) :=
  match VebLookup.buildSt VebLookup.init entries with
  | (s, none) => .ok s
  | (_, some e) => .error e

/-- The search loop of `VebLookup::find`, with explicit fuel (the source
loops `while (curr != 0)`; on any built structure the walk strictly
descends the tree, so `n + 1` steps always suffice, as the simulation
lemma below proves). -/
def vebFindLoop (tree : List SearchData) (target : Int) :
    Nat → Nat → Nat → Nat
  | 0, _curr, cand => cand
  | fuel + 1, curr, cand =>
    if curr = 0 then cand
    else
      let nd := tree.getD curr default
      vebFindLoop tree target fuel (if nd.key < target then nd.c1 else nd.c0)
        (if target ≤ nd.key then curr else cand)

/-- `VebLookup::find`: branchless candidate-tracking descent from
`root_idx`, then `return &vals[candidate]` iff `candidate != 0 &&
tree[candidate].key == target`. -/
def VebLookup.find {V : Type} [Inhabited V] (s : VebLookup V) (target : Int) :
    Option V :=
  if s.n = 0 then none
  else
    let c := vebFindLoop s.tree target (s.n + 1) s.root_idx 0
    if c ≠ 0 ∧ (s.tree.getD c default).key = target then some (s.vals.getD c default)
    else none

/-- The vEB slot of BFS index `bfs` in the built structure (value of
`bfs_to_veb[bfs]`). -/
def vebPhi (n : Nat) (bfs : Nat) : Nat :=
  (bfsToVeb n (buildVebComplete n 1 (Nat.log2 n + 1))).getD bfs 0

/-- The sorted rank of BFS index `bfs` (value of `bfs_to_sorted[bfs]`). -/
def vebRank (n : Nat) (bfs : Nat) : Nat :=
  (bfsToSorted n (inorderComplete n 1)).getD bfs 0

/-- Synthetic key list indexed by BFS position: the key stored at BFS index
`bfs` of the built vEB tree. -/
def vebKeysV {V : Type} [Inhabited V] (entries : List (Int × V)) : List Int :=
  (List.range (entries.length + 1)).map
    (fun bfs => (sortedKeys entries).getD (vebRank entries.length bfs) 0)

/-! ### Reachability and subtree contents of the explicit vEB tree -/

/-- Indices visited when walking the explicit tree down from `idx` through
the stored child fields, to a depth of `fuel`. -/
def vebSubIdx (tree : List SearchData) (fuel : Nat) (idx : Nat) : List Nat :=
  match fuel with
  | 0 => []
  | fuel + 1 =>
    if idx = 0 then []
    else idx :: (vebSubIdx tree fuel (tree.getD idx default).c0
      ++ vebSubIdx tree fuel (tree.getD idx default).c1)

/-! ### A concrete large input on which the Eytzinger recovery truncation
misses a present key

`ceEntries` holds `2³³ − 1` entries with key `0` followed by `2³³` entries
with key `5`; its `2³⁴ − 1` keys form a perfect implicit tree.  Searching
for `5` goes left at the root (key `5`) and then right for 33 levels
(keys `0`), exiting at index `3·2³³ − 1`, whose low 32 bits are all ones;
the `static_cast<int>` truncation then makes `__builtin_ffs` return `0`,
the recovery shift becomes a no-op, and `find` misses the present key. -/

def ceEntries : List (Int × Int) :=
  List.replicate (2 ^ 33 - 1) (0, 0) ++ List.replicate (2 ^ 33) (5, 5)

/-! ### The first-iteration vEB lookup (v1): `int` indices, `left`/`right`
fields, branching descent

`src/include/llti/veb_lookup.h` is the earlier revision of the structure.
It differs from v2 in three ways: the temporaries (`veb_order`,
`bfs_to_veb`, `bfs_to_sorted`, loop counters, `N`) are `int` instead of
`size_t`; the node stores named `left`/`right` fields instead of
`children[2]`; and `find` uses an if/else on `target <= key` instead of the
branchless select.  It has no capacity guard.

The `int` typing bounds the inputs on which the build has defined
behaviour: the largest value a signed temporary takes is `2·N + 1`,
computed as the argument `2 * bfs_idx + 1` of `inorder_complete` at
`bfs_idx = N` (the fill loop computes the same `right_bfs`, and
`build_veb_complete` stays below `2^(log2 N + 2) ≤ 2·N + 1` in
`first_leaf_bfs + i`).  If `2·N + 1` exceeds `INT_MAX = 2³¹ − 1`, signed
overflow — undefined behaviour — occurs; the model returns `none` there.
Within the guarded range every `int` holds its mathematical value, so the
computation is the v2 one, with the node type relabelled. -/

structure SearchData1 where
  key : Int
  left : Nat
  right : Nat
deriving DecidableEq

instance : Inhabited SearchData1 := ⟨⟨0, 0, 0⟩⟩

/-- Relabel a v2 node as a v1 node (`c0` is `left`, `c1` is `right`). -/
def sd1 (d : SearchData) : SearchData1 := ⟨d.key, d.c0, d.c1⟩

structure VebLookup1 (V : Type) where
  tree : List SearchData1
  vals : List V
  n : Nat
  root_idx : Nat

/-- The fill loop of the v1 build (same writes as `vebFillTree`, v1 node
type). -/
def vebFillTree1 {V : Type} [Inhabited V] (n : Nat) (sorted : List (Int × V))
    (b2v b2s : List Nat) (bfsList : List Nat)
    (st : List SearchData1 × List V) : List SearchData1 × List V :=
  match bfsList with
  | [] => st
  | bfs :: rest =>
      let veb_idx := b2v.getD bfs 0
      let e := sorted.getD (b2s.getD bfs 0) (0, default)
      let nd : SearchData1 :=
        ⟨e.1,
          (if 2 * bfs ≤ n then b2v.getD (2 * bfs) 0 else 0),
          (if 2 * bfs + 1 ≤ n then b2v.getD (2 * bfs + 1) 0 else 0)⟩
      vebFillTree1 n sorted b2v b2s rest (st.1.set veb_idx nd, st.2.set veb_idx e.2)

/-- v1 `VebLookup::build` on a fresh structure.  `none` models the signed
overflow (undefined behaviour) that the `int` temporaries hit as soon as
`2·N + 1` no longer fits in `int`; see the section comment. -/
def VebLookup1.build {V : Type} [Inhabited V] (entries : List (Int × V)) :
    Option (VebLookup1 V) :=
  let sorted := sortEntries entries
  let n := sorted.length
  if n = 0 then some { tree := [], vals := [], n := 0, root_idx := 0 }
  else if 2 * n + 1 ≤ 2 ^ 31 - 1 then
    let h := Nat.log2 n + 1
    let veb_order := buildVebComplete n 1 h
    let b2v := bfsToVeb n veb_order
    let b2s := bfsToSorted n (inorderComplete n 1)
    let st := vebFillTree1 n sorted b2v b2s (List.range' 1 n)
      (List.replicate (n + 1) default, List.replicate (n + 1) default)
    some { tree := st.1, vals := st.2, n := n, root_idx := b2v.getD 1 0 }
  else none

/-- The v1 search loop: branching descent, explicit fuel. -/
def vebFindLoop1 (tree : List SearchData1) (target : Int) :
    Nat → Nat → Nat → Nat
  | 0, _curr, cand => cand
  | fuel + 1, curr, cand =>
    if curr = 0 then cand
    else
      let nd := tree.getD curr default
      if target ≤ nd.key then vebFindLoop1 tree target fuel nd.left curr
      else vebFindLoop1 tree target fuel nd.right cand

/-- v1 `VebLookup::find`. -/
def VebLookup1.find {V : Type} [Inhabited V] (s : VebLookup1 V) (target : Int) :
    Option V :=
  if s.n = 0 then none
  else
    let c := vebFindLoop1 s.tree target (s.n + 1) s.root_idx 0
    if c ≠ 0 ∧ (s.tree.getD c default).key = target then some (s.vals.getD c default)
    else none

/-! ## Theorems -/

theorem sortEntries_perm {V : Type} (entries : List (Int × V)) :
    (sortEntries entries).Perm entries :=
  List.mergeSort_perm entries entryLe

theorem sortEntries_length {V : Type} (entries : List (Int × V)) :
    (sortEntries entries).length = entries.length :=
  (sortEntries_perm entries).length_eq

theorem sortEntries_pairwise {V : Type} (entries : List (Int × V)) :
    (sortEntries entries).Pairwise (fun a b => a.1 ≤ b.1) := by
  have h := @List.sorted_mergeSort (Int × V) (@entryLe V)
    (fun a b c hab hbc => by
      simp only [entryLe, decide_eq_true_eq] at *; exact le_trans hab hbc)
    (fun a b => by
      simp only [entryLe, Bool.or_eq_true, decide_eq_true_eq]; exact le_total a.1 b.1)
    entries
  exact h.imp (by simp only [entryLe, decide_eq_true_eq]; exact fun h => h)

theorem sortedKeys_sorted {V : Type} (entries : List (Int × V)) :
    (sortedKeys entries).Pairwise (· ≤ ·) :=
  (sortEntries_pairwise entries).map Prod.fst (fun _ _ h => h)

theorem sortedKeys_length {V : Type} (entries : List (Int × V)) :
    (sortedKeys entries).length = entries.length := by
  simp [sortedKeys, sortEntries_length]

theorem sortedVals_length {V : Type} (entries : List (Int × V)) :
    (sortedVals entries).length = entries.length := by
  simp [sortedVals, sortEntries_length]

theorem lbIdx_nil (target : Int) : lbIdx [] target = 0 := rfl

theorem lbIdx_cons (k : Int) (ks : List Int) (target : Int) :
    lbIdx (k :: ks) target = if k < target then lbIdx ks target + 1 else 0 := by
  by_cases h : k < target <;> simp [lbIdx, List.takeWhile_cons, h]

theorem lbIdx_le_length (keys : List Int) (target : Int) :
    lbIdx keys target ≤ keys.length := by
  induction keys with
  | nil => simp [lbIdx_nil]
  | cons k ks ih =>
    rw [lbIdx_cons]
    by_cases h : k < target
    · simp only [h, if_true, List.length_cons]; omega
    · simp [h]

theorem lbIdx_at_ge (keys : List Int) (target : Int)
    (h : lbIdx keys target < keys.length) :
    ¬ keys[lbIdx keys target] < target := by
  induction keys with
  | nil => simp at h
  | cons k ks ih =>
    by_cases hk : k < target
    · have heq : lbIdx (k :: ks) target = lbIdx ks target + 1 := by
        rw [lbIdx_cons]; simp [hk]
      rw [heq] at h
      simp only [heq, List.getElem_cons_succ]
      exact ih (by simpa using h)
    · have heq : lbIdx (k :: ks) target = 0 := by rw [lbIdx_cons]; simp [hk]
      simp only [heq, List.getElem_cons_zero]
      exact hk

theorem lbIdx_le_of_ge (keys : List Int) (target : Int) :
    ∀ j, ∀ hj : j < keys.length, ¬ keys[j] < target → lbIdx keys target ≤ j := by
  induction keys with
  | nil => intro j hj; simp at hj
  | cons k ks ih =>
    intro j hj hge
    rw [lbIdx_cons]
    by_cases hk : k < target
    · simp only [hk, if_true]
      match j with
      | 0 => simp at hge; omega
      | j + 1 =>
        have := ih j (by simpa using hj) (by simpa using hge)
        omega
    · simp [hk]

/-- The lower-bound index is determined by the two one-sided conditions. -/
theorem lbIdx_eq_of (keys : List Int) (target : Int) (m : Nat)
    (hm : m ≤ keys.length)
    (hlt : ∀ j, j < m → ∀ hj : j < keys.length, keys[j] < target)
    (hge : m = keys.length ∨ ∃ hm2 : m < keys.length, ¬ keys[m] < target) :
    lbIdx keys target = m := by
  have hle : lbIdx keys target ≤ m := by
    rcases hge with h | ⟨hm2, hge⟩
    · exact h ▸ lbIdx_le_length keys target
    · exact lbIdx_le_of_ge keys target m hm2 hge
  have hge2 : m ≤ lbIdx keys target := by
    by_contra hcon
    push_neg at hcon
    have hlb := lbIdx_le_length keys target
    have h1 := lbIdx_at_ge keys target (by omega)
    exact h1 (hlt _ hcon (by omega))
  omega

/-- For a key-sorted list, the binary-search loop of `std::lower_bound`
computes the mathematical lower-bound index. -/
theorem lowerBoundAux_eq_lbIdx (keys : List Int) (target : Int)
    (hs : keys.Pairwise (· ≤ ·)) :
    ∀ d lo hi, hi - lo = d → lo ≤ hi → hi ≤ keys.length →
      (∀ j, j < lo → ∀ hj : j < keys.length, keys[j] < target) →
      (hi = keys.length ∨ ∃ hh : hi < keys.length, ¬ keys[hi] < target) →
      lowerBoundAux keys target lo hi = lbIdx keys target := by
  intro d
  induction d using Nat.strong_induction_on with
  | _ d ih =>
    intro lo hi hd hlohi hhi hlow hhigh
    rw [lowerBoundAux]
    by_cases h : lo < hi
    · simp only [h, dif_pos]
      have hmidlt : (lo + hi) / 2 < hi := by omega
      have hmidlen : (lo + hi) / 2 < keys.length := by omega
      have hmidD : keys.getD ((lo + hi) / 2) 0 = keys[(lo + hi) / 2] := by
        rw [List.getD_eq_getElem?_getD, List.getElem?_eq_getElem hmidlen]; rfl
      by_cases hmid : keys.getD ((lo + hi) / 2) 0 < target
      · simp only [hmid, if_true]
        refine ih (hi - ((lo + hi) / 2 + 1)) (by omega) _ _ rfl (by omega) hhi ?_ hhigh
        intro j hj hj2
        have hsorted := List.pairwise_iff_getElem.mp hs
        by_cases hj3 : j < (lo + hi) / 2
        · have hle : keys[j] ≤ keys[(lo + hi) / 2] :=
            hsorted j ((lo + hi) / 2) hj2 hmidlen hj3
          rw [hmidD] at hmid; omega
        · have : j = (lo + hi) / 2 := by omega
          subst this; rw [hmidD] at hmid; exact hmid
      · simp only [hmid, if_false]
        refine ih ((lo + hi) / 2 - lo) (by omega) _ _ rfl (by omega) (by omega) hlow ?_
        right
        exact ⟨hmidlen, by rw [hmidD] at hmid; exact hmid⟩
    · simp only [h, dif_neg, not_false_iff]
      have : lo = hi := by omega
      subst this
      exact (lbIdx_eq_of keys target lo hhi hlow hhigh).symm

theorem lowerBound_eq_lbIdx (keys : List Int) (target : Int)
    (hs : keys.Pairwise (· ≤ ·)) :
    lowerBound keys target = lbIdx keys target := by
  exact lowerBoundAux_eq_lbIdx keys target hs _ 0 keys.length rfl (by omega) le_rfl
    (by intro j hj; omega) (Or.inl rfl)

/-- Closed form of `SortedLookup.find` in terms of the mathematical
lower-bound index of the sorted key list. -/
theorem SortedLookup.find_eq_lb {V : Type} [Inhabited V]
    (entries : List (Int × V)) (target : Int) :
    (SortedLookup.build entries).find target =
      (if lbIdx (sortedKeys entries) target < (sortedKeys entries).length ∧
          (sortedKeys entries).getD (lbIdx (sortedKeys entries) target) 0 = target then
        some ((sortedVals entries).getD (lbIdx (sortedKeys entries) target) default)
      else none) := by
  unfold SortedLookup.find SortedLookup.build
  simp only
  rw [lowerBound_eq_lbIdx _ _ (sortedKeys_sorted entries)]

theorem inorderComplete_eq_nil {N bfs : Nat} (h : bfs = 0 ∨ bfs > N) :
    inorderComplete N bfs = [] := by
  rw [inorderComplete, if_pos h]

theorem inorderComplete_eq_node {N bfs : Nat} (h1 : 1 ≤ bfs) (h2 : bfs ≤ N) :
    inorderComplete N bfs =
      inorderComplete N (2 * bfs) ++ bfs :: inorderComplete N (2 * bfs + 1) := by
  rw [inorderComplete, if_neg (by omega)]

theorem isAnc_refl (i : Nat) : isAnc i i := ⟨0, by simp⟩

theorem isAnc_le {i j : Nat} (h : isAnc i j) : i ≤ j := by
  obtain ⟨d, hd⟩ := h
  calc i = j / 2 ^ d := hd.symm
    _ ≤ j := Nat.div_le_self _ _

theorem isAnc_child_left {i j : Nat} (h : isAnc (2 * i) j) : isAnc i j := by
  obtain ⟨d, hd⟩ := h
  exact ⟨d + 1, by
    rw [pow_succ, ← Nat.div_div_eq_div_mul, hd]
    omega⟩

theorem isAnc_child_right {i j : Nat} (h : isAnc (2 * i + 1) j) : isAnc i j := by
  obtain ⟨d, hd⟩ := h
  exact ⟨d + 1, by
    rw [pow_succ, ← Nat.div_div_eq_div_mul, hd]
    omega⟩

/-- An ancestor of `j` is `j` itself or an ancestor through one of the two
children. -/
theorem isAnc_split {i j : Nat} (h : isAnc i j) :
    j = i ∨ isAnc (2 * i) j ∨ isAnc (2 * i + 1) j := by
  obtain ⟨d, hd⟩ := h
  match d with
  | 0 => left; simpa using hd
  | e + 1 =>
    right
    have hm : j / 2 ^ e / 2 = i := by
      rw [Nat.div_div_eq_div_mul, ← pow_succ]; exact hd
    rcases Nat.even_or_odd (j / 2 ^ e) with he | ho
    · left
      obtain ⟨c, hc⟩ := he
      exact ⟨e, by omega⟩
    · right
      obtain ⟨c, hc⟩ := ho
      exact ⟨e, by omega⟩

/-- Ancestors of a node form a chain ordered by repeated halving. -/
theorem isAnc_chain {a b j : Nat} (hab : a ≤ b) :
    j / 2 ^ b = (j / 2 ^ a) / 2 ^ (b - a) := by
  have h : a + (b - a) = b := by omega
  rw [Nat.div_div_eq_div_mul, ← pow_add, h]

/-- The two subtrees under a node `i ≥ 1` are disjoint. -/
theorem isAnc_sibling_disjoint {i j : Nat} (hi : 1 ≤ i)
    (h1 : isAnc (2 * i) j) (h2 : isAnc (2 * i + 1) j) : False := by
  obtain ⟨a, ha⟩ := h1
  obtain ⟨b, hb⟩ := h2
  rcases lt_trichotomy a b with hab | hab | hab
  · have hc := isAnc_chain (j := j) (le_of_lt hab)
    rw [ha, hb] at hc
    have h2c : (2 : Nat) ≤ 2 ^ (b - a) := by
      have := Nat.one_lt_two_pow_iff.mpr (by omega : b - a ≠ 0)
      omega
    have hle : 2 * i / 2 ^ (b - a) ≤ 2 * i / 2 :=
      Nat.div_le_div_left h2c (by omega)
    omega
  · subst hab
    rw [ha] at hb
    omega
  · have hc := isAnc_chain (j := j) (le_of_lt hab)
    rw [ha, hb] at hc
    have h2c : (2 : Nat) ≤ 2 ^ (a - b) := by
      have := Nat.one_lt_two_pow_iff.mpr (by omega : a - b ≠ 0)
      omega
    have hle : (2 * i + 1) / 2 ^ (a - b) ≤ (2 * i + 1) / 2 :=
      Nat.div_le_div_left h2c (by omega)
    omega

/-- Membership in the in-order traversal: exactly the in-range descendants. -/
theorem mem_inorderComplete_aux {N : Nat} :
    ∀ m i j, N + 1 - i = m → 1 ≤ i →
      (j ∈ inorderComplete N i ↔ j ≤ N ∧ isAnc i j) := by
  intro m
  induction m using Nat.strong_induction_on with
  | _ m ih =>
    intro i j hm hi
    by_cases hle : i ≤ N
    · rw [inorderComplete_eq_node hi hle]
      simp only [List.mem_append, List.mem_cons]
      constructor
      · rintro (hl | hj | hr)
        · have := (ih (N + 1 - 2 * i) (by omega) _ j rfl (by omega)).mp hl
          exact ⟨this.1, isAnc_child_left this.2⟩
        · subst hj; exact ⟨hle, isAnc_refl _⟩
        · have := (ih (N + 1 - (2 * i + 1)) (by omega) _ j rfl (by omega)).mp hr
          exact ⟨this.1, isAnc_child_right this.2⟩
      · rintro ⟨hjN, hanc⟩
        rcases isAnc_split hanc with hj | hl | hr
        · right; left; exact hj
        · left; exact (ih (N + 1 - 2 * i) (by omega) _ j rfl (by omega)).mpr ⟨hjN, hl⟩
        · right; right
          exact (ih (N + 1 - (2 * i + 1)) (by omega) _ j rfl (by omega)).mpr ⟨hjN, hr⟩
    · rw [inorderComplete_eq_nil (by omega)]
      simp only [List.not_mem_nil, false_iff, not_and]
      intro hjN hanc
      have := isAnc_le hanc
      omega

theorem mem_inorderComplete {N i j : Nat} (hi : 1 ≤ i) :
    j ∈ inorderComplete N i ↔ j ≤ N ∧ isAnc i j :=
  mem_inorderComplete_aux _ i j rfl hi

theorem mem_inorderComplete_bounds {N i j : Nat} (hi : 1 ≤ i)
    (hj : j ∈ inorderComplete N i) : i ≤ j ∧ 1 ≤ j ∧ j ≤ N := by
  have := (mem_inorderComplete hi).mp hj
  have hij := isAnc_le this.2
  exact ⟨hij, by omega, this.1⟩

/-- The in-order traversal never repeats an index. -/
theorem nodup_inorderComplete_aux {N : Nat} :
    ∀ m i, N + 1 - i = m → 1 ≤ i → (inorderComplete N i).Nodup := by
  intro m
  induction m using Nat.strong_induction_on with
  | _ m ih =>
    intro i hm hi
    by_cases hle : i ≤ N
    · rw [inorderComplete_eq_node hi hle]
      have hL := ih (N + 1 - 2 * i) (by omega) _ rfl (by omega)
      have hR := ih (N + 1 - (2 * i + 1)) (by omega) _ rfl (by omega)
      refine List.Nodup.append hL (List.nodup_cons.mpr ⟨?_, hR⟩) ?_
      · intro hmem
        have := (mem_inorderComplete (by omega)).mp hmem
        have := isAnc_le this.2
        omega
      · intro a haL haR
        have hA := (mem_inorderComplete (N := N) (by omega : (1:Nat) ≤ 2 * i)).mp haL
        rcases List.mem_cons.mp haR with rfl | haR2
        · have := isAnc_le hA.2; omega
        · have hB := (mem_inorderComplete (N := N) (by omega : (1:Nat) ≤ 2 * i + 1)).mp haR2
          exact isAnc_sibling_disjoint hi hA.2 hB.2
    · rw [inorderComplete_eq_nil (by omega)]
      exact List.nodup_nil

theorem nodup_inorderComplete {N i : Nat} (hi : 1 ≤ i) :
    (inorderComplete N i).Nodup :=
  nodup_inorderComplete_aux _ i rfl hi

/-- Every index in `1..j` has the root `1` as ancestor. -/
theorem isAnc_one {j : Nat} (hj : 1 ≤ j) : isAnc 1 j := by
  refine ⟨Nat.log2 j, ?_⟩
  have h1 : 2 ^ Nat.log2 j ≤ j := Nat.log2_self_le (by omega)
  have h2 : j < 2 ^ (Nat.log2 j + 1) := Nat.lt_log2_self
  rw [pow_succ] at h2
  exact Nat.div_eq_of_lt_le (by omega) (by omega)

/-- The full in-order traversal is a permutation of `1..N`. -/
theorem inorderComplete_perm (N : Nat) :
    (inorderComplete N 1).Perm (List.range' 1 N) := by
  rw [List.perm_ext_iff_of_nodup (nodup_inorderComplete (by omega)) (List.nodup_range' _ _)]
  intro a
  rw [mem_inorderComplete (by omega), List.mem_range']
  constructor
  · rintro ⟨haN, hanc⟩
    have := isAnc_le hanc
    exact ⟨a - 1, by omega⟩
  · rintro ⟨c, hc, rfl⟩
    exact ⟨by omega, isAnc_one (by omega)⟩

theorem inorderComplete_length (N : Nat) : (inorderComplete N 1).length = N := by
  have := (inorderComplete_perm N).length_eq
  rwa [List.length_range'] at this

theorem mem_inorderComplete_one {N j : Nat} :
    j ∈ inorderComplete N 1 ↔ 1 ≤ j ∧ j ≤ N := by
  rw [mem_inorderComplete (by omega)]
  constructor
  · rintro ⟨h1, h2⟩; exact ⟨by have := isAnc_le h2; omega, h1⟩
  · rintro ⟨h1, h2⟩; exact ⟨h2, isAnc_one h1⟩

theorem getD_set_ne {α : Type} (l : List α) (q p : Nat) (a d : α) (h : q ≠ p) :
    (l.set q a).getD p d = l.getD p d := by
  simp [List.getD_eq_getElem?_getD, List.getElem?_set, h]

theorem getD_set_self {α : Type} (l : List α) (q : Nat) (a d : α)
    (h : q < l.length) : (l.set q a).getD q d = a := by
  simp [List.getD_eq_getElem?_getD, List.getElem?_set, h]

theorem getD_eq_getElem {α : Type} (l : List α) (p : Nat) (d : α)
    (h : p < l.length) : l.getD p d = l[p] := by
  rw [List.getD_eq_getElem?_getD, List.getElem?_eq_getElem h]; rfl

/-- Everything `fill_eytzinger` does, in one statement: it advances the
sorted cursor by the subtree size, only writes inside the subtree, and
writes the `j`-th sorted entry (from the incoming cursor) at the `j`-th
in-order position of the subtree. -/
theorem fillEytzinger_spec {V : Type} [Inhabited V]
    (sorted : List (Int × V)) (n : Nat) :
    ∀ m i st, n + 1 - i = m → 1 ≤ i →
      st.1.length = n + 1 → st.2.1.length = n + 1 →
      (fillEytzinger sorted n i st).2.2 = st.2.2 + (inorderComplete n i).length ∧
      (fillEytzinger sorted n i st).1.length = n + 1 ∧
      (fillEytzinger sorted n i st).2.1.length = n + 1 ∧
      (∀ p, p ∉ inorderComplete n i →
        (fillEytzinger sorted n i st).1.getD p 0 = st.1.getD p 0 ∧
        (fillEytzinger sorted n i st).2.1.getD p default = st.2.1.getD p default) ∧
      (∀ j, ∀ hj : j < (inorderComplete n i).length,
        (fillEytzinger sorted n i st).1.getD ((inorderComplete n i)[j]) 0
          = (sorted.getD (st.2.2 + j) (0, default)).1 ∧
        (fillEytzinger sorted n i st).2.1.getD ((inorderComplete n i)[j]) default
          = (sorted.getD (st.2.2 + j) (0, default)).2) := by
  intro m
  induction m using Nat.strong_induction_on with
  | _ m ih =>
    intro i st hm hi hkl hvl
    by_cases hle : i ≤ n
    · set st1 := fillEytzinger sorted n (2 * i) st with hst1
      set e := sorted.getD st1.2.2 (0, default) with he
      set st2 : List Int × List V × Nat :=
        (st1.1.set i e.1, st1.2.1.set i e.2, st1.2.2 + 1) with hst2
      have hfill : fillEytzinger sorted n i st =
          fillEytzinger sorted n (2 * i + 1) st2 := by
        rw [fillEytzinger, if_neg (by omega : ¬ (i = 0 ∨ i > n))]
      have IHL := ih (n + 1 - 2 * i) (by omega) (2 * i) st rfl (by omega) hkl hvl
      rw [← hst1] at IHL
      have hst2k : st2.1.length = n + 1 := by
        simp only [hst2, List.length_set]; exact IHL.2.1
      have hst2v : st2.2.1.length = n + 1 := by
        simp only [hst2, List.length_set]; exact IHL.2.2.1
      have IHR := ih (n + 1 - (2 * i + 1)) (by omega) (2 * i + 1) st2 rfl (by omega)
        hst2k hst2v
      set L := inorderComplete n (2 * i) with hL
      set R := inorderComplete n (2 * i + 1) with hR
      have hnode : inorderComplete n i = L ++ i :: R :=
        inorderComplete_eq_node (N := n) hi hle
      have hiR : i ∉ R := by
        intro hmem
        have := mem_inorderComplete_bounds (by omega) hmem
        omega
      have hLR : ∀ p, p ∈ L → p ∉ R := by
        intro p hpL hpR
        have hA := (mem_inorderComplete (N := n) (by omega : (1:Nat) ≤ 2 * i)).mp hpL
        have hB := (mem_inorderComplete (N := n) (by omega : (1:Nat) ≤ 2 * i + 1)).mp hpR
        exact isAnc_sibling_disjoint hi hA.2 hB.2
      refine ⟨?_, ?_, ?_, ?_, ?_⟩
      · rw [hfill, IHR.1, hnode]
        simp only [hst2]
        rw [IHL.1]
        simp only [List.length_append, List.length_cons]
        omega
      · rw [hfill]; exact IHR.2.1
      · rw [hfill]; exact IHR.2.2.1
      · intro p hp
        rw [hnode] at hp
        simp only [List.mem_append, List.mem_cons, not_or] at hp
        obtain ⟨hpL, hpi, hpR⟩ := hp
        rw [hfill]
        have h1 := IHR.2.2.2.1 p hpR
        have h2 := IHL.2.2.2.1 p hpL
        constructor
        · rw [h1.1]
          simp only [hst2]
          rw [getD_set_ne _ _ _ _ _ (by omega : i ≠ p)]
          exact h2.1
        · rw [h1.2]
          simp only [hst2]
          rw [getD_set_ne _ _ _ _ _ (by omega : i ≠ p)]
          exact h2.2
      · intro j hj
        rw [hfill]
        have hjn : j < (L ++ i :: R).length := by rw [← hnode]; exact hj
        have hidx : (inorderComplete n i)[j] = (L ++ i :: R)[j] := by
          congr 1
        rcases lt_trichotomy j L.length with hcase | hcase | hcase
        · have hgetL : (L ++ i :: R)[j] = L[j] :=
            List.getElem_append_left hcase
          have hpmem : L[j] ∈ L := List.getElem_mem hcase
          have hnotR : L[j] ∉ R := hLR _ hpmem
          rw [hidx, hgetL]
          have hfr := IHR.2.2.2.1 _ hnotR
          have hwr := IHL.2.2.2.2 j hcase
          have hpi : i ≠ L[j] := by
            have := mem_inorderComplete_bounds (by omega : (1:Nat) ≤ 2 * i) hpmem
            omega
          constructor
          · rw [hfr.1]
            simp only [hst2]
            rw [getD_set_ne _ _ _ _ _ hpi]
            exact hwr.1
          · rw [hfr.2]
            simp only [hst2]
            rw [getD_set_ne _ _ _ _ _ hpi]
            exact hwr.2
        · have hgetI : (L ++ i :: R)[j] = i := by
            rw [List.getElem_append_right (by omega)]
            simp [hcase]
          rw [hidx, hgetI]
          have hfr := IHR.2.2.2.1 _ hiR
          have hcursor : st1.2.2 = st.2.2 + L.length := IHL.1
          constructor
          · rw [hfr.1]
            simp only [hst2]
            rw [getD_set_self _ _ _ _ (by rw [IHL.2.1]; omega)]
            rw [he, hcursor, hcase]
          · rw [hfr.2]
            simp only [hst2]
            rw [getD_set_self _ _ _ _ (by rw [IHL.2.2.1]; omega)]
            rw [he, hcursor, hcase]
        · have hj2 : j - L.length - 1 < R.length := by
            rw [hnode] at hj
            simp only [List.length_append, List.length_cons] at hj
            omega
          have hgetR : (L ++ i :: R)[j] = R[j - L.length - 1] := by
            obtain ⟨j2, hj2eq⟩ : ∃ j2, j - L.length = j2 + 1 :=
              ⟨j - L.length - 1, by omega⟩
            rw [List.getElem_append_right (by omega)]
            simp only [hj2eq, List.getElem_cons_succ, Nat.add_sub_cancel]
          rw [hidx, hgetR]
          have hwr := IHR.2.2.2.2 (j - L.length - 1) hj2
          have hcursor : st1.2.2 = st.2.2 + L.length := IHL.1
          have hidx2 : st2.2.2 + (j - L.length - 1) = st.2.2 + j := by
            simp only [hst2]
            omega
          constructor
          · rw [hwr.1, hidx2]
          · rw [hwr.2, hidx2]
    · rw [inorderComplete_eq_nil (by omega : i = 0 ∨ i > n)]
      have hstop : fillEytzinger sorted n i st = st := by
        rw [fillEytzinger, if_pos (by omega : i = 0 ∨ i > n)]
      rw [hstop]
      refine ⟨by simp, hkl, hvl, fun p _ => ⟨rfl, rfl⟩, fun j hj => by simp at hj⟩

/-- Characterisation of the built Eytzinger structure (nonempty case):
sizes, and the key/value stored at the `j`-th in-order position is the
`j`-th sorted entry. -/
theorem eyt_build_spec {V : Type} [Inhabited V]
    (entries : List (Int × V)) (hne : entries.length ≠ 0) :
    (EytzingerLookup.build entries).n = entries.length ∧
    (EytzingerLookup.build entries).keys.length = entries.length + 1 ∧
    (EytzingerLookup.build entries).vals.length = entries.length + 1 ∧
    (∀ j, j < entries.length →
      ∀ hj : j < (inorderComplete entries.length 1).length,
      (EytzingerLookup.build entries).keys.getD
          ((inorderComplete entries.length 1)[j]) 0
        = ((sortEntries entries).getD j (0, default)).1 ∧
      (EytzingerLookup.build entries).vals.getD
          ((inorderComplete entries.length 1)[j]) default
        = ((sortEntries entries).getD j (0, default)).2) := by
  have hlen : (sortEntries entries).length = entries.length := sortEntries_length entries
  have hbuild : EytzingerLookup.build entries =
      { keys := (fillEytzinger (sortEntries entries) entries.length 1
          (List.replicate (entries.length + 1) 0,
           List.replicate (entries.length + 1) default, 0)).1,
        vals := (fillEytzinger (sortEntries entries) entries.length 1
          (List.replicate (entries.length + 1) 0,
           List.replicate (entries.length + 1) default, 0)).2.1,
        n := entries.length } := by
    unfold EytzingerLookup.build
    simp only [hlen, if_neg hne]
  have hspec := fillEytzinger_spec (sortEntries entries) entries.length
    (entries.length + 1 - 1) 1
    (List.replicate (entries.length + 1) 0,
     List.replicate (entries.length + 1) default, 0)
    rfl (by omega) (by simp) (by simp)
  refine ⟨by rw [hbuild], by rw [hbuild]; exact hspec.2.1, by rw [hbuild]; exact hspec.2.2.1, ?_⟩
  intro j hjlen hj
  have hw := hspec.2.2.2.2 j hj
  rw [hbuild]
  simpa using hw

theorem trailingOnes_even {x : Nat} (h : x % 2 = 0) : trailingOnes x = 0 := by
  rw [trailingOnes, dif_neg (by omega)]

theorem trailingOnes_odd {x : Nat} (h : x % 2 = 1) :
    trailingOnes x = trailingOnes (x / 2) + 1 := by
  rw [trailingOnes, dif_pos h]

theorem ffs_zero : ffs 0 = 0 := by rw [ffs, if_pos rfl]

theorem ffs_odd {x : Nat} (h : x % 2 = 1) : ffs x = 1 := by
  rw [ffs, if_neg (by omega), if_pos h]

theorem ffs_even {x : Nat} (h0 : x ≠ 0) (h : x % 2 = 0) :
    ffs x = ffs (x / 2) + 1 := by
  rw [ffs, if_neg h0, if_neg (by omega)]

/-- Decomposition of a residue modulo `2^(k+1)` into low bit and the rest. -/
theorem mod_two_pow_succ (x k : Nat) :
    x % 2 ^ (k + 1) = 2 * (x / 2 % 2 ^ k) + x % 2 := by
  have h1 : x % (2 * 2 ^ k) / 2 = x / 2 % 2 ^ k := Nat.mod_mul_right_div_self x 2 (2 ^ k)
  have h2 : x % (2 * 2 ^ k) % 2 = x % 2 := Nat.mod_mul_right_mod x 2 (2 ^ k)
  have h3 : 2 * (x % (2 * 2 ^ k) / 2) + x % (2 * 2 ^ k) % 2 = x % (2 * 2 ^ k) :=
    Nat.div_add_mod _ 2
  rw [pow_succ, mul_comm (2 ^ k) 2]
  omega

theorem two_pow_succ_eq (k : Nat) : (2 : Nat) ^ (k + 1) = 2 * 2 ^ k := by
  rw [pow_succ, Nat.mul_comm]

/-- `i` has at least `k` trailing ones iff its low `k` bits are all ones. -/
theorem trailingOnes_ge_iff : ∀ k x, k ≤ trailingOnes x ↔ x % 2 ^ k = 2 ^ k - 1 := by
  intro k
  induction k with
  | zero => intro x; simp [Nat.mod_one]
  | succ k ih =>
    intro x
    have hdec := mod_two_pow_succ x k
    have hps := two_pow_succ_eq k
    have hp : (1 : Nat) ≤ 2 ^ k := Nat.one_le_two_pow
    rcases Nat.even_or_odd x with he | ho
    · have hx2 : x % 2 = 0 := by obtain ⟨c, hc⟩ := he; omega
      rw [trailingOnes_even hx2]
      constructor
      · intro hcon; omega
      · intro hcon; omega
    · have hx2 : x % 2 = 1 := by obtain ⟨c, hc⟩ := ho; omega
      rw [trailingOnes_odd hx2]
      have ihy := ih (x / 2)
      constructor
      · intro h
        have hs := ihy.mp (by omega)
        omega
      · intro h
        have hs : x / 2 % 2 ^ k = 2 ^ k - 1 := by omega
        have := ihy.mpr hs
        omega

/-- `ffs` of the `k`-bit complement of `x` is the trailing-ones count plus
one, whenever the trailing run of ones does not fill all `k` bits. -/
theorem ffs_comp : ∀ k x, trailingOnes x < k →
    ffs (2 ^ k - 1 - x % 2 ^ k) = trailingOnes x + 1 := by
  intro k
  induction k with
  | zero => intro x h; omega
  | succ k ih =>
    intro x h
    have hp : (1 : Nat) ≤ 2 ^ k := Nat.one_le_two_pow
    have hdec := mod_two_pow_succ x k
    have hps := two_pow_succ_eq k
    have hmodlt : x / 2 % 2 ^ k < 2 ^ k := Nat.mod_lt _ (by omega)
    rcases Nat.even_or_odd x with he | ho
    · have hx2 : x % 2 = 0 := by obtain ⟨c, hc⟩ := he; omega
      rw [trailingOnes_even hx2]
      have hXodd : (2 ^ (k + 1) - 1 - x % 2 ^ (k + 1)) % 2 = 1 := by omega
      exact ffs_odd hXodd
    · have hx2 : x % 2 = 1 := by obtain ⟨c, hc⟩ := ho; omega
      have hto : trailingOnes x = trailingOnes (x / 2) + 1 := trailingOnes_odd hx2
      rw [hto] at h
      have hne : x / 2 % 2 ^ k ≠ 2 ^ k - 1 := by
        intro hcon
        have := (trailingOnes_ge_iff k (x / 2)).mpr hcon
        omega
      have hX : 2 ^ (k + 1) - 1 - x % 2 ^ (k + 1)
          = 2 * (2 ^ k - 1 - x / 2 % 2 ^ k) := by omega
      have hY1 : 1 ≤ 2 ^ k - 1 - x / 2 % 2 ^ k := by omega
      rw [hX, ffs_even (by omega) (by omega), hto]
      have hhalf : 2 * (2 ^ k - 1 - x / 2 % 2 ^ k) / 2 = 2 ^ k - 1 - x / 2 % 2 ^ k := by
        omega
      rw [hhalf, ih (x / 2) (by omega)]

theorem trailingOnes_two_pow_sub_one : ∀ m, trailingOnes (2 ^ m - 1) = m := by
  intro m
  induction m with
  | zero => simp [trailingOnes_even]
  | succ m ih =>
    have hp : (1 : Nat) ≤ 2 ^ m := Nat.one_le_two_pow
    have h1 : (2 ^ (m + 1) - 1) % 2 = 1 := by rw [pow_succ]; omega
    rw [trailingOnes_odd h1]
    have h2 : (2 ^ (m + 1) - 1) / 2 = 2 ^ m - 1 := by rw [pow_succ]; omega
    rw [h2, ih]

theorem eytRecovered_def (n : Nat) (keys : List Int) (target : Int) :
    eytRecovered n keys target =
      eytDescend n keys target 1 >>>
        ffs (2 ^ 32 - 1 - eytDescend n keys target 1 % 2 ^ 32) := rfl

theorem exr_two_mul (i : Nat) : exr (2 * i) = i := by
  unfold exr
  rw [trailingOnes_even (by omega)]
  simp

theorem exr_two_mul_add_one (i : Nat) : exr (2 * i + 1) = exr i := by
  unfold exr
  rw [trailingOnes_odd (by omega)]
  have h2 : (2 * i + 1) / 2 = i := by omega
  have h3 : trailingOnes ((2 * i + 1) / 2) = trailingOnes i := by rw [h2]
  rw [h3, two_pow_succ_eq (trailingOnes i + 1), ← Nat.div_div_eq_div_mul, h2]

/-- The exact recovery of the descent exit index computes the reference
candidate. -/
theorem exr_eytDescend (n : Nat) (keys : List Int) (target : Int) :
    ∀ m i, n + 1 - i = m → 1 ≤ i →
      exr (eytDescend n keys target i) = descendCand n keys target i (exr i) := by
  intro m
  induction m using Nat.strong_induction_on with
  | _ m ih =>
    intro i hm hi
    by_cases hle : i ≤ n
    · rw [eytDescend, dif_pos ⟨hi, hle⟩, descendCand, dif_pos ⟨hi, hle⟩]
      by_cases hkey : keys.getD i 0 < target
      · simp only [hkey, if_true]
        rw [ih (n + 1 - (2 * i + 1)) (by omega) (2 * i + 1) rfl (by omega)]
        rw [exr_two_mul_add_one]
      · simp only [hkey, if_false]
        have := ih (n + 1 - 2 * i) (by omega) (2 * i) rfl (by omega)
        simp only [Nat.add_zero] at *
        rw [this, exr_two_mul]
    · rw [eytDescend, dif_neg (by omega), descendCand, dif_neg (by omega)]

/-- The descent exits strictly past `n`. -/
theorem eytDescend_gt (n : Nat) (keys : List Int) (target : Int) :
    ∀ m i, n + 1 - i = m → 1 ≤ i →
      n < eytDescend n keys target i ∧ 1 ≤ eytDescend n keys target i := by
  intro m
  induction m using Nat.strong_induction_on with
  | _ m ih =>
    intro i hm hi
    by_cases hle : i ≤ n
    · rw [eytDescend, dif_pos ⟨hi, hle⟩]
      exact ih (n + 1 - (2 * i + if keys.getD i 0 < target then 1 else 0))
        (by have : (if keys.getD i 0 < target then 1 else 0) ≤ 1 := by split <;> omega
            omega) _ rfl
        (by have : (if keys.getD i 0 < target then 1 else 0) ≤ 1 := by split <;> omega
            omega)
    · rw [eytDescend, dif_neg (by omega)]
      omega

/-- The descent exit index is at most `2n + 1`. -/
theorem eytDescend_le (n : Nat) (keys : List Int) (target : Int) :
    ∀ m i, n + 1 - i = m → 1 ≤ i → i ≤ 2 * n + 1 →
      eytDescend n keys target i ≤ 2 * n + 1 := by
  intro m
  induction m using Nat.strong_induction_on with
  | _ m ih =>
    intro i hm hi hub
    by_cases hle : i ≤ n
    · rw [eytDescend, dif_pos ⟨hi, hle⟩]
      have hb : (if keys.getD i 0 < target then 1 else 0) ≤ 1 := by split <;> omega
      exact ih (n + 1 - (2 * i + if keys.getD i 0 < target then 1 else 0))
        (by omega) _ rfl (by omega) (by omega)
    · rw [eytDescend, dif_neg (by omega)]
      exact hub

theorem getD_append_mid {α : Type} (xs ys : List α) (z : α) (zs : List α) (d : α) :
    (xs ++ (ys ++ z :: zs)).getD (xs.length + ys.length) d = z := by
  rw [List.getD_eq_getElem?_getD,
    List.getElem?_append_right (by omega : xs.length ≤ xs.length + ys.length)]
  have h1 : xs.length + ys.length - xs.length = ys.length := by omega
  rw [h1, List.getElem?_append_right (le_refl ys.length)]
  simp

theorem pairwise_le_getD (skeys : List Int) (hs : skeys.Pairwise (· ≤ ·))
    (a b : Nat) (hab : a ≤ b) (hb : b < skeys.length) :
    skeys.getD a 0 ≤ skeys.getD b 0 := by
  rcases Nat.eq_or_lt_of_le hab with rfl | hlt
  · exact le_refl _
  · rw [getD_eq_getElem _ _ _ (by omega), getD_eq_getElem _ _ _ hb]
    exact List.pairwise_iff_getElem.mp hs a b (by omega) hb hlt

/-- The reference descent started anywhere in the tree, with the invariant
that the ranks left of the current subtree are all below the target and that
`cand` holds the position of the first rank at or beyond the subtree (`0` if
none), ends at the position of the lower-bound rank (`0` if the target is
above all keys).  Instantiated at the root this says the candidate-tracking
descent lands exactly on the lower bound. -/
theorem descendCand_spec (n : Nat) (keys skeys : List Int) (target : Int)
    (hlen : skeys.length = n) (hsorted : skeys.Pairwise (· ≤ ·))
    (hkeys : ∀ j, j < n →
      keys.getD ((inorderComplete n 1).getD j 0) 0 = skeys.getD j 0) :
    ∀ m i cand pre suf, n + 1 - i = m → 1 ≤ i →
      inorderComplete n 1 = pre ++ inorderComplete n i ++ suf →
      (∀ r, r < pre.length → skeys.getD r 0 < target) →
      ((pre.length + (inorderComplete n i).length = n ∧ cand = 0) ∨
        (pre.length + (inorderComplete n i).length < n ∧
          ¬ skeys.getD (pre.length + (inorderComplete n i).length) 0 < target ∧
          cand = (inorderComplete n 1).getD
            (pre.length + (inorderComplete n i).length) 0)) →
      descendCand n keys target i cand =
        (if lbIdx skeys target < n
         then (inorderComplete n 1).getD (lbIdx skeys target) 0 else 0) := by
  intro m
  induction m using Nat.strong_induction_on with
  | _ m ih =>
    intro i cand pre suf hm hi hdec hpre hcb
    by_cases hle : i ≤ n
    · have hnode := inorderComplete_eq_node (N := n) hi hle
      have htot : pre.length + ((inorderComplete n (2 * i)).length + 1 +
          (inorderComplete n (2 * i + 1)).length) + suf.length = n := by
        have h1 := inorderComplete_length n
        rw [hdec, hnode] at h1
        simp only [List.length_append, List.length_cons] at h1
        omega
      have hri_lt : pre.length + (inorderComplete n (2 * i)).length < n := by omega
      have hposmid : (inorderComplete n 1).getD
          (pre.length + (inorderComplete n (2 * i)).length) 0 = i := by
        rw [hdec, hnode]
        have hshape : ((pre ++ (inorderComplete n (2 * i) ++ i :: inorderComplete n (2 * i + 1))) ++ suf)
            = (pre ++ (inorderComplete n (2 * i) ++ (i :: (inorderComplete n (2 * i + 1) ++ suf)))) := by
          simp
        rw [hshape]
        exact getD_append_mid pre _ i _ 0
      have hkey_i : keys.getD i 0 =
          skeys.getD (pre.length + (inorderComplete n (2 * i)).length) 0 := by
        have h := hkeys _ hri_lt
        rwa [hposmid] at h
      rw [descendCand, dif_pos ⟨hi, hle⟩]
      by_cases hklt : keys.getD i 0 < target
      · simp only [hklt, if_true]
        refine ih (n + 1 - (2 * i + 1)) (by omega) (2 * i + 1) cand
          (pre ++ inorderComplete n (2 * i) ++ [i]) suf rfl (by omega) ?_ ?_ ?_
        · rw [hdec, hnode]
          simp [List.append_assoc]
        · intro r hr
          simp only [List.length_append, List.length_cons, List.length_nil] at hr
          by_cases hrp : r < pre.length
          · exact hpre r hrp
          · have hr_le : r ≤ pre.length + (inorderComplete n (2 * i)).length := by omega
            calc skeys.getD r 0
                ≤ skeys.getD (pre.length + (inorderComplete n (2 * i)).length) 0 :=
                  pairwise_le_getD skeys hsorted _ _ hr_le (by omega)
              _ < target := by rw [← hkey_i]; exact hklt
        · have hb : (pre ++ inorderComplete n (2 * i) ++ [i]).length +
              (inorderComplete n (2 * i + 1)).length =
              pre.length + (inorderComplete n i).length := by
            rw [hnode]
            simp only [List.length_append, List.length_cons, List.length_nil]
            omega
          rw [hb]
          exact hcb
      · simp only [hklt, if_false]
        refine ih (n + 1 - 2 * i) (by omega) (2 * i) i pre
          (i :: inorderComplete n (2 * i + 1) ++ suf) rfl (by omega) ?_ hpre ?_
        · rw [hdec, hnode]
          simp [List.append_assoc]
        · right
          exact ⟨hri_lt, by rw [← hkey_i]; exact hklt, hposmid.symm⟩
    · have hempty : inorderComplete n i = [] := inorderComplete_eq_nil (by omega)
      rw [descendCand, dif_neg (by omega)]
      rw [hempty] at hcb
      simp only [List.length_nil, Nat.add_zero] at hcb
      rcases hcb with ⟨hbn, hc0⟩ | ⟨hblt, hbge, hcand⟩
      · have hlb : lbIdx skeys target = skeys.length := by
          refine lbIdx_eq_of skeys target skeys.length (le_refl _) ?_ (Or.inl rfl)
          intro j hj hj2
          have := hpre j (by omega)
          rwa [getD_eq_getElem _ _ _ hj2] at this
        rw [if_neg (by omega), hc0]
      · have hlb : lbIdx skeys target = pre.length := by
          refine lbIdx_eq_of skeys target pre.length (by omega) ?_ ?_
          · intro j hj hj2
            have := hpre j hj
            rwa [getD_eq_getElem _ _ _ hj2] at this
          · right
            refine ⟨by omega, ?_⟩
            rwa [getD_eq_getElem _ _ _ (by omega)] at hbge
        rw [if_pos (by omega), hlb, hcand]

theorem exr_one : exr 1 = 0 := by
  have h0 : trailingOnes 0 = 0 := trailingOnes_even (by omega)
  have h1 : trailingOnes 1 = 1 := by
    rw [trailingOnes_odd (by omega)]
    norm_num [h0]
  unfold exr
  rw [h1]
  norm_num

theorem exr_all_ones (m : Nat) : exr (2 ^ m - 1) = 0 := by
  unfold exr
  rw [trailingOnes_two_pow_sub_one m]
  exact Nat.div_eq_of_lt (by
    have h1 : (2 : Nat) ^ m < 2 ^ (m + 1) := Nat.pow_lt_pow_succ (by omega)
    omega)

/-- The recovery in `find` computes the reference candidate whenever
`N < 3·2³¹ − 1` (so the 32-bit truncation in the `ffs` argument is
harmless), except that in the all-right case the recovered index stays past
`n` where the reference candidate is `0`; both fail the range check. -/
theorem EytzingerLookup.find_eq_cand {V : Type} [Inhabited V]
    (s : EytzingerLookup V) (target : Int) (hn : s.n < 3 * 2 ^ 31 - 1) :
    s.find target =
      (if 0 < descendCand s.n s.keys target 1 0 ∧
          descendCand s.n s.keys target 1 0 ≤ s.n ∧
          s.keys.getD (descendCand s.n s.keys target 1 0) 0 = target
       then some (s.vals.getD (descendCand s.n s.keys target 1 0) default)
       else none) := by
  by_cases h0 : s.n = 0
  · unfold EytzingerLookup.find
    rw [if_pos h0]
    have hc : descendCand s.n s.keys target 1 0 = 0 := by
      rw [descendCand, dif_neg (by omega)]
    rw [hc, if_neg (by omega)]
  · unfold EytzingerLookup.find
    rw [if_neg h0]
    show (if 0 < eytRecovered s.n s.keys target ∧ eytRecovered s.n s.keys target ≤ s.n ∧
        s.keys.getD (eytRecovered s.n s.keys target) 0 = target
      then some (s.vals.getD (eytRecovered s.n s.keys target) default) else none) = _
    have hgt := eytDescend_gt s.n s.keys target _ 1 rfl (le_refl 1)
    have hub := eytDescend_le s.n s.keys target _ 1 rfl (le_refl 1) (by omega)
    have hcand : descendCand s.n s.keys target 1 0 =
        exr (eytDescend s.n s.keys target 1) := by
      have h := exr_eytDescend s.n s.keys target _ 1 rfl (le_refl 1)
      rw [exr_one] at h
      exact h.symm
    have hp32 : (2 : Nat) ^ 32 = 4294967296 := by norm_num
    have hp31 : (2 : Nat) ^ 31 = 2147483648 := by norm_num
    have hp33 : (2 : Nat) ^ 33 = 8589934592 := by norm_num
    by_cases hmod : eytDescend s.n s.keys target 1 % 2 ^ 32 = 2 ^ 32 - 1
    · have hdm := Nat.div_add_mod (eytDescend s.n s.keys target 1) (2 ^ 32)
      have hq : eytDescend s.n s.keys target 1 / 2 ^ 32 ≤ 1 := by
        by_contra hcon
        push_neg at hcon
        have : 2 * 2 ^ 32 ≤ 2 ^ 32 * (eytDescend s.n s.keys target 1 / 2 ^ 32) := by
          calc 2 * 2 ^ 32 = 2 ^ 32 * 2 := by ring
            _ ≤ 2 ^ 32 * (eytDescend s.n s.keys target 1 / 2 ^ 32) :=
              Nat.mul_le_mul_left _ hcon
        omega
      have hee : eytDescend s.n s.keys target 1 = 2 ^ 32 - 1 ∨
          eytDescend s.n s.keys target 1 = 2 ^ 33 - 1 := by
        rcases Nat.le_one_iff_eq_zero_or_eq_one.mp hq with hq0 | hq1
        · left; omega
        · right; omega
      have hshift : ffs (2 ^ 32 - 1 - eytDescend s.n s.keys target 1 % 2 ^ 32) = 0 := by
        rw [hmod, Nat.sub_self]
        exact ffs_zero
      have hrec : eytRecovered s.n s.keys target = eytDescend s.n s.keys target 1 := by
        show eytDescend s.n s.keys target 1 >>>
          ffs (2 ^ 32 - 1 - eytDescend s.n s.keys target 1 % 2 ^ 32) = _
        rw [hshift]
        rfl
      have hexr : exr (eytDescend s.n s.keys target 1) = 0 := by
        rcases hee with h | h
        · rw [h]; exact exr_all_ones 32
        · rw [h]; exact exr_all_ones 33
      rw [hrec, hcand, hexr]
      rw [if_neg (by omega), if_neg (by omega)]
    · have htlt : trailingOnes (eytDescend s.n s.keys target 1) < 32 := by
        by_contra hcon
        push_neg at hcon
        exact hmod ((trailingOnes_ge_iff 32 _).mp hcon)
      have hshift : ffs (2 ^ 32 - 1 - eytDescend s.n s.keys target 1 % 2 ^ 32)
          = trailingOnes (eytDescend s.n s.keys target 1) + 1 := ffs_comp 32 _ htlt
      have hrec : eytRecovered s.n s.keys target =
          exr (eytDescend s.n s.keys target 1) := by
        show eytDescend s.n s.keys target 1 >>>
          ffs (2 ^ 32 - 1 - eytDescend s.n s.keys target 1 % 2 ^ 32) = _
        rw [hshift, Nat.shiftRight_eq_div_pow]
        rfl
      rw [hrec, ← hcand]

/-- At the root: the candidate-tracking descent computes the position of the
lower-bound rank. -/
theorem descendCand_eq_lb (n : Nat) (keys skeys : List Int) (target : Int)
    (hlen : skeys.length = n) (hsorted : skeys.Pairwise (· ≤ ·))
    (hkeys : ∀ j, j < n →
      keys.getD ((inorderComplete n 1).getD j 0) 0 = skeys.getD j 0) :
    descendCand n keys target 1 0 =
      (if lbIdx skeys target < n
       then (inorderComplete n 1).getD (lbIdx skeys target) 0 else 0) := by
  refine descendCand_spec n keys skeys target hlen hsorted hkeys _ 1 0 [] [] rfl
    (le_refl 1) (by simp) (by intro r hr; simp at hr) ?_
  left
  exact ⟨by simpa using inorderComplete_length n, rfl⟩

theorem sortedKeys_getD {V : Type} [Inhabited V] (entries : List (Int × V))
    (j : Nat) (hj : j < entries.length) :
    (sortedKeys entries).getD j 0 = ((sortEntries entries).getD j (0, default)).1 := by
  have h1 : j < (sortedKeys entries).length := by rw [sortedKeys_length]; omega
  have h2 : j < (sortEntries entries).length := by rw [sortEntries_length]; omega
  rw [getD_eq_getElem _ _ _ h1, getD_eq_getElem _ _ _ h2]
  simp [sortedKeys]

theorem sortedVals_getD {V : Type} [Inhabited V] (entries : List (Int × V))
    (j : Nat) (hj : j < entries.length) :
    (sortedVals entries).getD j default
      = ((sortEntries entries).getD j (0, default)).2 := by
  have h1 : j < (sortedVals entries).length := by rw [sortedVals_length]; omega
  have h2 : j < (sortEntries entries).length := by rw [sortEntries_length]; omega
  rw [getD_eq_getElem _ _ _ h1, getD_eq_getElem _ _ _ h2]
  simp [sortedVals]

theorem SortedLookup.find_empty {V : Type} [Inhabited V] (target : Int) :
    (SortedLookup.build ([] : List (Int × V))).find target = none := by
  unfold SortedLookup.find SortedLookup.build
  simp [sortedKeys, sortedVals, sortEntries]

/-- The key/value correspondence of the built Eytzinger structure, in the
form consumed by `descendCand_eq_lb`. -/
theorem eyt_keys_getD {V : Type} [Inhabited V] (entries : List (Int × V))
    (hne : entries.length ≠ 0) :
    (∀ j, j < entries.length →
      (EytzingerLookup.build entries).keys.getD
          ((inorderComplete entries.length 1).getD j 0) 0
        = (sortedKeys entries).getD j 0) ∧
    (∀ j, j < entries.length →
      (EytzingerLookup.build entries).vals.getD
          ((inorderComplete entries.length 1).getD j 0) default
        = (sortedVals entries).getD j default) := by
  have hspec := eyt_build_spec entries hne
  have hplen : (inorderComplete entries.length 1).length = entries.length :=
    inorderComplete_length entries.length
  constructor
  · intro j hj
    have hj2 : j < (inorderComplete entries.length 1).length := by omega
    have hw := (hspec.2.2.2 j hj hj2).1
    rw [getD_eq_getElem _ _ _ hj2, hw, sortedKeys_getD entries j hj]
  · intro j hj
    have hj2 : j < (inorderComplete entries.length 1).length := by omega
    have hw := (hspec.2.2.2 j hj hj2).2
    rw [getD_eq_getElem _ _ _ hj2, hw, sortedVals_getD entries j hj]

/-- Main Eytzinger correctness: for structures below the truncation bound,
`EytzingerLookup::find` returns exactly what lower-bound binary search on
the sorted input returns. -/
theorem eytFind_eq_sortedFind {V : Type} [Inhabited V]
    (entries : List (Int × V)) (target : Int)
    (hn : entries.length < 3 * 2 ^ 31 - 1) :
    (EytzingerLookup.build entries).find target
      = (SortedLookup.build entries).find target := by
  by_cases h0 : entries.length = 0
  · have hnil : entries = [] := List.length_eq_zero.mp h0
    subst hnil
    have h1 : (EytzingerLookup.build ([] : List (Int × V))).n = 0 := by
      unfold EytzingerLookup.build
      simp [sortEntries]
    rw [SortedLookup.find_empty]
    unfold EytzingerLookup.find
    rw [if_pos h1]
  · have hspec := eyt_build_spec entries h0
    have hkeys := eyt_keys_getD entries h0
    have hplen : (inorderComplete entries.length 1).length = entries.length :=
      inorderComplete_length entries.length
    rw [EytzingerLookup.find_eq_cand _ target (by rw [hspec.1]; exact hn)]
    rw [hspec.1]
    rw [descendCand_eq_lb entries.length
      (EytzingerLookup.build entries).keys (sortedKeys entries) target
      (sortedKeys_length entries) (sortedKeys_sorted entries) hkeys.1]
    rw [SortedLookup.find_eq_lb entries target]
    rw [sortedKeys_length]
    by_cases hlb : lbIdx (sortedKeys entries) target < entries.length
    · rw [if_pos hlb]
      have hmem : (inorderComplete entries.length 1).getD
          (lbIdx (sortedKeys entries) target) 0 ∈ inorderComplete entries.length 1 := by
        rw [getD_eq_getElem _ _ _ (by omega)]
        exact List.getElem_mem _
      have hbounds := mem_inorderComplete_one.mp hmem
      have hkc := hkeys.1 (lbIdx (sortedKeys entries) target) hlb
      have hvc := hkeys.2 (lbIdx (sortedKeys entries) target) hlb
      by_cases hhit : (sortedKeys entries).getD (lbIdx (sortedKeys entries) target) 0
          = target
      · rw [if_pos ⟨by omega, by omega, by rw [hkc]; exact hhit⟩,
          if_pos ⟨hlb, hhit⟩, hvc]
      · rw [if_neg (by
            rintro ⟨-, -, hc⟩
            rw [hkc] at hc
            exact hhit hc),
          if_neg (by rintro ⟨-, hc⟩; exact hhit hc)]
    · rw [if_neg hlb, if_neg (by omega), if_neg (by rintro ⟨hc, -⟩; exact hlb hc)]

theorem listResize_nil {α : Type} (m : Nat) (d : α) :
    listResize ([] : List α) m d = List.replicate m d := by
  simp [listResize]

theorem listResize_length {α : Type} (l : List α) (m : Nat) (d : α)
    (h : l.length ≤ m) : (listResize l m d).length = m := by
  simp [listResize]
  omega

/-! ### The vEB order is a permutation of the in-range BFS indices -/

theorem buildVebComplete_eq_nil {N bfs h : Nat} (hc : h = 0 ∨ bfs > N) :
    buildVebComplete N bfs h = [] := by
  rw [buildVebComplete, if_pos hc]

theorem buildVebComplete_eq_leaf {N bfs : Nat} (hc : bfs ≤ N) :
    buildVebComplete N bfs 1 = [bfs] := by
  rw [buildVebComplete, if_neg (by omega), if_pos rfl]

theorem buildVebComplete_eq_node {N bfs h : Nat} (hc : ¬(h = 0 ∨ bfs > N))
    (h1 : h ≠ 1) :
    buildVebComplete N bfs h =
      buildVebComplete N bfs (h - h / 2) ++
        (List.range (2 ^ (h - h / 2))).flatMap (fun c =>
          if bfs * 2 ^ (h - h / 2) + c > N then []
          else buildVebComplete N (bfs * 2 ^ (h - h / 2) + c) (h / 2)) := by
  rw [buildVebComplete, if_neg hc, if_neg h1]

theorem div_pow_bounds {j d q : Nat} (h : j / 2 ^ d = q) :
    2 ^ d * q ≤ j ∧ j < 2 ^ d * (q + 1) := by
  have h1 := Nat.div_add_mod j (2 ^ d)
  have h2 : j % 2 ^ d < 2 ^ d := Nat.mod_lt _ (Nat.pos_pow_of_pos d (by omega))
  have h3 : 2 ^ d * (q + 1) = 2 ^ d * q + 2 ^ d := by ring
  rw [h] at h1
  omega

theorem one_le_mul_pow_add (bfs k c : Nat) (h : 1 ≤ bfs) :
    1 ≤ bfs * 2 ^ k + c := by
  have h2 : (1 : Nat) ≤ 2 ^ k := Nat.one_le_two_pow
  nlinarith

/-- Membership in the vEB emission: exactly the in-range descendants within
depth `h` of the subtree root. -/
theorem mem_buildVebComplete (N : Nat) :
    ∀ h bfs j, 1 ≤ bfs →
      (j ∈ buildVebComplete N bfs h ↔ j ≤ N ∧ ∃ d, d < h ∧ j / 2 ^ d = bfs) := by
  intro h
  induction h using Nat.strong_induction_on with
  | _ h ih =>
    intro bfs j hbfs
    by_cases hstop : h = 0 ∨ bfs > N
    · rw [buildVebComplete_eq_nil hstop]
      simp only [List.not_mem_nil, false_iff, not_and]
      rintro hjN ⟨d, hd, hdiv⟩
      have := div_pow_bounds hdiv
      have hd1 : 1 ≤ 2 ^ d := Nat.one_le_two_pow
      rcases hstop with h0 | hbN
      · omega
      · nlinarith
    · push_neg at hstop
      by_cases hone : h = 1
      · subst hone
        rw [buildVebComplete_eq_leaf (by omega)]
        simp only [List.mem_singleton]
        constructor
        · rintro rfl
          exact ⟨by omega, 0, by omega, by simp⟩
        · rintro ⟨hjN, d, hd, hdiv⟩
          have : d = 0 := by omega
          subst this
          simpa using hdiv
      · rw [buildVebComplete_eq_node (by omega) hone]
        have hh2 : 2 ≤ h := by omega
        have hbh1 : 1 ≤ h / 2 := by omega
        have hth1 : 1 ≤ h - h / 2 := by omega
        have hthlt : h - h / 2 < h := by omega
        have hbhlt : h / 2 < h := by omega
        have hsum : (h - h / 2) + h / 2 = h := by omega
        have hpth : (1 : Nat) ≤ 2 ^ (h - h / 2) := Nat.one_le_two_pow
        simp only [List.mem_append, List.mem_flatMap, List.mem_range]
        constructor
        · rintro (htop | ⟨c, hc, hmem⟩)
          · have := (ih _ hthlt bfs j hbfs).mp htop
            exact ⟨this.1, this.2.choose, by
              have hspec := this.2.choose_spec
              exact ⟨by omega, hspec.2⟩⟩
          · by_cases hguard : bfs * 2 ^ (h - h / 2) + c > N
            · rw [if_pos hguard] at hmem
              simp at hmem
            · rw [if_neg hguard] at hmem
              have := (ih _ hbhlt (bfs * 2 ^ (h - h / 2) + c) j
                (one_le_mul_pow_add _ _ _ hbfs)).mp hmem
              obtain ⟨hjN, d, hd, hdiv⟩ := this
              refine ⟨hjN, (h - h / 2) + d, by omega, ?_⟩
              have hchain : j / 2 ^ ((h - h / 2) + d)
                  = (j / 2 ^ d) / 2 ^ (h - h / 2) := by
                rw [Nat.div_div_eq_div_mul, ← pow_add, Nat.add_comm]
              rw [hchain, hdiv, Nat.add_comm (bfs * 2 ^ (h - h / 2)) c,
                Nat.add_mul_div_right _ _ (by positivity), Nat.div_eq_of_lt hc]
              omega
        · rintro ⟨hjN, d, hd, hdiv⟩
          by_cases hdth : d < h - h / 2
          · left
            exact (ih _ hthlt bfs j hbfs).mpr ⟨hjN, d, hdth, hdiv⟩
          · right
            push_neg at hdth
            have hchain : j / 2 ^ d = (j / 2 ^ (d - (h - h / 2))) / 2 ^ (h - h / 2) := by
              rw [Nat.div_div_eq_div_mul, ← pow_add]
              congr 2
              omega
            set A := j / 2 ^ (d - (h - h / 2)) with hA
            have hAdiv : A / 2 ^ (h - h / 2) = bfs := by rw [← hchain]; exact hdiv
            have hAbound := div_pow_bounds hAdiv
            refine ⟨A % 2 ^ (h - h / 2), Nat.mod_lt _ (by positivity), ?_⟩
            have hAeq : bfs * 2 ^ (h - h / 2) + A % 2 ^ (h - h / 2) = A := by
              have hdm := Nat.div_add_mod A (2 ^ (h - h / 2))
              rw [hAdiv] at hdm
              have hcm : bfs * 2 ^ (h - h / 2) = 2 ^ (h - h / 2) * bfs :=
                Nat.mul_comm _ _
              omega
            rw [hAeq]
            have hAleN : A ≤ N := le_trans (Nat.div_le_self _ _) hjN
            have hA1 : 1 ≤ A := by nlinarith [hAbound.1, hpth, hbfs]
            rw [if_neg (by omega)]
            refine (ih _ hbhlt A j hA1).mpr ⟨hjN, d - (h - h / 2), by omega, rfl⟩

/-- The vEB emission never repeats an index. -/
theorem nodup_buildVebComplete (N : Nat) :
    ∀ h bfs, 1 ≤ bfs → (buildVebComplete N bfs h).Nodup := by
  intro h
  induction h using Nat.strong_induction_on with
  | _ h ih =>
    intro bfs hbfs
    by_cases hstop : h = 0 ∨ bfs > N
    · rw [buildVebComplete_eq_nil hstop]; exact List.nodup_nil
    · push_neg at hstop
      by_cases hone : h = 1
      · subst hone
        rw [buildVebComplete_eq_leaf (by omega)]
        simp
      · rw [buildVebComplete_eq_node (by omega) hone]
        have hthlt : h - h / 2 < h := by omega
        have hbhlt : h / 2 < h := by omega
        have hth1 : 1 ≤ h - h / 2 := by omega
        have hpth : (1 : Nat) ≤ 2 ^ (h - h / 2) := Nat.one_le_two_pow
        -- a member of a bottom block lies at or above `bfs * 2^(top height)`
        have hblock : ∀ c j, c < 2 ^ (h - h / 2) →
            j ∈ (if bfs * 2 ^ (h - h / 2) + c > N then []
                 else buildVebComplete N (bfs * 2 ^ (h - h / 2) + c) (h / 2)) →
            j ≤ N ∧ ∃ d, d < h / 2 ∧ j / 2 ^ d = bfs * 2 ^ (h - h / 2) + c := by
          intro c j hc hmem
          by_cases hguard : bfs * 2 ^ (h - h / 2) + c > N
          · rw [if_pos hguard] at hmem; simp at hmem
          · rw [if_neg hguard] at hmem
            exact (mem_buildVebComplete N _ _ j (one_le_mul_pow_add _ _ _ hbfs)).mp hmem
        refine List.Nodup.append ?_ ?_ ?_
        · exact ih _ hthlt bfs hbfs
        · rw [List.nodup_flatMap]
          constructor
          · intro c _
            by_cases hguard : bfs * 2 ^ (h - h / 2) + c > N
            · rw [if_pos hguard]; exact List.nodup_nil
            · rw [if_neg hguard]
              exact ih _ hbhlt _ (one_le_mul_pow_add _ _ _ hbfs)
          · rw [List.pairwise_iff_getElem]
            intro a b ha hb hab
            simp only [List.getElem_range] at *
            intro j hja hjb
            have ha_lt : a < 2 ^ (h - h / 2) := by simpa using ha
            have hb_lt : b < 2 ^ (h - h / 2) := by simpa using hb
            have hA := hblock a j ha_lt hja
            have hB := hblock b j hb_lt hjb
            obtain ⟨-, da, hda, hdiva⟩ := hA
            obtain ⟨-, db, hdb, hdivb⟩ := hB
            have hPth : 2 ^ (h - h / 2) ≤ bfs * 2 ^ (h - h / 2) :=
              Nat.le_mul_of_pos_left _ (by omega)
            rcases lt_trichotomy da db with hd | hd | hd
            · have hch := isAnc_chain (j := j) (le_of_lt hd)
              rw [hdiva, hdivb] at hch
              have hbnd := div_pow_bounds (hch.symm)
              have hg2 : (2 : Nat) ≤ 2 ^ (db - da) := by
                have := Nat.one_lt_two_pow_iff.mpr (by omega : db - da ≠ 0)
                omega
              have h2b : 2 * (bfs * 2 ^ (h - h / 2) + b) ≤
                  2 ^ (db - da) * (bfs * 2 ^ (h - h / 2) + b) :=
                Nat.mul_le_mul_right _ hg2
              omega
            · subst hd
              rw [hdiva] at hdivb
              omega
            · have hch := isAnc_chain (j := j) (le_of_lt hd)
              rw [hdiva, hdivb] at hch
              have hbnd := div_pow_bounds (hch.symm)
              have hg2 : (2 : Nat) ≤ 2 ^ (da - db) := by
                have := Nat.one_lt_two_pow_iff.mpr (by omega : da - db ≠ 0)
                omega
              have h2a : 2 * (bfs * 2 ^ (h - h / 2) + a) ≤
                  2 ^ (da - db) * (bfs * 2 ^ (h - h / 2) + a) :=
                Nat.mul_le_mul_right _ hg2
              omega
        · rw [List.disjoint_left]
          intro j hjtop hjbot
          have htop := (mem_buildVebComplete N _ _ j hbfs).mp hjtop
          obtain ⟨-, d, hd, hdiv⟩ := htop
          rw [List.mem_flatMap] at hjbot
          obtain ⟨c, hc, hmem⟩ := hjbot
          have hB := hblock c j (by simpa using hc) hmem
          obtain ⟨-, d2, hd2, hdiv2⟩ := hB
          have h1 := div_pow_bounds hdiv
          have h2 := div_pow_bounds hdiv2
          -- top: j < (bfs+1)·2^d ≤ bfs·2^(top height); bottom: j ≥ bfs·2^(top height)
          have hdle : 2 ^ d ≤ 2 ^ (h - h / 2 - 1) :=
            Nat.pow_le_pow_right (by omega) (by omega)
          have hsplit : 2 ^ (h - h / 2) = 2 * 2 ^ (h - h / 2 - 1) := by
            rw [← two_pow_succ_eq]
            congr 1
            omega
          have hs1 : 2 ^ d * (bfs + 1) ≤ 2 ^ (h - h / 2 - 1) * (bfs + 1) :=
            Nat.mul_le_mul_right _ hdle
          have hs2 : 2 ^ (h - h / 2 - 1) * (bfs + 1) ≤ 2 ^ (h - h / 2 - 1) * (2 * bfs) :=
            Nat.mul_le_mul_left _ (by omega)
          have hs3 : 2 ^ (h - h / 2 - 1) * (2 * bfs) = bfs * 2 ^ (h - h / 2) := by
            rw [hsplit]; ring
          have hs4 : bfs * 2 ^ (h - h / 2) ≤ bfs * 2 ^ (h - h / 2) + c :=
            Nat.le_add_right _ _
          have hs5 : bfs * 2 ^ (h - h / 2) + c ≤
              2 ^ d2 * (bfs * 2 ^ (h - h / 2) + c) :=
            Nat.le_mul_of_pos_left _ (by positivity)
          omega

theorem buildVebComplete_perm (N : Nat) (hN : 1 ≤ N) :
    (buildVebComplete N 1 (Nat.log2 N + 1)).Perm (List.range' 1 N) := by
  rw [List.perm_ext_iff_of_nodup (nodup_buildVebComplete N _ 1 (by omega))
    (List.nodup_range' _ _)]
  intro j
  rw [mem_buildVebComplete N _ 1 j (by omega), List.mem_range']
  constructor
  · rintro ⟨hjN, d, hd, hdiv⟩
    have := div_pow_bounds hdiv
    have hd1 : 1 ≤ 2 ^ d := Nat.one_le_two_pow
    exact ⟨j - 1, by omega⟩
  · rintro ⟨c, hc, rfl⟩
    refine ⟨by omega, Nat.log2 (1 + c), ?_, ?_⟩
    · have h1 : 1 + c < 2 ^ (Nat.log2 N + 1) := by
        have h2 : N < 2 ^ (Nat.log2 N + 1) := Nat.lt_log2_self
        omega
      have := (Nat.log2_lt (by omega : 1 + c ≠ 0)).mpr h1
      omega
    · have h1 : 2 ^ Nat.log2 (1 + c) ≤ 1 + c := Nat.log2_self_le (by omega)
      have h2 : 1 + c < 2 ^ (Nat.log2 (1 + c) + 1) := Nat.lt_log2_self
      rw [two_pow_succ_eq] at h2
      exact Nat.div_eq_of_lt_le (by omega) (by omega)

theorem buildVebComplete_length (N : Nat) (hN : 1 ≤ N) :
    (buildVebComplete N 1 (Nat.log2 N + 1)).length = N := by
  have := (buildVebComplete_perm N hN).length_eq
  rwa [List.length_range'] at this

/-! ### Characterisation of the vEB build -/

theorem fillIdxMap_spec : ∀ (order : List Nat) (start : Nat) (acc : List Nat),
    order.Nodup → (∀ b ∈ order, b < acc.length) →
    (fillIdxMap order start acc).length = acc.length ∧
    (∀ p, p ∉ order → (fillIdxMap order start acc).getD p 0 = acc.getD p 0) ∧
    (∀ j, ∀ hj : j < order.length,
      (fillIdxMap order start acc).getD (order[j]) 0 = start + j) := by
  intro order
  induction order with
  | nil =>
    intro start acc _ _
    exact ⟨rfl, fun p _ => rfl, fun j hj => by simp at hj⟩
  | cons b rest ih =>
    intro start acc hnodup hbound
    rw [List.nodup_cons] at hnodup
    have hstep : fillIdxMap (b :: rest) start acc
        = fillIdxMap rest (start + 1) (acc.set b start) := rfl
    have hbound2 : ∀ x ∈ rest, x < (acc.set b start).length := by
      intro x hx
      rw [List.length_set]
      exact hbound x (List.mem_cons_of_mem _ hx)
    have IH := ih (start + 1) (acc.set b start) hnodup.2 hbound2
    rw [hstep]
    refine ⟨by rw [IH.1, List.length_set], ?_, ?_⟩
    · intro p hp
      rw [List.mem_cons, not_or] at hp
      rw [IH.2.1 p hp.2, getD_set_ne _ _ _ _ _ (by tauto)]
    · intro j hj
      match j with
      | 0 =>
        simp only [List.getElem_cons_zero, Nat.add_zero]
        rw [IH.2.1 b hnodup.1,
          getD_set_self _ _ _ _ (hbound b (List.mem_cons_self _ _))]
      | j + 1 =>
        simp only [List.getElem_cons_succ]
        rw [IH.2.2 j (by simpa using hj)]
        omega

theorem vebPhi_spec (n : Nat) (hn : 1 ≤ n) :
    ∀ bfs, 1 ≤ bfs → bfs ≤ n →
      1 ≤ vebPhi n bfs ∧ vebPhi n bfs ≤ n ∧
      (buildVebComplete n 1 (Nat.log2 n + 1))[vebPhi n bfs - 1]?.getD 0 = bfs := by
  have hperm := buildVebComplete_perm n hn
  have horder_len : (buildVebComplete n 1 (Nat.log2 n + 1)).length = n :=
    buildVebComplete_length n hn
  have hnodup : (buildVebComplete n 1 (Nat.log2 n + 1)).Nodup :=
    nodup_buildVebComplete n _ 1 (by omega)
  have hbound : ∀ b ∈ buildVebComplete n 1 (Nat.log2 n + 1),
      b < (List.replicate (n + 1) 0).length := by
    intro b hb
    have := hperm.mem_iff.mp hb
    rw [List.mem_range'] at this
    obtain ⟨c, hc, rfl⟩ := this
    rw [List.length_replicate]
    omega
  have hfill := fillIdxMap_spec (buildVebComplete n 1 (Nat.log2 n + 1)) 1
    (List.replicate (n + 1) 0) hnodup hbound
  intro bfs h1 h2
  have hmem : bfs ∈ buildVebComplete n 1 (Nat.log2 n + 1) := by
    rw [hperm.mem_iff, List.mem_range']
    exact ⟨bfs - 1, by omega, by omega⟩
  obtain ⟨j, hjlt, hjval⟩ := List.mem_iff_getElem.mp hmem
  have hwrite := hfill.2.2 j hjlt
  rw [hjval] at hwrite
  have hphival : vebPhi n bfs = 1 + j := hwrite
  refine ⟨by omega, by omega, ?_⟩
  rw [hphival]
  have hj2 : 1 + j - 1 = j := by omega
  rw [hj2, List.getElem?_eq_getElem (by omega), hjval]
  rfl

/-- `vebPhi` is injective on the in-range BFS indices. -/
theorem vebPhi_inj (n : Nat) (hn : 1 ≤ n) {a b : Nat}
    (ha1 : 1 ≤ a) (ha2 : a ≤ n) (hb1 : 1 ≤ b) (hb2 : b ≤ n)
    (heq : vebPhi n a = vebPhi n b) : a = b := by
  have hA := (vebPhi_spec n hn a ha1 ha2).2.2
  have hB := (vebPhi_spec n hn b hb1 hb2).2.2
  rw [heq] at hA
  rw [hA] at hB
  exact hB

theorem vebRank_spec (n : Nat) :
    ∀ j, ∀ hj : j < (inorderComplete n 1).length,
      vebRank n ((inorderComplete n 1)[j]) = j := by
  have hnodup : (inorderComplete n 1).Nodup := nodup_inorderComplete (by omega)
  have hbound : ∀ b ∈ inorderComplete n 1, b < (List.replicate (n + 1) 0).length := by
    intro b hb
    have := mem_inorderComplete_one.mp hb
    rw [List.length_replicate]
    omega
  have hfill := fillIdxMap_spec (inorderComplete n 1) 0
    (List.replicate (n + 1) 0) hnodup hbound
  intro j hj
  have := hfill.2.2 j hj
  simpa [vebRank, bfsToSorted] using this

/-- Behaviour of the main vEB build loop on a list of distinct slots. -/
theorem vebFillTree_spec {V : Type} [Inhabited V] (n : Nat)
    (sorted : List (Int × V)) (b2v b2s : List Nat) :
    ∀ (bfsList : List Nat) (st : List SearchData × List V),
      (bfsList.map (fun b => b2v.getD b 0)).Nodup →
      (∀ b ∈ bfsList, b2v.getD b 0 < st.1.length ∧ b2v.getD b 0 < st.2.length) →
      (vebFillTree n sorted b2v b2s bfsList st).1.length = st.1.length ∧
      (vebFillTree n sorted b2v b2s bfsList st).2.length = st.2.length ∧
      (∀ p, (∀ b ∈ bfsList, b2v.getD b 0 ≠ p) →
        (vebFillTree n sorted b2v b2s bfsList st).1.getD p default = st.1.getD p default ∧
        (vebFillTree n sorted b2v b2s bfsList st).2.getD p default = st.2.getD p default) ∧
      (∀ b ∈ bfsList,
        (vebFillTree n sorted b2v b2s bfsList st).1.getD (b2v.getD b 0) default =
          ⟨(sorted.getD (b2s.getD b 0) (0, default)).1,
            (if 2 * b ≤ n then b2v.getD (2 * b) 0 else 0),
            (if 2 * b + 1 ≤ n then b2v.getD (2 * b + 1) 0 else 0)⟩ ∧
        (vebFillTree n sorted b2v b2s bfsList st).2.getD (b2v.getD b 0) default =
          (sorted.getD (b2s.getD b 0) (0, default)).2) := by
  intro bfsList
  induction bfsList with
  | nil =>
    intro st _ _
    exact ⟨rfl, rfl, fun p _ => ⟨rfl, rfl⟩, fun b hb => by simp at hb⟩
  | cons b rest ih =>
    intro st hnodup hbound
    rw [List.map_cons, List.nodup_cons] at hnodup
    have hb_in := hbound b (List.mem_cons_self _ _)
    set st2 : List SearchData × List V :=
      (st.1.set (b2v.getD b 0)
        ⟨(sorted.getD (b2s.getD b 0) (0, default)).1,
          (if 2 * b ≤ n then b2v.getD (2 * b) 0 else 0),
          (if 2 * b + 1 ≤ n then b2v.getD (2 * b + 1) 0 else 0)⟩,
       st.2.set (b2v.getD b 0) (sorted.getD (b2s.getD b 0) (0, default)).2) with hst2
    have hstep : vebFillTree n sorted b2v b2s (b :: rest) st
        = vebFillTree n sorted b2v b2s rest st2 := rfl
    have hbound2 : ∀ x ∈ rest,
        b2v.getD x 0 < st2.1.length ∧ b2v.getD x 0 < st2.2.length := by
      intro x hx
      simp only [hst2, List.length_set]
      exact hbound x (List.mem_cons_of_mem _ hx)
    have IH := ih st2 hnodup.2 hbound2
    rw [hstep]
    refine ⟨by rw [IH.1]; simp only [hst2, List.length_set],
      by rw [IH.2.1]; simp only [hst2, List.length_set], ?_, ?_⟩
    · intro p hp
      have hpb := hp b (List.mem_cons_self _ _)
      have hprest : ∀ x ∈ rest, b2v.getD x 0 ≠ p :=
        fun x hx => hp x (List.mem_cons_of_mem _ hx)
      have hfr := IH.2.2.1 p hprest
      rw [hfr.1, hfr.2]
      simp only [hst2]
      rw [getD_set_ne _ _ _ _ _ hpb, getD_set_ne _ _ _ _ _ hpb]
      exact ⟨rfl, rfl⟩
    · intro x hx
      rcases List.mem_cons.mp hx with rfl | hx2
      · have hnot : ∀ y ∈ rest, b2v.getD y 0 ≠ b2v.getD x 0 := by
          intro y hy hc
          exact hnodup.1 (by rw [← hc]; exact List.mem_map_of_mem _ hy)
        have hfr := IH.2.2.1 _ hnot
        rw [hfr.1, hfr.2]
        simp only [hst2]
        rw [getD_set_self _ _ _ _ hb_in.1, getD_set_self _ _ _ _ hb_in.2]
        exact ⟨rfl, rfl⟩
      · exact IH.2.2.2 x hx2

theorem vebRank_lt (n : Nat) (hn : 1 ≤ n) (bfs : Nat) (h1 : 1 ≤ bfs)
    (h2 : bfs ≤ n) : vebRank n bfs < n := by
  have hmem : bfs ∈ inorderComplete n 1 := mem_inorderComplete_one.mpr ⟨h1, h2⟩
  obtain ⟨j, hjlt, hjval⟩ := List.mem_iff_getElem.mp hmem
  have := vebRank_spec n j hjlt
  rw [hjval] at this
  rw [this]
  have := inorderComplete_length n
  omega

/-- Characterisation of a successful vEB build: sizes, root, and the node
stored at each in-range BFS index's slot. -/
theorem veb_build_spec {V : Type} [Inhabited V] (entries : List (Int × V))
    (h0 : entries.length ≠ 0) (hcap : entries.length + 1 ≤ 2 ^ 32 - 1) :
    ∃ s : VebLookup V, VebLookup.build entries = .ok s ∧
      s.n = entries.length ∧
      s.tree.length = entries.length + 1 ∧
      s.vals.length = entries.length + 1 ∧
      s.root_idx = vebPhi entries.length 1 ∧
      (∀ bfs, 1 ≤ bfs → bfs ≤ entries.length →
        s.tree.getD (vebPhi entries.length bfs) default =
          ⟨((sortEntries entries).getD (vebRank entries.length bfs) (0, default)).1,
            (if 2 * bfs ≤ entries.length then vebPhi entries.length (2 * bfs) else 0),
            (if 2 * bfs + 1 ≤ entries.length then vebPhi entries.length (2 * bfs + 1) else 0)⟩ ∧
        s.vals.getD (vebPhi entries.length bfs) default =
          ((sortEntries entries).getD (vebRank entries.length bfs) (0, default)).2) := by
  have hlen : (sortEntries entries).length = entries.length := sortEntries_length entries
  set n := entries.length with hn
  have hn1 : 1 ≤ n := by omega
  have hbuild : VebLookup.build entries = .ok
      { tree := (vebFillTree n (sortEntries entries)
          (bfsToVeb n (buildVebComplete n 1 (Nat.log2 n + 1)))
          (bfsToSorted n (inorderComplete n 1)) (List.range' 1 n)
          (List.replicate (n + 1) default, List.replicate (n + 1) default)).1,
        vals := (vebFillTree n (sortEntries entries)
          (bfsToVeb n (buildVebComplete n 1 (Nat.log2 n + 1)))
          (bfsToSorted n (inorderComplete n 1)) (List.range' 1 n)
          (List.replicate (n + 1) default, List.replicate (n + 1) default)).2,
        n := n, root_idx := vebPhi n 1 } := by
    unfold VebLookup.build VebLookup.buildSt VebLookup.init
    simp only [hlen, ← hn, listResize_nil]
    rw [if_neg (by omega), if_neg (by omega)]
    rfl
  have hmap_nodup : ((List.range' 1 n).map
      (fun b => (bfsToVeb n (buildVebComplete n 1 (Nat.log2 n + 1))).getD b 0)).Nodup := by
    refine List.Nodup.map_on ?_ (List.nodup_range' _ _)
    intro x hx y hy hxy
    rw [List.mem_range'] at hx hy
    obtain ⟨cx, hcx, rfl⟩ := hx
    obtain ⟨cy, hcy, rfl⟩ := hy
    exact vebPhi_inj n hn1 (by omega) (by omega) (by omega) (by omega) hxy
  have hbounds : ∀ b ∈ List.range' 1 n,
      (bfsToVeb n (buildVebComplete n 1 (Nat.log2 n + 1))).getD b 0 <
        (List.replicate (n + 1) (default : SearchData)).length ∧
      (bfsToVeb n (buildVebComplete n 1 (Nat.log2 n + 1))).getD b 0 <
        (List.replicate (n + 1) (default : V)).length := by
    intro b hb
    rw [List.mem_range'] at hb
    obtain ⟨c, hc, rfl⟩ := hb
    simp only [one_mul]
    have hps := vebPhi_spec n hn1 (1 + c) (by omega) (by omega)
    simp only [vebPhi] at hps
    rw [List.length_replicate, List.length_replicate]
    constructor
    · omega
    · omega
  have hfill := vebFillTree_spec n (sortEntries entries)
    (bfsToVeb n (buildVebComplete n 1 (Nat.log2 n + 1)))
    (bfsToSorted n (inorderComplete n 1)) (List.range' 1 n)
    (List.replicate (n + 1) default, List.replicate (n + 1) default)
    hmap_nodup hbounds
  refine ⟨_, hbuild, rfl, ?_, ?_, rfl, ?_⟩
  · rw [hfill.1, List.length_replicate]
  · rw [hfill.2.1, List.length_replicate]
  · intro bfs h1 h2
    have hmem : bfs ∈ List.range' 1 n := by
      rw [List.mem_range']
      exact ⟨bfs - 1, by omega, by omega⟩
    exact hfill.2.2.2 bfs hmem

theorem vebFindLoop_zero (tree : List SearchData) (target : Int) (curr cand : Nat) :
    vebFindLoop tree target 0 curr cand = cand := rfl

theorem vebFindLoop_succ (tree : List SearchData) (target : Int)
    (fuel curr cand : Nat) :
    vebFindLoop tree target (fuel + 1) curr cand =
      if curr = 0 then cand
      else vebFindLoop tree target fuel
        (if (tree.getD curr default).key < target then (tree.getD curr default).c1
         else (tree.getD curr default).c0)
        (if target ≤ (tree.getD curr default).key then curr else cand) := rfl

/-- The fuelled explicit-tree walk simulates the reference candidate descent
over the implicit tree, through the slot map `phi`. -/
theorem vebFindLoop_sim (n : Nat) (tree : List SearchData) (keysV : List Int)
    (phi : Nat → Nat) (target : Int)
    (hphi : ∀ bfs, 1 ≤ bfs → bfs ≤ n → 1 ≤ phi bfs ∧ phi bfs ≤ n)
    (hnode : ∀ bfs, 1 ≤ bfs → bfs ≤ n →
      (tree.getD (phi bfs) default).key = keysV.getD bfs 0 ∧
      (tree.getD (phi bfs) default).c0 = (if 2 * bfs ≤ n then phi (2 * bfs) else 0) ∧
      (tree.getD (phi bfs) default).c1 =
        (if 2 * bfs + 1 ≤ n then phi (2 * bfs + 1) else 0)) :
    ∀ fuel bfs cand candV, n + 2 - bfs ≤ fuel → 1 ≤ bfs →
      (cand = 0 ∧ candV = 0 ∨ (1 ≤ cand ∧ cand ≤ n ∧ candV = phi cand)) →
      vebFindLoop tree target fuel (if bfs ≤ n then phi bfs else 0) candV =
        (if descendCand n keysV target bfs cand = 0 then 0
         else phi (descendCand n keysV target bfs cand)) := by
  intro fuel
  induction fuel with
  | zero =>
    intro bfs cand candV hfuel hbfs hcand
    have hgt : ¬ bfs ≤ n := by omega
    rw [if_neg hgt, vebFindLoop_zero, descendCand, dif_neg (by omega)]
    rcases hcand with ⟨rfl, rfl⟩ | ⟨h1, h2, rfl⟩
    · rw [if_pos rfl]
    · rw [if_neg (by omega)]
  | succ fuel ih =>
    intro bfs cand candV hfuel hbfs hcand
    by_cases hble : bfs ≤ n
    · rw [if_pos hble]
      have hphib := hphi bfs hbfs hble
      have hnd := hnode bfs hbfs hble
      rw [vebFindLoop_succ, if_neg (by omega), hnd.1, hnd.2.1, hnd.2.2,
        descendCand, dif_pos ⟨hbfs, hble⟩]
      by_cases hkey : keysV.getD bfs 0 < target
      · rw [if_pos hkey, if_pos hkey, if_neg (not_le.mpr hkey)]
        exact ih (2 * bfs + 1) cand candV (by omega) (by omega) hcand
      · rw [if_neg hkey, if_neg hkey, if_pos (not_lt.mp hkey)]
        exact ih (2 * bfs) bfs (phi bfs) (by omega) (by omega)
          (Or.inr ⟨hbfs, hble, rfl⟩)
    · rw [if_neg hble, vebFindLoop_succ, if_pos rfl, descendCand, dif_neg (by omega)]
      rcases hcand with ⟨rfl, rfl⟩ | ⟨h1, h2, rfl⟩
      · rw [if_pos rfl]
      · rw [if_neg (by omega)]

theorem vebKeysV_getD {V : Type} [Inhabited V] (entries : List (Int × V))
    (bfs : Nat) (h : bfs ≤ entries.length) :
    (vebKeysV entries).getD bfs 0
      = (sortedKeys entries).getD (vebRank entries.length bfs) 0 := by
  have hlen : (vebKeysV entries).length = entries.length + 1 := by
    simp [vebKeysV]
  rw [getD_eq_getElem _ _ _ (by omega)]
  simp [vebKeysV]

/-- Main vEB correctness: a successfully built second-generation vEB
structure answers every query exactly like lower-bound binary search on the
sorted input. -/
theorem vebFind_eq_sortedFind {V : Type} [Inhabited V]
    (entries : List (Int × V)) (target : Int)
    (s : VebLookup V) (hok : VebLookup.build entries = .ok s) :
    s.find target = (SortedLookup.build entries).find target := by
  by_cases h0 : entries.length = 0
  · have hnil : entries = [] := List.length_eq_zero.mp h0
    subst hnil
    have hs : s = { tree := [], vals := [], n := 0, root_idx := 0 } := by
      unfold VebLookup.build VebLookup.buildSt VebLookup.init at hok
      simp [sortEntries] at hok
      exact hok.symm
    rw [SortedLookup.find_empty]
    unfold VebLookup.find
    rw [if_pos (by rw [hs])]
  · have hcap : entries.length + 1 ≤ 2 ^ 32 - 1 := by
      by_contra hcon
      push_neg at hcon
      simp only [VebLookup.build, VebLookup.buildSt, VebLookup.init] at hok
      rw [if_neg (by rw [sortEntries_length]; omega),
        if_pos (by rw [sortEntries_length]; omega)] at hok
      simp at hok
    obtain ⟨s0, hok0, hn, htlen, hvlen, hroot, hnodes⟩ :=
      veb_build_spec (V := V) entries h0 hcap
    have hs : s = s0 := by
      rw [hok0] at hok
      injection hok with h
      exact h.symm
    subst hs
    set n := entries.length with hdefn
    have hn1 : 1 ≤ n := by omega
    have hkeysVrel : ∀ j, j < n →
        (vebKeysV entries).getD ((inorderComplete n 1).getD j 0) 0
          = (sortedKeys entries).getD j 0 := by
      intro j hj
      have hjlen : j < (inorderComplete n 1).length := by
        rw [inorderComplete_length]; omega
      have hmem : (inorderComplete n 1)[j] ∈ inorderComplete n 1 :=
        List.getElem_mem hjlen
      have hbounds := mem_inorderComplete_one.mp hmem
      rw [getD_eq_getElem _ _ _ hjlen]
      rw [vebKeysV_getD entries _ (by omega)]
      rw [vebRank_spec n j hjlen]
    have hnode2 : ∀ bfs, 1 ≤ bfs → bfs ≤ n →
        (s.tree.getD (vebPhi n bfs) default).key = (vebKeysV entries).getD bfs 0 ∧
        (s.tree.getD (vebPhi n bfs) default).c0 =
          (if 2 * bfs ≤ n then vebPhi n (2 * bfs) else 0) ∧
        (s.tree.getD (vebPhi n bfs) default).c1 =
          (if 2 * bfs + 1 ≤ n then vebPhi n (2 * bfs + 1) else 0) := by
      intro bfs h1 h2
      have hN := hnodes bfs h1 h2
      rw [hN.1]
      refine ⟨?_, rfl, rfl⟩
      rw [vebKeysV_getD entries bfs (by omega),
        sortedKeys_getD entries _ (vebRank_lt n hn1 bfs h1 h2)]
    have hphi2 : ∀ bfs, 1 ≤ bfs → bfs ≤ n →
        1 ≤ vebPhi n bfs ∧ vebPhi n bfs ≤ n := by
      intro bfs h1 h2
      have := vebPhi_spec n hn1 bfs h1 h2
      exact ⟨this.1, this.2.1⟩
    have hsim := vebFindLoop_sim n s.tree (vebKeysV entries) (vebPhi n) target
      hphi2 hnode2 (n + 1) 1 0 0 (by omega) (le_refl 1) (Or.inl ⟨rfl, rfl⟩)
    rw [if_pos hn1] at hsim
    unfold VebLookup.find
    rw [if_neg (by omega), hn, hroot]
    show (if (vebFindLoop s.tree target (n + 1) (vebPhi n 1) 0) ≠ 0 ∧
        (s.tree.getD (vebFindLoop s.tree target (n + 1) (vebPhi n 1) 0) default).key
          = target
      then some (s.vals.getD (vebFindLoop s.tree target (n + 1) (vebPhi n 1) 0) default)
      else none) = _
    rw [hsim]
    rw [descendCand_eq_lb n (vebKeysV entries) (sortedKeys entries) target
      (by rw [sortedKeys_length]) (sortedKeys_sorted entries) hkeysVrel]
    rw [SortedLookup.find_eq_lb entries target, sortedKeys_length]
    by_cases hlb : lbIdx (sortedKeys entries) target < n
    · rw [if_pos hlb]
      have hplen : (inorderComplete n 1).length = n := inorderComplete_length n
      have hmem : (inorderComplete n 1).getD (lbIdx (sortedKeys entries) target) 0
          ∈ inorderComplete n 1 := by
        rw [getD_eq_getElem _ _ _ (by omega)]
        exact List.getElem_mem _
      have hcb := mem_inorderComplete_one.mp hmem
      rw [if_neg (by omega :
        ¬ (inorderComplete n 1).getD (lbIdx (sortedKeys entries) target) 0 = 0)]
      have hrank : vebRank n
          ((inorderComplete n 1).getD (lbIdx (sortedKeys entries) target) 0)
          = lbIdx (sortedKeys entries) target := by
        rw [getD_eq_getElem _ _ _ (by omega)]
        exact vebRank_spec n _ (by omega)
      have hnd := hnodes _ hcb.1 hcb.2
      have hphic := vebPhi_spec n hn1 _ hcb.1 hcb.2
      have hkey1 : (s.tree.getD (vebPhi n
          ((inorderComplete n 1).getD (lbIdx (sortedKeys entries) target) 0))
            default).key
          = ((sortEntries entries).getD (vebRank n
              ((inorderComplete n 1).getD (lbIdx (sortedKeys entries) target) 0))
              (0, default)).1 := by
        rw [hnd.1]
      have hkey : (s.tree.getD (vebPhi n
          ((inorderComplete n 1).getD (lbIdx (sortedKeys entries) target) 0))
            default).key
          = (sortedKeys entries).getD (lbIdx (sortedKeys entries) target) 0 := by
        rw [hkey1, hrank, sortedKeys_getD entries _ (by omega)]
      have hval1 : s.vals.getD (vebPhi n
          ((inorderComplete n 1).getD (lbIdx (sortedKeys entries) target) 0)) default
          = ((sortEntries entries).getD (vebRank n
              ((inorderComplete n 1).getD (lbIdx (sortedKeys entries) target) 0))
              (0, default)).2 := hnd.2
      have hval : s.vals.getD (vebPhi n
          ((inorderComplete n 1).getD (lbIdx (sortedKeys entries) target) 0)) default
          = (sortedVals entries).getD (lbIdx (sortedKeys entries) target) default := by
        rw [hval1, hrank, sortedVals_getD entries _ (by omega)]
      by_cases hhit : (sortedKeys entries).getD (lbIdx (sortedKeys entries) target) 0
          = target
      · rw [if_pos ⟨by omega, by rw [hkey]; exact hhit⟩, if_pos ⟨hlb, hhit⟩, hval]
      · rw [if_neg (by rintro ⟨-, hcon⟩; rw [hkey] at hcon; exact hhit hcon),
          if_neg (by rintro ⟨-, hcon⟩; exact hhit hcon)]
    · rw [if_neg hlb, if_pos rfl, if_neg (by simp), if_neg (by omega)]

/-! ### Build sizes and the failure path -/

theorem sortEntries_of_sorted {V : Type} {entries : List (Int × V)}
    (h : entries.Pairwise (fun a b => a.1 ≤ b.1)) :
    sortEntries entries = entries := by
  apply List.mergeSort_of_sorted
  exact h.imp (by
    intro a b hab
    simp only [entryLe, decide_eq_true_eq]
    exact hab)

theorem sortEntries_replicate {V : Type} (m : Nat) (k : Int) (v : V) :
    sortEntries (List.replicate m (k, v)) = List.replicate m (k, v) := by
  apply sortEntries_of_sorted
  rw [List.pairwise_iff_getElem]
  intro i j hi hj hij
  rw [List.getElem_replicate, List.getElem_replicate]

/-- The stored size of every layout equals the total input length:
no build de-duplicates. -/
theorem sorted_build_length {V : Type} (entries : List (Int × V)) :
    (SortedLookup.build entries).keys.length = entries.length := by
  unfold SortedLookup.build
  exact sortedKeys_length entries

theorem eyt_build_n {V : Type} [Inhabited V] (entries : List (Int × V)) :
    (EytzingerLookup.build entries).n = entries.length := by
  by_cases h0 : entries.length = 0
  · simp only [EytzingerLookup.build]
    rw [sortEntries_length, h0]
    simp
  · exact (eyt_build_spec entries h0).1

theorem veb_buildSt_n {V : Type} [Inhabited V] (s : VebLookup V)
    (entries : List (Int × V)) :
    (VebLookup.buildSt s entries).1.n = entries.length := by
  unfold VebLookup.buildSt
  by_cases h0 : (sortEntries entries).length = 0
  · rw [if_pos h0]
    show (sortEntries entries).length = entries.length
    exact sortEntries_length entries
  · rw [if_neg h0]
    by_cases hcap : (sortEntries entries).length + 1 > 2 ^ 32 - 1
    · rw [if_pos hcap]
      show (sortEntries entries).length = entries.length
      exact sortEntries_length entries
    · rw [if_neg hcap]
      show (sortEntries entries).length = entries.length
      exact sortEntries_length entries

/-- The failure path of `VebLookup::build`, exactly: when the input is
nonempty and the node count overflows the 32-bit index space, the member
`n` has already been updated but nothing else has. -/
theorem veb_buildSt_fail {V : Type} [Inhabited V] (s : VebLookup V)
    (entries : List (Int × V)) (h0 : entries.length ≠ 0)
    (hcap : entries.length + 1 > 2 ^ 32 - 1) :
    VebLookup.buildSt s entries =
      ({ s with n := entries.length }, some "CapacityExceeded") := by
  unfold VebLookup.buildSt
  rw [if_neg (by rw [sortEntries_length]; omega),
    if_pos (by rw [sortEntries_length]; omega)]
  rw [sortEntries_length]

/-- The success/failure dichotomy of the functional wrapper. -/
theorem veb_build_error_iff {V : Type} [Inhabited V] (entries : List (Int × V)) :
    VebLookup.build (V := V) entries = .error "CapacityExceeded"
      ↔ entries.length + 1 > 2 ^ 32 - 1 := by
  constructor
  · intro herr
    by_contra hcon
    push_neg at hcon
    by_cases h0 : entries.length = 0
    · unfold VebLookup.build VebLookup.buildSt VebLookup.init at herr
      rw [if_pos (by rw [sortEntries_length]; omega)] at herr
      simp at herr
    · obtain ⟨s, hok, -⟩ := veb_build_spec (V := V) entries h0 (by omega)
      rw [hok] at herr
      simp at herr
  · intro hcap
    have h0 : entries.length ≠ 0 := by
      have : (1 : Nat) ≤ 2 ^ 32 - 1 := by norm_num
      omega
    unfold VebLookup.build
    rw [veb_buildSt_fail VebLookup.init entries h0 hcap]

/-- In any decomposition of the full traversal around the subtree of `p`,
the in-order rank of `p` itself is the prefix length plus its left subtree
size, and the traversal holds `p` there. -/
theorem posList_getD_mid (n p : Nat) (pre suf : List Nat) (hp1 : 1 ≤ p)
    (hp2 : p ≤ n)
    (hdec : inorderComplete n 1 = pre ++ inorderComplete n p ++ suf) :
    pre.length + (inorderComplete n (2 * p)).length < n ∧
    (inorderComplete n 1).getD
      (pre.length + (inorderComplete n (2 * p)).length) 0 = p := by
  have hnode := inorderComplete_eq_node (N := n) hp1 hp2
  have htot : pre.length + ((inorderComplete n (2 * p)).length + 1 +
      (inorderComplete n (2 * p + 1)).length) + suf.length = n := by
    have h1 := inorderComplete_length n
    rw [hdec, hnode] at h1
    simp only [List.length_append, List.length_cons] at h1
    omega
  refine ⟨by omega, ?_⟩
  rw [hdec, hnode]
  have hshape : ((pre ++ (inorderComplete n (2 * p) ++ p ::
      inorderComplete n (2 * p + 1))) ++ suf)
      = (pre ++ (inorderComplete n (2 * p) ++ (p ::
        (inorderComplete n (2 * p + 1) ++ suf)))) := by
    simp
  rw [hshape]
  exact getD_append_mid pre _ p _ 0

theorem vebSubIdx_succ (tree : List SearchData) (fuel idx : Nat) :
    vebSubIdx tree (fuel + 1) idx =
      if idx = 0 then []
      else idx :: (vebSubIdx tree fuel (tree.getD idx default).c0
        ++ vebSubIdx tree fuel (tree.getD idx default).c1) := rfl

theorem vebSubIdx_zero (tree : List SearchData) (fuel : Nat) :
    vebSubIdx tree fuel 0 = [] := by
  cases fuel <;> rfl

/-- `vebPhi` hits every slot `1..n`. -/
theorem vebPhi_surj (n : Nat) (hn : 1 ≤ n) :
    ∀ v, 1 ≤ v → v ≤ n → ∃ b, 1 ≤ b ∧ b ≤ n ∧ vebPhi n b = v := by
  have hperm := buildVebComplete_perm n hn
  have horder_len : (buildVebComplete n 1 (Nat.log2 n + 1)).length = n :=
    buildVebComplete_length n hn
  have hnodup : (buildVebComplete n 1 (Nat.log2 n + 1)).Nodup :=
    nodup_buildVebComplete n _ 1 (by omega)
  have hbound : ∀ b ∈ buildVebComplete n 1 (Nat.log2 n + 1),
      b < (List.replicate (n + 1) 0).length := by
    intro b hb
    have := hperm.mem_iff.mp hb
    rw [List.mem_range'] at this
    obtain ⟨c, hc, rfl⟩ := this
    rw [List.length_replicate]
    omega
  have hfill := fillIdxMap_spec (buildVebComplete n 1 (Nat.log2 n + 1)) 1
    (List.replicate (n + 1) 0) hnodup hbound
  intro v h1 h2
  have hvlt : v - 1 < (buildVebComplete n 1 (Nat.log2 n + 1)).length := by omega
  have hwrite := hfill.2.2 (v - 1) hvlt
  refine ⟨(buildVebComplete n 1 (Nat.log2 n + 1))[v - 1], ?_, ?_, ?_⟩
  · have hmem := hperm.mem_iff.mp (List.getElem_mem hvlt)
    rw [List.mem_range'] at hmem
    obtain ⟨c, hc, heq⟩ := hmem
    omega
  · have hmem := hperm.mem_iff.mp (List.getElem_mem hvlt)
    rw [List.mem_range'] at hmem
    obtain ⟨c, hc, heq⟩ := hmem
    omega
  · show vebPhi n _ = v
    unfold vebPhi bfsToVeb
    rw [hwrite]
    omega

/-- Any in-range node owns a contiguous block of the in-order traversal. -/
theorem exists_ipos_decomp (n : Nat) : ∀ b, 1 ≤ b → b ≤ n →
    ∃ pre suf, inorderComplete n 1 = pre ++ inorderComplete n b ++ suf := by
  intro b
  induction b using Nat.strong_induction_on with
  | _ b ih =>
    intro h1 h2
    by_cases hb1 : b = 1
    · subst hb1
      exact ⟨[], [], by simp⟩
    · have hp1 : 1 ≤ b / 2 := by omega
      have hp2 : b / 2 ≤ n := by
        have := Nat.div_le_self b 2
        omega
      obtain ⟨pre, suf, hdec⟩ := ih (b / 2) (by omega) hp1 hp2
      have hnode := inorderComplete_eq_node (N := n) hp1 hp2
      have hdm := Nat.div_add_mod b 2
      by_cases hpar : b % 2 = 0
      · have hbeq : 2 * (b / 2) = b := by omega
        refine ⟨pre, (b / 2) :: inorderComplete n (2 * (b / 2) + 1) ++ suf, ?_⟩
        rw [hdec, hnode, hbeq]
        simp [List.append_assoc]
      · have hbeq : 2 * (b / 2) + 1 = b := by omega
        refine ⟨pre ++ inorderComplete n (2 * (b / 2)) ++ [b / 2], suf, ?_⟩
        rw [hdec, hnode, hbeq]
        simp [List.append_assoc]

theorem getD_append_block {A : Type} (xs ys zs : List A) (j : Nat)
    (hj : j < ys.length) (d : A) :
    (xs ++ ys ++ zs).getD (xs.length + j) d = ys.getD j d := by
  rw [List.getD_eq_getElem?_getD, List.append_assoc,
    List.getElem?_append_right (by omega : xs.length ≤ xs.length + j)]
  have h1 : xs.length + j - xs.length = j := by omega
  rw [h1, List.getElem?_append, if_pos hj, ← List.getD_eq_getElem?_getD]

/-- In-order ranks inside a subtree: the node sits right after its left
subtree, left-subtree members rank strictly below it, right-subtree members
strictly above. -/
theorem vebRank_subtree (n b : Nat) (pre suf : List Nat) (h1 : 1 ≤ b)
    (h2 : b ≤ n)
    (hdec : inorderComplete n 1 = pre ++ inorderComplete n b ++ suf) :
    vebRank n b = pre.length + (inorderComplete n (2 * b)).length ∧
    (∀ q ∈ inorderComplete n (2 * b), vebRank n q < vebRank n b) ∧
    (∀ q ∈ inorderComplete n (2 * b + 1), vebRank n b < vebRank n q) := by
  have hnode := inorderComplete_eq_node (N := n) h1 h2
  have hleng := inorderComplete_length n
  have hblen : (inorderComplete n b).length =
      (inorderComplete n (2 * b)).length + 1 +
        (inorderComplete n (2 * b + 1)).length := by
    rw [hnode]
    simp [List.length_append]
    omega
  have htot : pre.length + (inorderComplete n b).length + suf.length = n := by
    have h := hleng
    rw [hdec] at h
    simp only [List.length_append] at h
    omega
  have hmid := posList_getD_mid n b pre suf h1 h2 hdec
  have hrankb : vebRank n b = pre.length + (inorderComplete n (2 * b)).length := by
    have hlt : pre.length + (inorderComplete n (2 * b)).length
        < (inorderComplete n 1).length := by omega
    have hspec := vebRank_spec n (pre.length + (inorderComplete n (2 * b)).length) hlt
    rw [← getD_eq_getElem _ _ 0 hlt, hmid.2] at hspec
    exact hspec
  refine ⟨hrankb, ?_, ?_⟩
  · intro q hq
    obtain ⟨j, hjlt, hjval⟩ := List.mem_iff_getElem.mp hq
    have hblock : (inorderComplete n 1).getD (pre.length + j) 0
        = (inorderComplete n (2 * b)).getD j 0 := by
      rw [hdec, hnode]
      have hshape : (pre ++ (inorderComplete n (2 * b)
            ++ b :: inorderComplete n (2 * b + 1)) ++ suf)
          = pre ++ inorderComplete n (2 * b)
            ++ (b :: inorderComplete n (2 * b + 1) ++ suf) := by
        simp [List.append_assoc]
      rw [hshape]
      exact getD_append_block pre _ _ j hjlt 0
    have hlt2 : pre.length + j < (inorderComplete n 1).length := by omega
    have hspec := vebRank_spec n (pre.length + j) hlt2
    rw [← getD_eq_getElem _ _ 0 hlt2, hblock,
      getD_eq_getElem _ _ 0 hjlt, hjval] at hspec
    omega
  · intro q hq
    obtain ⟨j, hjlt, hjval⟩ := List.mem_iff_getElem.mp hq
    have hblock : (inorderComplete n 1).getD
        ((pre.length + (inorderComplete n (2 * b)).length + 1) + j) 0
        = (inorderComplete n (2 * b + 1)).getD j 0 := by
      rw [hdec, hnode]
      have hshape : (pre ++ (inorderComplete n (2 * b)
            ++ b :: inorderComplete n (2 * b + 1)) ++ suf)
          = (pre ++ inorderComplete n (2 * b) ++ [b])
            ++ inorderComplete n (2 * b + 1) ++ suf := by
        simp [List.append_assoc]
      rw [hshape]
      have hxlen : (pre ++ inorderComplete n (2 * b) ++ [b]).length
          = pre.length + (inorderComplete n (2 * b)).length + 1 := by
        simp [List.length_append]
        omega
      rw [← hxlen]
      exact getD_append_block _ _ _ j hjlt 0
    have hlt2 : (pre.length + (inorderComplete n (2 * b)).length + 1) + j
        < (inorderComplete n 1).length := by omega
    have hspec := vebRank_spec n _ hlt2
    rw [← getD_eq_getElem _ _ 0 hlt2, hblock,
      getD_eq_getElem _ _ 0 hjlt, hjval] at hspec
    omega

theorem pairwise_lt_getD (skeys : List Int) (hs : skeys.Pairwise (· < ·))
    (a b : Nat) (hab : a < b) (hb : b < skeys.length) :
    skeys.getD a 0 < skeys.getD b 0 := by
  rw [getD_eq_getElem _ _ _ (by omega), getD_eq_getElem _ _ _ hb]
  exact List.pairwise_iff_getElem.mp hs a b (by omega) hb hab

/-- Walking the explicit tree down from slot `phi b` visits exactly the
slots of the implicit subtree of `b`, provided the fuel covers its height. -/
theorem vebSubIdx_spec (n : Nat) (hn : 1 ≤ n) (tree : List SearchData)
    (htree : ∀ bfs, 1 ≤ bfs → bfs ≤ n →
      (tree.getD (vebPhi n bfs) default).c0
          = (if 2 * bfs ≤ n then vebPhi n (2 * bfs) else 0) ∧
      (tree.getD (vebPhi n bfs) default).c1
          = (if 2 * bfs + 1 ≤ n then vebPhi n (2 * bfs + 1) else 0)) :
    ∀ fuel b, 1 ≤ b → b ≤ n → n < b * 2 ^ fuel →
      ∀ j, j ∈ vebSubIdx tree fuel (vebPhi n b)
        ↔ ∃ q, q ∈ inorderComplete n b ∧ j = vebPhi n q := by
  intro fuel
  induction fuel with
  | zero =>
    intro b h1 h2 hfit
    have hp0 : (2 : Nat) ^ 0 = 1 := pow_zero 2
    exact absurd hfit (by omega)
  | succ fuel ih =>
    intro b h1 h2 hfit j
    have hphi := vebPhi_spec n hn b h1 h2
    have hnode := inorderComplete_eq_node (N := n) h1 h2
    have hc := htree b h1 h2
    have hps : (2 : Nat) ^ (fuel + 1) = 2 * 2 ^ fuel := two_pow_succ_eq fuel
    have hexp : 2 * b * 2 ^ fuel = b * 2 ^ (fuel + 1) := by
      rw [hps]
      ring
    have hmono : 2 * b * 2 ^ fuel ≤ (2 * b + 1) * 2 ^ fuel :=
      mul_le_mul_right' (by omega) (2 ^ fuel)
    have hL : j ∈ vebSubIdx tree fuel
          ((tree.getD (vebPhi n b) default).c0)
        ↔ ∃ q, q ∈ inorderComplete n (2 * b) ∧ j = vebPhi n q := by
      rw [hc.1]
      by_cases h2b : 2 * b ≤ n
      · rw [if_pos h2b]
        exact ih (2 * b) (by omega) h2b (by omega) j
      · rw [if_neg h2b, vebSubIdx_zero,
          inorderComplete_eq_nil (Or.inr (by omega))]
        simp
    have hR : j ∈ vebSubIdx tree fuel
          ((tree.getD (vebPhi n b) default).c1)
        ↔ ∃ q, q ∈ inorderComplete n (2 * b + 1) ∧ j = vebPhi n q := by
      rw [hc.2]
      by_cases h2b : 2 * b + 1 ≤ n
      · rw [if_pos h2b]
        exact ih (2 * b + 1) (by omega) h2b (by omega) j
      · rw [if_neg h2b, vebSubIdx_zero,
          inorderComplete_eq_nil (Or.inr (by omega))]
        simp
    rw [vebSubIdx_succ, if_neg (by omega)]
    simp only [List.mem_cons, List.mem_append, hL, hR]
    constructor
    · rintro (rfl | ⟨q, hq, rfl⟩ | ⟨q, hq, rfl⟩)
      · exact ⟨b, by rw [hnode]; simp, rfl⟩
      · refine ⟨q, ?_, rfl⟩
        rw [hnode]
        simp only [List.mem_append, List.mem_cons]
        exact Or.inl hq
      · refine ⟨q, ?_, rfl⟩
        rw [hnode]
        simp only [List.mem_append, List.mem_cons]
        exact Or.inr (Or.inr hq)
    · rintro ⟨q, hq, rfl⟩
      rw [hnode] at hq
      simp only [List.mem_append, List.mem_cons] at hq
      rcases hq with hq | rfl | hq
      · exact Or.inr (Or.inl ⟨q, hq, rfl⟩)
      · exact Or.inl rfl
      · exact Or.inr (Or.inr ⟨q, hq, rfl⟩)

/-- Both structural invariants of the built vEB tree, for distinct keys:
every slot `1..n` is visited by the walk from the root, and the strict BST
property holds at every slot. -/
theorem veb_invariants_all {V : Type} [Inhabited V]
    (entries : List (Int × V)) (s : VebLookup V)
    (h0 : entries.length ≠ 0)
    (hok : VebLookup.build entries = .ok s)
    (hdist : (sortedKeys entries).Pairwise (· < ·)) :
    (∀ idx, 1 ≤ idx → idx ≤ entries.length →
      idx ∈ vebSubIdx s.tree (entries.length + 1) s.root_idx) ∧
    (∀ idx, 1 ≤ idx → idx ≤ entries.length →
      (∀ j ∈ vebSubIdx s.tree entries.length ((s.tree.getD idx default).c0),
        (s.tree.getD j default).key ≤ (s.tree.getD idx default).key) ∧
      (∀ j ∈ vebSubIdx s.tree entries.length ((s.tree.getD idx default).c1),
        (s.tree.getD idx default).key < (s.tree.getD j default).key)) := by
  have hn1 : 1 ≤ entries.length := by omega
  have hcap : entries.length + 1 ≤ 2 ^ 32 - 1 := by
    by_contra hcon
    push_neg at hcon
    have herr := (veb_build_error_iff (V := V) entries).mpr (by omega)
    rw [hok] at herr
    simp at herr
  obtain ⟨s2, hok2, hn2, htreelen, hvalslen, hroot, hchar⟩ :=
    veb_build_spec (V := V) entries h0 hcap
  have hss : s2 = s := by
    have h := hok2.symm.trans hok
    injection h
  subst hss
  have hchild : ∀ bfs, 1 ≤ bfs → bfs ≤ entries.length →
      (s2.tree.getD (vebPhi entries.length bfs) default).c0
          = (if 2 * bfs ≤ entries.length
             then vebPhi entries.length (2 * bfs) else 0) ∧
      (s2.tree.getD (vebPhi entries.length bfs) default).c1
          = (if 2 * bfs + 1 ≤ entries.length
             then vebPhi entries.length (2 * bfs + 1) else 0) := by
    intro bfs h1 h2
    rw [(hchar bfs h1 h2).1]
    exact ⟨rfl, rfl⟩
  have hkey : ∀ bfs, 1 ≤ bfs → bfs ≤ entries.length →
      (s2.tree.getD (vebPhi entries.length bfs) default).key
        = (sortedKeys entries).getD (vebRank entries.length bfs) 0 := by
    intro bfs h1 h2
    rw [(hchar bfs h1 h2).1]
    exact (sortedKeys_getD entries _ (vebRank_lt entries.length hn1 bfs h1 h2)).symm
  have hsorted := sortedKeys_sorted entries
  have hsklen := sortedKeys_length entries
  refine ⟨?_, ?_⟩
  · intro idx h1 h2
    obtain ⟨b, hb1, hb2, hphib⟩ := vebPhi_surj entries.length hn1 idx h1 h2
    rw [hroot]
    have hfits : entries.length < 1 * 2 ^ (entries.length + 1) := by
      have hlt := Nat.lt_two_pow entries.length
      have hle : (2 : Nat) ^ entries.length ≤ 2 ^ (entries.length + 1) :=
        Nat.pow_le_pow_right (by norm_num) (by omega)
      omega
    refine (vebSubIdx_spec entries.length hn1 s2.tree hchild (entries.length + 1) 1
      le_rfl hn1 hfits idx).mpr ?_
    exact ⟨b, mem_inorderComplete_one.mpr ⟨hb1, hb2⟩, hphib.symm⟩
  · intro idx h1 h2
    obtain ⟨b, hb1, hb2, hphib⟩ := vebPhi_surj entries.length hn1 idx h1 h2
    subst hphib
    have hkeyb := hkey b hb1 hb2
    have hchildb := hchild b hb1 hb2
    obtain ⟨pre, suf, hdec⟩ := exists_ipos_decomp entries.length b hb1 hb2
    have hranks := vebRank_subtree entries.length b pre suf hb1 hb2 hdec
    have hrankblt := vebRank_lt entries.length hn1 b hb1 hb2
    constructor
    · intro j hj
      rw [hchildb.1] at hj
      by_cases h2b : 2 * b ≤ entries.length
      · rw [if_pos h2b] at hj
        have hfits : entries.length < 2 * b * 2 ^ entries.length := by
          have hlt := Nat.lt_two_pow entries.length
          have hble : 1 * 2 ^ entries.length ≤ 2 * b * 2 ^ entries.length :=
            mul_le_mul_right' (by omega) _
          omega
        obtain ⟨q, hqmem, rfl⟩ := (vebSubIdx_spec entries.length hn1 s2.tree hchild
          entries.length (2 * b) (by omega) h2b hfits j).mp hj
        have hqb := (mem_inorderComplete
          (N := entries.length) (by omega : 1 ≤ 2 * b)).mp hqmem
        have hq1 : 1 ≤ q := by
          have := isAnc_le hqb.2
          omega
        rw [hkey q hq1 hqb.1, hkeyb]
        have hrq := hranks.2.1 q hqmem
        exact pairwise_le_getD _ hsorted _ _ (by omega) (by omega)
      · rw [if_neg h2b, vebSubIdx_zero] at hj
        simp at hj
    · intro j hj
      rw [hchildb.2] at hj
      by_cases h2b : 2 * b + 1 ≤ entries.length
      · rw [if_pos h2b] at hj
        have hfits : entries.length < (2 * b + 1) * 2 ^ entries.length := by
          have hlt := Nat.lt_two_pow entries.length
          have hble : 1 * 2 ^ entries.length ≤ (2 * b + 1) * 2 ^ entries.length :=
            mul_le_mul_right' (by omega) _
          omega
        obtain ⟨q, hqmem, rfl⟩ := (vebSubIdx_spec entries.length hn1 s2.tree hchild
          entries.length (2 * b + 1) (by omega) h2b hfits j).mp hj
        have hqb := (mem_inorderComplete
          (N := entries.length) (by omega : 1 ≤ 2 * b + 1)).mp hqmem
        have hq1 : 1 ≤ q := by
          have := isAnc_le hqb.2
          omega
        rw [hkey q hq1 hqb.1, hkeyb]
        have hrq := hranks.2.2 q hqmem
        exact pairwise_lt_getD _ hdist _ _ (by omega)
          (by rw [hsklen]; exact vebRank_lt entries.length hn1 q hq1 hqb.1)
      · rw [if_neg h2b, vebSubIdx_zero] at hj
        simp at hj

/-- With duplicated keys the strict BST property fails in the built vEB
tree: on three copies of key `5`, the root and its right child both store
`5`. -/
theorem ce4_bst_violation : ∃ s : VebLookup Int,
    VebLookup.build (List.replicate 3 ((5 : Int), (0 : Int))) = .ok s ∧
    ∃ idx, 1 ≤ idx ∧ idx ≤ 3 ∧
      ∃ j, j ∈ vebSubIdx s.tree 3 ((s.tree.getD idx default).c1) ∧
        ¬ ((s.tree.getD idx default).key < (s.tree.getD j default).key) := by
  have h0 : (List.replicate 3 ((5 : Int), (0 : Int))).length ≠ 0 := by
    rw [List.length_replicate]
    omega
  have hcap : (List.replicate 3 ((5 : Int), (0 : Int))).length + 1 ≤ 2 ^ 32 - 1 := by
    rw [List.length_replicate]
    norm_num
  obtain ⟨s, hok, hn, htreelen, hvalslen, hroot, hchar⟩ :=
    veb_build_spec (V := Int) (List.replicate 3 ((5 : Int), (0 : Int))) h0 hcap
  have hlen : (List.replicate 3 ((5 : Int), (0 : Int))).length = 3 :=
    List.length_replicate 3 _
  rw [hlen] at hchar
  have hphi1 := vebPhi_spec 3 (by omega) 1 (by omega) (by omega)
  have hphi3 := vebPhi_spec 3 (by omega) 3 (by omega) (by omega)
  have hchar1 := hchar 1 (by omega) (by omega)
  have hchar3 := hchar 3 (by omega) (by omega)
  have hkeyval : ∀ bfs, 1 ≤ bfs → bfs ≤ 3 →
      (s.tree.getD (vebPhi 3 bfs) default).key = 5 := by
    intro bfs h1 h2
    rw [(hchar bfs h1 h2).1]
    show ((sortEntries (List.replicate 3 ((5 : Int), (0 : Int)))).getD
      (vebRank 3 bfs) (0, default)).1 = 5
    rw [sortEntries_replicate]
    have hrlt : vebRank 3 bfs < 3 := vebRank_lt 3 (by omega) bfs h1 h2
    rw [getD_eq_getElem _ _ _ (by rw [List.length_replicate]; omega),
      List.getElem_replicate]
  have hc1 : (s.tree.getD (vebPhi 3 1) default).c1 = vebPhi 3 3 := by
    rw [hchar1.1]
    show (if 2 * 1 + 1 ≤ 3 then vebPhi 3 (2 * 1 + 1) else 0) = vebPhi 3 3
    rw [if_pos (by omega)]
  have hc3c0 : (s.tree.getD (vebPhi 3 3) default).c0 = 0 := by
    rw [hchar3.1]
    show (if 2 * 3 ≤ 3 then vebPhi 3 (2 * 3) else 0) = 0
    rw [if_neg (by omega)]
  have hc3c1 : (s.tree.getD (vebPhi 3 3) default).c1 = 0 := by
    rw [hchar3.1]
    show (if 2 * 3 + 1 ≤ 3 then vebPhi 3 (2 * 3 + 1) else 0) = 0
    rw [if_neg (by omega)]
  refine ⟨s, hok, vebPhi 3 1, by omega, by omega, vebPhi 3 3, ?_, ?_⟩
  · rw [hc1, vebSubIdx_succ, if_neg (by omega), hc3c0, hc3c1, vebSubIdx_zero]
    exact List.mem_cons_self _ _
  · rw [hkeyval 1 (by omega) (by omega), hkeyval 3 (by omega) (by omega)]
    norm_num

/-! ### Size of a full subtree of the truncated implicit tree -/

/-- If the subtree of `bfs` covers depths `0..hgt` completely and nothing
deeper, its in-order traversal has the size of the perfect tree of that
height. -/
theorem inorderComplete_length_full (n : Nat) :
    ∀ hgt bfs, 1 ≤ bfs → (bfs + 1) * 2 ^ hgt - 1 ≤ n → bfs * 2 ^ (hgt + 1) > n →
      (inorderComplete n bfs).length = 2 ^ (hgt + 1) - 1 := by
  intro hgt
  induction hgt with
  | zero =>
    intro bfs h1 h2 h3
    simp only [pow_zero, Nat.mul_one] at h2
    rw [inorderComplete_eq_node h1 (by omega)]
    rw [inorderComplete_eq_nil (by right; omega),
      inorderComplete_eq_nil (by right; omega)]
    simp
  | succ hgt ih =>
    intro bfs h1 h2 h3
    have hp : (1 : Nat) ≤ 2 ^ hgt := Nat.one_le_two_pow
    have hps1 : (2 : Nat) ^ (hgt + 1) = 2 * 2 ^ hgt := two_pow_succ_eq hgt
    have h2a : (bfs + 1) * 2 ^ (hgt + 1) ≤ n + 1 := by omega
    have he1 : (bfs + 1) * 2 ^ (hgt + 1) = (2 * bfs + 2) * 2 ^ hgt := by ring
    have he2 : bfs * 2 ^ (hgt + 1 + 1) = 2 * bfs * 2 ^ (hgt + 1) := by ring
    have hm1 : (2 * bfs + 1) * 2 ^ hgt ≤ (2 * bfs + 2) * 2 ^ hgt :=
      Nat.mul_le_mul_right _ (by omega)
    have hm2 : 2 * bfs * 2 ^ (hgt + 1) ≤ (2 * bfs + 1) * 2 ^ (hgt + 1) :=
      Nat.mul_le_mul_right _ (by omega)
    have h2pow : (2 : Nat) ≤ 2 ^ (hgt + 1) := by omega
    have hq : (bfs + 1) * 2 ≤ (bfs + 1) * 2 ^ (hgt + 1) :=
      Nat.mul_le_mul_left _ h2pow
    have hble : bfs ≤ n := by omega
    rw [inorderComplete_eq_node h1 hble]
    have he3 : (2 * bfs + 2) * 2 ^ hgt = (2 * bfs + 1 + 1) * 2 ^ hgt := by ring
    have hL := ih (2 * bfs) (by omega) (by omega) (by omega)
    have hR := ih (2 * bfs + 1) (by omega) (by omega) (by omega)
    rw [List.length_append, List.length_cons, hL, hR]
    omega

theorem ceEntries_length : ceEntries.length = 2 ^ 34 - 1 := by
  unfold ceEntries
  rw [List.length_append, List.length_replicate, List.length_replicate]
  have h33 : (2 : Nat) ^ 33 = 8589934592 := by norm_num
  have h34 : (2 : Nat) ^ 34 = 17179869184 := by norm_num
  omega

theorem ceEntries_sorted : ceEntries.Pairwise (fun a b => a.1 ≤ b.1) := by
  unfold ceEntries
  rw [List.pairwise_append]
  refine ⟨?_, ?_, ?_⟩
  · rw [List.pairwise_iff_getElem]
    intro i j hi hj hij
    rw [List.getElem_replicate, List.getElem_replicate]
  · rw [List.pairwise_iff_getElem]
    intro i j hi hj hij
    rw [List.getElem_replicate, List.getElem_replicate]
  · intro a ha b hb
    rw [List.eq_of_mem_replicate ha, List.eq_of_mem_replicate hb]
    norm_num

theorem ce_sortEntries : sortEntries ceEntries = ceEntries :=
  sortEntries_of_sorted ceEntries_sorted

theorem ce_skeys : sortedKeys ceEntries
    = List.replicate (2 ^ 33 - 1) (0 : Int) ++ List.replicate (2 ^ 33) (5 : Int) := by
  unfold sortedKeys
  rw [ce_sortEntries]
  unfold ceEntries
  rw [List.map_append, List.map_replicate, List.map_replicate]

theorem ce_skeys_getD (r : Nat) (hr : r < 2 ^ 34 - 1) :
    (sortedKeys ceEntries).getD r 0 = if r < 2 ^ 33 - 1 then (0 : Int) else 5 := by
  have h33 : (2 : Nat) ^ 33 = 8589934592 := by norm_num
  have h34 : (2 : Nat) ^ 34 = 17179869184 := by norm_num
  rw [ce_skeys]
  have hlen : (List.replicate (2 ^ 33 - 1) (0 : Int)
      ++ List.replicate (2 ^ 33) (5 : Int)).length = 2 ^ 34 - 1 := by
    rw [List.length_append, List.length_replicate, List.length_replicate]
    omega
  rw [getD_eq_getElem _ _ _ (by omega), List.getElem_append]
  by_cases hcase : r < 2 ^ 33 - 1
  · rw [dif_pos (by rw [List.length_replicate]; omega)]
    rw [List.getElem_replicate, if_pos hcase]
  · rw [dif_neg (by rw [List.length_replicate]; omega)]
    rw [List.getElem_replicate, if_neg hcase]

/-- Size of the left subtree of the path node `3·2^k − 1` in the tree on
`1..2³⁴ − 1`: it is full of height `31 − k`. -/
theorem ce_sub_len (k : Nat) (hk : k ≤ 31) :
    (inorderComplete (2 ^ 34 - 1) (2 * (3 * 2 ^ k - 1))).length = 2 ^ (32 - k) - 1 := by
  have hA : 1 ≤ (2 : Nat) ^ k := Nat.one_le_pow k 2 (by norm_num)
  have hAB : (2 : Nat) ^ k * 2 ^ (31 - k) = 2 ^ 31 := by
    rw [← pow_add]
    congr 1
    omega
  have hAC : (2 : Nat) ^ k * 2 ^ (32 - k) = 2 ^ 32 := by
    rw [← pow_add]
    congr 1
    omega
  have hB : 1 ≤ (2 : Nat) ^ (31 - k) := Nat.one_le_pow _ 2 (by norm_num)
  have hcond2 : (2 * (3 * 2 ^ k - 1) + 1) * 2 ^ (31 - k) - 1 ≤ 2 ^ 34 - 1 := by
    have he : 2 * (3 * 2 ^ k - 1) + 1 = 6 * 2 ^ k - 1 := by omega
    rw [he, Nat.sub_mul]
    have he2 : 6 * 2 ^ k * 2 ^ (31 - k) = 6 * 2 ^ 31 := by
      rw [mul_assoc, hAB]
    rw [he2]
    have h31 : (2 : Nat) ^ 31 = 2147483648 := by norm_num
    have h34 : (2 : Nat) ^ 34 = 17179869184 := by norm_num
    omega
  have hcond3 : 2 * (3 * 2 ^ k - 1) * 2 ^ (31 - k + 1) > 2 ^ 34 - 1 := by
    have he : 2 * (3 * 2 ^ k - 1) = 6 * 2 ^ k - 2 := by omega
    rw [show 31 - k + 1 = 32 - k from by omega, he, Nat.sub_mul]
    have he2 : 6 * 2 ^ k * 2 ^ (32 - k) = 6 * 2 ^ 32 := by
      rw [mul_assoc, hAC]
    rw [he2]
    have hCle : (2 : Nat) ^ (32 - k) ≤ 2 ^ 32 :=
      Nat.pow_le_pow_right (by norm_num) (by omega)
    have h32 : (2 : Nat) ^ 32 = 4294967296 := by norm_num
    have h34 : (2 : Nat) ^ 34 = 17179869184 := by norm_num
    omega
  have hlen := inorderComplete_length_full (2 ^ 34 - 1) (31 - k) (2 * (3 * 2 ^ k - 1))
    (by omega) hcond2 hcond3
  rw [hlen, show 31 - k + 1 = 32 - k from by omega]

/-- The search path for target `5`: node `3·2^k − 1` sits at depth `k + 1`,
with `2³³ − 2^(33−k)` positions of the traversal strictly before its
subtree. -/
theorem ce_path : ∀ k, k ≤ 32 →
    ∃ pre suf : List Nat,
      inorderComplete (2 ^ 34 - 1) 1
        = pre ++ inorderComplete (2 ^ 34 - 1) (3 * 2 ^ k - 1) ++ suf ∧
      pre.length = 2 ^ 33 - 2 ^ (33 - k) := by
  intro k
  induction k with
  | zero =>
    intro _
    refine ⟨[], 1 :: inorderComplete (2 ^ 34 - 1) 3, ?_, by norm_num⟩
    rw [show 3 * 2 ^ 0 - 1 = 2 from by norm_num, List.nil_append]
    have hnode := @inorderComplete_eq_node (2 ^ 34 - 1) 1 le_rfl
      (by norm_num)
    rw [hnode]
  | succ k ih =>
    intro hk1
    obtain ⟨pre, suf, hdec, hplen⟩ := ih (by omega)
    have hA : 1 ≤ (2 : Nat) ^ k := Nat.one_le_pow k 2 (by norm_num)
    have hAle : (2 : Nat) ^ k ≤ 2 ^ 31 :=
      Nat.pow_le_pow_right (by norm_num) (by omega)
    have h31 : (2 : Nat) ^ 31 = 2147483648 := by norm_num
    have h32 : (2 : Nat) ^ 32 = 4294967296 := by norm_num
    have h33 : (2 : Nat) ^ 33 = 8589934592 := by norm_num
    have h34 : (2 : Nat) ^ 34 = 17179869184 := by norm_num
    have hnode := @inorderComplete_eq_node (2 ^ 34 - 1) (3 * 2 ^ k - 1)
      (by omega) (by omega)
    have hsucc : 3 * 2 ^ (k + 1) - 1 = 2 * (3 * 2 ^ k - 1) + 1 := by
      have := two_pow_succ_eq k
      omega
    have hsub := ce_sub_len k (by omega)
    refine ⟨pre ++ inorderComplete (2 ^ 34 - 1) (2 * (3 * 2 ^ k - 1))
        ++ [3 * 2 ^ k - 1], suf, ?_, ?_⟩
    · rw [hsucc, hdec, hnode]
      simp [List.append_assoc]
    · simp only [List.length_append, List.length_cons, List.length_nil, hplen, hsub]
      have hD : (2 : Nat) ^ (33 - k) = 2 * 2 ^ (32 - k) := by
        rw [← two_pow_succ_eq]
        congr 1
        omega
      have hCpos : 1 ≤ (2 : Nat) ^ (32 - k) := Nat.one_le_pow _ 2 (by norm_num)
      have hCle : (2 : Nat) ^ (32 - k) ≤ 2 ^ 32 :=
        Nat.pow_le_pow_right (by norm_num) (by omega)
      rw [show 33 - (k + 1) = 32 - k from by omega]
      omega

/-- Every proper path node for target `5` carries key `0`: its in-order rank
falls inside the initial zero block. -/
theorem ce_key_at (k : Nat) (hk : k ≤ 32) :
    (EytzingerLookup.build ceEntries).keys.getD (3 * 2 ^ k - 1) 0 = 0 := by
  have hA : 1 ≤ (2 : Nat) ^ k := Nat.one_le_pow k 2 (by norm_num)
  have hAle : (2 : Nat) ^ k ≤ 2 ^ 32 := Nat.pow_le_pow_right (by norm_num) hk
  have h32 : (2 : Nat) ^ 32 = 4294967296 := by norm_num
  have h33 : (2 : Nat) ^ 33 = 8589934592 := by norm_num
  have h34 : (2 : Nat) ^ 34 = 17179869184 := by norm_num
  obtain ⟨pre, suf, hdec, hplen⟩ := ce_path k hk
  have hmid := posList_getD_mid (2 ^ 34 - 1) (3 * 2 ^ k - 1) pre suf (by omega)
    (by omega) hdec
  have hrsmall : pre.length
      + (inorderComplete (2 ^ 34 - 1) (2 * (3 * 2 ^ k - 1))).length
      < 2 ^ 33 - 1 := by
    by_cases hk31 : k ≤ 31
    · have hsub := ce_sub_len k hk31
      have hD : (2 : Nat) ^ (33 - k) = 2 * 2 ^ (32 - k) := by
        rw [← two_pow_succ_eq]
        congr 1
        omega
      have hCpos : 1 ≤ (2 : Nat) ^ (32 - k) := Nat.one_le_pow _ 2 (by norm_num)
      have hCle : (2 : Nat) ^ (32 - k) ≤ 2 ^ 32 :=
        Nat.pow_le_pow_right (by norm_num) (by omega)
      rw [hplen, hsub]
      omega
    · have hkeq : k = 32 := by omega
      subst hkeq
      have hnil : inorderComplete (2 ^ 34 - 1) (2 * (3 * 2 ^ 32 - 1)) = [] :=
        inorderComplete_eq_nil (Or.inr (by omega))
      rw [hplen, hnil]
      norm_num
  have hk0 : ceEntries.length ≠ 0 := by
    rw [ceEntries_length]
    omega
  have hkeys := (eyt_keys_getD ceEntries hk0).1
  have hkr := hkeys
    (pre.length + (inorderComplete (2 ^ 34 - 1) (2 * (3 * 2 ^ k - 1))).length)
    (by rw [ceEntries_length]; exact hmid.1)
  rw [ceEntries_length, hmid.2] at hkr
  rw [hkr, ce_skeys_getD _ hmid.1, if_pos hrsmall]

/-- The root (BFS index 1) carries key `5`: its rank is exactly the size of
the zero block. -/
theorem ce_root_key :
    (EytzingerLookup.build ceEntries).keys.getD 1 0 = 5 := by
  have h32 : (2 : Nat) ^ 32 = 4294967296 := by norm_num
  have h33 : (2 : Nat) ^ 33 = 8589934592 := by norm_num
  have h34 : (2 : Nat) ^ 34 = 17179869184 := by norm_num
  have hdec : inorderComplete (2 ^ 34 - 1) 1
      = [] ++ inorderComplete (2 ^ 34 - 1) 1 ++ [] := by
    rw [List.nil_append, List.append_nil]
  have hmid := posList_getD_mid (2 ^ 34 - 1) 1 [] [] le_rfl (by omega) hdec
  have hsub : (inorderComplete (2 ^ 34 - 1) (2 * 1)).length = 2 ^ 33 - 1 := by
    have hlen := inorderComplete_length_full (2 ^ 34 - 1) 32 2 (by norm_num)
      (by norm_num) (by norm_num)
    rw [show 2 * 1 = 2 from rfl, hlen]
  have hidx : ([] : List Nat).length + (2 ^ 33 - 1) = 2 ^ 33 - 1 := by
    rw [List.length_nil, Nat.zero_add]
  rw [hsub, hidx] at hmid
  have hk0 : ceEntries.length ≠ 0 := by
    rw [ceEntries_length]
    omega
  have hkeys := (eyt_keys_getD ceEntries hk0).1
  have hkr := hkeys (2 ^ 33 - 1) (by rw [ceEntries_length]; omega)
  rw [ceEntries_length, hmid.2] at hkr
  rw [hkr, ce_skeys_getD _ (by omega), if_neg (by omega)]

/-- From any path node on, the descent for target `5` goes right on key `0`
all the way down and exits at index `3·2³³ − 1`. -/
theorem ce_descend_aux :
    ∀ m k, 33 - k = m → k ≤ 33 →
      eytDescend (2 ^ 34 - 1) (EytzingerLookup.build ceEntries).keys 5
        (3 * 2 ^ k - 1) = 3 * 2 ^ 33 - 1 := by
  intro m
  induction m using Nat.strong_induction_on with
  | _ m ih =>
    intro k hm hk
    have hA : 1 ≤ (2 : Nat) ^ k := Nat.one_le_pow k 2 (by norm_num)
    have h33 : (2 : Nat) ^ 33 = 8589934592 := by norm_num
    have h34 : (2 : Nat) ^ 34 = 17179869184 := by norm_num
    by_cases hk32 : k ≤ 32
    · have hAle : (2 : Nat) ^ k ≤ 2 ^ 32 :=
        Nat.pow_le_pow_right (by norm_num) hk32
      have h32 : (2 : Nat) ^ 32 = 4294967296 := by norm_num
      rw [eytDescend, dif_pos ⟨by omega, by omega⟩]
      rw [ce_key_at k hk32]
      rw [if_pos (by norm_num : (0 : Int) < 5)]
      have hstep : 2 * (3 * 2 ^ k - 1) + 1 = 3 * 2 ^ (k + 1) - 1 := by
        have := two_pow_succ_eq k
        omega
      rw [hstep]
      exact ih (33 - (k + 1)) (by omega) (k + 1) rfl (by omega)
    · have hkeq : k = 33 := by omega
      subst hkeq
      rw [eytDescend, dif_neg (by omega)]

/-- The full descent for target `5` from the root: left once at the root
(key `5`), then right 33 times, exiting at `3·2³³ − 1`. -/
theorem ce_descend :
    eytDescend (2 ^ 34 - 1) (EytzingerLookup.build ceEntries).keys 5 1
      = 3 * 2 ^ 33 - 1 := by
  have h34 : (2 : Nat) ^ 34 = 17179869184 := by norm_num
  rw [eytDescend, dif_pos ⟨le_rfl, by omega⟩]
  rw [ce_root_key, if_neg (by norm_num : ¬ (5 : Int) < 5)]
  rw [show 2 * 1 + 0 = 3 * 2 ^ 0 - 1 from by norm_num]
  exact ce_descend_aux 33 0 rfl (by omega)

/-- `EytzingerLookup::find` in the nonempty case, with the recovery index
spelled out. -/
theorem EytzingerLookup.find_eq_rec {V : Type} [Inhabited V]
    (s : EytzingerLookup V) (target : Int) (h0 : s.n ≠ 0) :
    s.find target =
      (if 0 < eytRecovered s.n s.keys target ∧
          eytRecovered s.n s.keys target ≤ s.n ∧
          s.keys.getD (eytRecovered s.n s.keys target) 0 = target
       then some (s.vals.getD (eytRecovered s.n s.keys target) default)
       else none) := by
  unfold EytzingerLookup.find
  rw [if_neg h0]

/-- On the two-block input the Eytzinger search for the present key `5`
returns nothing: the exit index `3·2³³ − 1` is all-ones in its low 32 bits,
so the truncated `ffs` is `0` and the recovery shift does not move. -/
theorem ce_eyt_find_none : (EytzingerLookup.build ceEntries).find 5 = none := by
  have h32 : (2 : Nat) ^ 32 = 4294967296 := by norm_num
  have h33 : (2 : Nat) ^ 33 = 8589934592 := by norm_num
  have h34 : (2 : Nat) ^ 34 = 17179869184 := by norm_num
  have hn : (EytzingerLookup.build ceEntries).n = 2 ^ 34 - 1 := by
    rw [eyt_build_n, ceEntries_length]
  have hrec : eytRecovered (2 ^ 34 - 1) (EytzingerLookup.build ceEntries).keys 5
      = 3 * 2 ^ 33 - 1 := by
    rw [eytRecovered_def, ce_descend]
    have harg : 2 ^ 32 - 1 - (3 * 2 ^ 33 - 1) % 2 ^ 32 = 0 := by
      rw [h32, h33]
    rw [harg, ffs_zero, Nat.shiftRight_zero]
  rw [EytzingerLookup.find_eq_rec _ _ (by rw [hn]; omega)]
  rw [hn, hrec]
  rw [if_neg]
  intro hcon
  exact absurd hcon.2.1 (by omega)

/-- If every in-range key is below the target, the descent goes right at
every node: starting from `i` it exits at `(i+1)·2^k − 1`, where `k` is the
depth at which that expression first exceeds `n`. -/
theorem eytDescend_all_right (n : Nat) (keys : List Int) (target : Int)
    (hkeys : ∀ p, 1 ≤ p → p ≤ n → keys.getD p 0 < target) :
    ∀ k, ∀ i, 1 ≤ i → (∀ j, j < k → (i + 1) * 2 ^ j - 1 ≤ n) →
      (i + 1) * 2 ^ k - 1 > n →
      eytDescend n keys target i = (i + 1) * 2 ^ k - 1 := by
  intro k
  induction k with
  | zero =>
    intro i hi _ hgt
    have hp0 : (2 : Nat) ^ 0 = 1 := pow_zero 2
    rw [eytDescend, dif_neg (by omega)]
    omega
  | succ k ih =>
    intro i hi hle hgt
    have hp0 : (2 : Nat) ^ 0 = 1 := pow_zero 2
    have h0 := hle 0 (by omega)
    have hin : i ≤ n := by omega
    rw [eytDescend, dif_pos ⟨hi, hin⟩, if_pos (hkeys i hi hin)]
    have hres := ih (2 * i + 1) (by omega)
      (fun j hj => by
        have hj1 := hle (j + 1) (by omega)
        have hps : (2 : Nat) ^ (j + 1) = 2 * 2 ^ j := two_pow_succ_eq j
        have hexp : (2 * i + 1 + 1) * 2 ^ j = (i + 1) * 2 ^ (j + 1) := by
          rw [hps]
          ring
        omega)
      (by
        have hps : (2 : Nat) ^ (k + 1) = 2 * 2 ^ k := two_pow_succ_eq k
        have hexp : (2 * i + 1 + 1) * 2 ^ k = (i + 1) * 2 ^ (k + 1) := by
          rw [hps]
          ring
        omega)
    rw [hres]
    have hps : (2 : Nat) ^ (k + 1) = 2 * 2 ^ k := two_pow_succ_eq k
    have hexp : (2 * i + 1 + 1) * 2 ^ k = (i + 1) * 2 ^ (k + 1) := by
      rw [hps]
      ring
    omega

/-- Every in-range slot of the structure built from constant-key entries
holds that key. -/
theorem eyt_keys_const (m : Nat) (hm : m ≠ 0) :
    ∀ p, 1 ≤ p → p ≤ m →
      (EytzingerLookup.build (List.replicate m ((0 : Int), (0 : Int)))).keys.getD p 0
        = 0 := by
  intro p hp1 hp2
  have hlen : (List.replicate m ((0 : Int), (0 : Int))).length = m :=
    List.length_replicate m _
  have hmem : p ∈ inorderComplete m 1 := mem_inorderComplete_one.mpr ⟨hp1, hp2⟩
  obtain ⟨j, hj, hjp⟩ := List.mem_iff_getElem.mp hmem
  have hilen : (inorderComplete m 1).length = m := inorderComplete_length m
  have hkeys := (eyt_keys_getD (List.replicate m ((0 : Int), (0 : Int)))
    (by rw [hlen]; exact hm)).1
  have hk := hkeys j (by rw [hlen]; omega)
  rw [hlen] at hk
  have hgd : (inorderComplete m 1).getD j 0 = p := by
    rw [getD_eq_getElem _ _ _ hj]
    exact hjp
  rw [hgd] at hk
  rw [hk]
  have hsk : sortedKeys (List.replicate m ((0 : Int), (0 : Int)))
      = List.replicate m (0 : Int) := by
    unfold sortedKeys
    rw [sortEntries_replicate, List.map_replicate]
  rw [hsk]
  rw [getD_eq_getElem _ _ _ (by rw [List.length_replicate]; omega),
    List.getElem_replicate]

/-- `__builtin_ffs` is positive on a nonzero argument. -/
theorem ffs_pos (x : Nat) (hx : x ≠ 0) : 1 ≤ ffs x := by
  rw [ffs, if_neg hx]
  split <;> omega

/-- On the all-zero input of maximal full-tree size `2³¹ − 1`, searching any
positive target descends right everywhere and exits at the all-ones index
`2³² − 1`. -/
theorem ce5_descend :
    eytDescend (2 ^ 31 - 1)
      (EytzingerLookup.build (List.replicate (2 ^ 31 - 1) ((0 : Int), (0 : Int)))).keys
      1 1 = 2 ^ 32 - 1 := by
  have h31 : (2 : Nat) ^ 31 = 2147483648 := by norm_num
  have h32 : (2 : Nat) ^ 32 = 4294967296 := by norm_num
  have hres := eytDescend_all_right (2 ^ 31 - 1)
    (EytzingerLookup.build (List.replicate (2 ^ 31 - 1) ((0 : Int), (0 : Int)))).keys
    1
    (fun p hp1 hp2 => by
      rw [eyt_keys_const (2 ^ 31 - 1) (by omega) p hp1 hp2]
      norm_num)
    31 1 le_rfl
    (fun j hj => by
      have hps : (2 : Nat) ^ (j + 1) = 2 * 2 ^ j := two_pow_succ_eq j
      have hle : (2 : Nat) ^ (j + 1) ≤ 2 ^ 31 :=
        Nat.pow_le_pow_right (by norm_num) (by omega)
      omega)
    (by omega)
  rw [hres]
  omega

/-- Lower bound of the two-block key list at target `5`: the first rank of
the `5` block. -/
theorem ce_lb : lbIdx (sortedKeys ceEntries) 5 = 2 ^ 33 - 1 := by
  have h33 : (2 : Nat) ^ 33 = 8589934592 := by norm_num
  have h34 : (2 : Nat) ^ 34 = 17179869184 := by norm_num
  have hlen : (sortedKeys ceEntries).length = 2 ^ 34 - 1 := by
    rw [sortedKeys_length, ceEntries_length]
  apply lbIdx_eq_of _ _ _ (by omega)
  · intro j hj hj2
    rw [← getD_eq_getElem _ _ 0 hj2, ce_skeys_getD j (by omega), if_pos (by omega)]
    norm_num
  · have hm2 : (2 ^ 33 - 1 : Nat) < (sortedKeys ceEntries).length := by omega
    refine Or.inr ⟨hm2, ?_⟩
    rw [← getD_eq_getElem _ _ 0 hm2, ce_skeys_getD _ (by omega), if_neg (by omega)]
    norm_num

theorem ce_svals : sortedVals ceEntries
    = List.replicate (2 ^ 33 - 1) (0 : Int) ++ List.replicate (2 ^ 33) (5 : Int) := by
  unfold sortedVals
  rw [ce_sortEntries]
  unfold ceEntries
  rw [List.map_append, List.map_replicate, List.map_replicate]

/-- The sorted layout does find the present key `5` on the two-block input,
returning its value `5`. -/
theorem ce_sorted_find : (SortedLookup.build ceEntries).find 5 = some 5 := by
  have h33 : (2 : Nat) ^ 33 = 8589934592 := by norm_num
  have h34 : (2 : Nat) ^ 34 = 17179869184 := by norm_num
  rw [SortedLookup.find_eq_lb, ce_lb]
  rw [if_pos ⟨by rw [sortedKeys_length, ceEntries_length]; omega,
    by rw [ce_skeys_getD _ (by omega), if_neg (by omega)]⟩]
  rw [ce_svals]
  have hL : (List.replicate (2 ^ 33 - 1) (0 : Int)
      ++ List.replicate (2 ^ 33) (5 : Int)).length = 2 ^ 34 - 1 := by
    rw [List.length_append, List.length_replicate, List.length_replicate]
    omega
  rw [getD_eq_getElem _ _ _ (by rw [hL]; omega)]
  rw [List.getElem_append, dif_neg (by rw [List.length_replicate]; omega)]
  rw [List.getElem_replicate]

theorem vebFindLoop1_succ (tree : List SearchData1) (target : Int)
    (fuel curr cand : Nat) :
    vebFindLoop1 tree target (fuel + 1) curr cand =
      if curr = 0 then cand
      else if target ≤ (tree.getD curr default).key then
        vebFindLoop1 tree target fuel (tree.getD curr default).left curr
      else vebFindLoop1 tree target fuel (tree.getD curr default).right cand := rfl

theorem getD_map_sd1 (t : List SearchData) (i : Nat) :
    (t.map sd1).getD i default = sd1 (t.getD i default) := by
  by_cases h : i < t.length
  · rw [getD_eq_getElem _ _ _ (by rw [List.length_map]; exact h),
      getD_eq_getElem _ _ _ h, List.getElem_map]
  · rw [List.getD_eq_getElem?_getD, List.getD_eq_getElem?_getD,
      List.getElem?_eq_none (by rw [List.length_map]; omega),
      List.getElem?_eq_none (by omega)]
    rfl

theorem map_set_sd1 (t : List SearchData) (i : Nat) (x : SearchData) :
    (t.set i x).map sd1 = (t.map sd1).set i (sd1 x) :=
  List.map_set

/-- The two fill loops perform the same writes, up to node relabelling. -/
theorem vebFillTree1_eq {V : Type} [Inhabited V] (n : Nat)
    (sorted : List (Int × V)) (b2v b2s : List Nat) :
    ∀ bfsList (t : List SearchData) (v : List V),
      vebFillTree1 n sorted b2v b2s bfsList (t.map sd1, v)
        = ((vebFillTree n sorted b2v b2s bfsList (t, v)).1.map sd1,
           (vebFillTree n sorted b2v b2s bfsList (t, v)).2) := by
  intro bfsList
  induction bfsList with
  | nil =>
    intro t v
    rfl
  | cons bfs rest ih =>
    intro t v
    have h1 : vebFillTree1 n sorted b2v b2s (bfs :: rest) (t.map sd1, v)
        = vebFillTree1 n sorted b2v b2s rest
            ((t.set (b2v.getD bfs 0)
              ⟨(sorted.getD (b2s.getD bfs 0) (0, default)).1,
               (if 2 * bfs ≤ n then b2v.getD (2 * bfs) 0 else 0),
               (if 2 * bfs + 1 ≤ n then b2v.getD (2 * bfs + 1) 0 else 0)⟩).map sd1,
             v.set (b2v.getD bfs 0) (sorted.getD (b2s.getD bfs 0) (0, default)).2) := by
      show vebFillTree1 n sorted b2v b2s rest
          ((t.map sd1).set (b2v.getD bfs 0)
            (sd1 ⟨(sorted.getD (b2s.getD bfs 0) (0, default)).1,
               (if 2 * bfs ≤ n then b2v.getD (2 * bfs) 0 else 0),
               (if 2 * bfs + 1 ≤ n then b2v.getD (2 * bfs + 1) 0 else 0)⟩),
           v.set (b2v.getD bfs 0) (sorted.getD (b2s.getD bfs 0) (0, default)).2) = _
      rw [map_set_sd1]
    rw [h1, ih]
    rfl

/-- The branching v1 walk computes the same candidate as the branchless v2
walk on the relabelled tree. -/
theorem vebFindLoop1_eq (tree : List SearchData) (target : Int) :
    ∀ fuel curr cand,
      vebFindLoop1 (tree.map sd1) target fuel curr cand
        = vebFindLoop tree target fuel curr cand := by
  intro fuel
  induction fuel with
  | zero =>
    intro curr cand
    rfl
  | succ fuel ih =>
    intro curr cand
    rw [vebFindLoop1_succ, vebFindLoop_succ]
    by_cases hc : curr = 0
    · rw [if_pos hc, if_pos hc]
    · rw [if_neg hc, if_neg hc, getD_map_sd1]
      show (if target ≤ (tree.getD curr default).key then
          vebFindLoop1 (tree.map sd1) target fuel (tree.getD curr default).c0 curr
        else vebFindLoop1 (tree.map sd1) target fuel (tree.getD curr default).c1 cand) = _
      by_cases hk : target ≤ (tree.getD curr default).key
      · rw [if_pos hk, ih, if_neg (not_lt.mpr hk), if_pos hk]
      · rw [if_neg hk, ih, if_pos (not_le.mp hk), if_neg hk]

/-- v1 `find` agrees with v2 `find` on relabelled structures. -/
theorem veb1_find_eq {V : Type} [Inhabited V] (t : List SearchData) (v : List V)
    (n r : Nat) (target : Int) :
    VebLookup1.find ⟨t.map sd1, v, n, r⟩ target
      = VebLookup.find ⟨t, v, n, r⟩ target := by
  unfold VebLookup1.find VebLookup.find
  by_cases h : n = 0
  · rw [if_pos h, if_pos h]
  · rw [if_neg h, if_neg h]
    show (if vebFindLoop1 (t.map sd1) target (n + 1) r 0 ≠ 0 ∧
        ((t.map sd1).getD (vebFindLoop1 (t.map sd1) target (n + 1) r 0) default).key
          = target
      then some (v.getD (vebFindLoop1 (t.map sd1) target (n + 1) r 0) default)
      else none) = _
    rw [vebFindLoop1_eq, getD_map_sd1]
    rfl

/-- Within the range where the v1 `int` arithmetic is defined, both builds
succeed and the two structures answer every query identically. -/
theorem veb1_refines_veb2 {V : Type} [Inhabited V] (entries : List (Int × V))
    (hn : 2 * entries.length + 1 ≤ 2 ^ 31 - 1) :
    ∃ (s1 : VebLookup1 V) (s2 : VebLookup V),
      VebLookup1.build entries = some s1 ∧
      VebLookup.build entries = .ok s2 ∧
      ∀ target, s1.find target = s2.find target := by
  have hlen : (sortEntries entries).length = entries.length :=
    sortEntries_length entries
  by_cases h0 : entries.length = 0
  · have hnil : entries = [] := List.length_eq_zero.mp h0
    subst hnil
    refine ⟨⟨[], [], 0, 0⟩, ⟨[], [], 0, 0⟩, ?_, ?_, ?_⟩
    · simp [VebLookup1.build, sortEntries_length]
    · simp [VebLookup.build, VebLookup.buildSt, VebLookup.init, sortEntries_length]
    · intro target
      simp [VebLookup1.find, VebLookup.find]
  · have h31 : (2 : Nat) ^ 31 = 2147483648 := by norm_num
    have h32 : (2 : Nat) ^ 32 = 4294967296 := by norm_num
    have hb2 : VebLookup.build entries = .ok
        { tree := (vebFillTree entries.length (sortEntries entries)
            (bfsToVeb entries.length
              (buildVebComplete entries.length 1 (Nat.log2 entries.length + 1)))
            (bfsToSorted entries.length (inorderComplete entries.length 1))
            (List.range' 1 entries.length)
            (List.replicate (entries.length + 1) default,
             List.replicate (entries.length + 1) default)).1,
          vals := (vebFillTree entries.length (sortEntries entries)
            (bfsToVeb entries.length
              (buildVebComplete entries.length 1 (Nat.log2 entries.length + 1)))
            (bfsToSorted entries.length (inorderComplete entries.length 1))
            (List.range' 1 entries.length)
            (List.replicate (entries.length + 1) default,
             List.replicate (entries.length + 1) default)).2,
          n := entries.length,
          root_idx := (bfsToVeb entries.length
            (buildVebComplete entries.length 1 (Nat.log2 entries.length + 1))).getD
              1 0 } := by
      unfold VebLookup.build VebLookup.buildSt VebLookup.init
      simp only [hlen, listResize_nil]
      rw [if_neg h0, if_neg (by omega)]
    have hb1 : VebLookup1.build entries = some
        { tree := (vebFillTree1 entries.length (sortEntries entries)
            (bfsToVeb entries.length
              (buildVebComplete entries.length 1 (Nat.log2 entries.length + 1)))
            (bfsToSorted entries.length (inorderComplete entries.length 1))
            (List.range' 1 entries.length)
            (List.replicate (entries.length + 1) default,
             List.replicate (entries.length + 1) default)).1,
          vals := (vebFillTree1 entries.length (sortEntries entries)
            (bfsToVeb entries.length
              (buildVebComplete entries.length 1 (Nat.log2 entries.length + 1)))
            (bfsToSorted entries.length (inorderComplete entries.length 1))
            (List.range' 1 entries.length)
            (List.replicate (entries.length + 1) default,
             List.replicate (entries.length + 1) default)).2,
          n := entries.length,
          root_idx := (bfsToVeb entries.length
            (buildVebComplete entries.length 1 (Nat.log2 entries.length + 1))).getD
              1 0 } := by
      unfold VebLookup1.build
      simp only [hlen]
      rw [if_neg h0, if_pos hn]
    have hrep : (List.replicate (entries.length + 1) (default : SearchData)).map sd1
        = List.replicate (entries.length + 1) (default : SearchData1) := by
      rw [List.map_replicate]
      rfl
    have hfe := vebFillTree1_eq entries.length (sortEntries entries)
      (bfsToVeb entries.length
        (buildVebComplete entries.length 1 (Nat.log2 entries.length + 1)))
      (bfsToSorted entries.length (inorderComplete entries.length 1))
      (List.range' 1 entries.length)
      (List.replicate (entries.length + 1) default)
      (List.replicate (entries.length + 1) default)
    rw [hrep] at hfe
    rw [hfe] at hb1
    refine ⟨_, _, hb1, hb2, ?_⟩
    intro target
    exact veb1_find_eq _ _ _ _ target

/-- Just past the defined range of v1 (`N = 2³⁰`, where `2·N + 1` overflows
`int`), v2 still builds fine while v1 hits undefined behaviour. -/
theorem ce10_divergence :
    VebLookup1.build (V := Int) (List.replicate (2 ^ 30) ((0 : Int), (0 : Int)))
        = none ∧
    ∃ s2 : VebLookup Int,
      VebLookup.build (List.replicate (2 ^ 30) ((0 : Int), (0 : Int))) = .ok s2 := by
  have h30 : (2 : Nat) ^ 30 = 1073741824 := by norm_num
  have h31 : (2 : Nat) ^ 31 = 2147483648 := by norm_num
  have h32 : (2 : Nat) ^ 32 = 4294967296 := by norm_num
  have hlen : (sortEntries (List.replicate (2 ^ 30) ((0 : Int), (0 : Int)))).length
      = 2 ^ 30 := by
    rw [sortEntries_length, List.length_replicate]
  constructor
  · unfold VebLookup1.build
    simp only [hlen]
    rw [if_neg (by omega), if_neg (by omega)]
  · obtain ⟨s2, hok, -⟩ := veb_build_spec (V := Int)
      (List.replicate (2 ^ 30) ((0 : Int), (0 : Int)))
      (by rw [List.length_replicate]; omega)
      (by rw [List.length_replicate]; omega)
    exact ⟨s2, hok⟩

/-- On a key-sorted list containing `q`, the lower bound lands on an
occurrence of `q`. -/
theorem lbIdx_hit (l : List Int) (hs : l.Pairwise (· ≤ ·)) (q : Int)
    (hmem : q ∈ l) :
    lbIdx l q < l.length ∧ l.getD (lbIdx l q) 0 = q := by
  obtain ⟨i, hi, hival⟩ := List.mem_iff_getElem.mp hmem
  have hle : lbIdx l q ≤ i :=
    lbIdx_le_of_ge l q i hi (by rw [hival]; exact lt_irrefl q)
  have hlb : lbIdx l q < l.length := by omega
  refine ⟨hlb, ?_⟩
  have h1 := lbIdx_at_ge l q hlb
  have h2 := pairwise_le_getD l hs (lbIdx l q) i hle hi
  rw [getD_eq_getElem _ _ _ hi, hival] at h2
  rw [getD_eq_getElem _ _ _ hlb] at h2 ⊢
  omega

theorem sortEntries_pair_getD {V : Type} [Inhabited V]
    (entries : List (Int × V)) (j : Nat) (hj : j < entries.length) :
    ((sortedKeys entries).getD j 0, (sortedVals entries).getD j default)
      = (sortEntries entries).getD j (0, default) := by
  rw [sortedKeys_getD entries j hj, sortedVals_getD entries j hj]

/-- The round-trip and miss behaviour of the sorted layout: a hit returns a
value paired with the query key in the input, and a hit happens exactly when
the key occurs in the input. -/
theorem sorted_roundtrip {V : Type} [Inhabited V] (entries : List (Int × V))
    (q : Int) :
    (∀ v', (SortedLookup.build entries).find q = some v' → (q, v') ∈ entries) ∧
    ((∃ v, (q, v) ∈ entries) ↔
      ∃ v', (SortedLookup.build entries).find q = some v') := by
  have hfe := SortedLookup.find_eq_lb entries q
  have hsk := sortedKeys_sorted entries
  have hsklen := sortedKeys_length entries
  have hmemof : ∀ v', (SortedLookup.build entries).find q = some v' →
      (q, v') ∈ entries := by
    intro v' hv
    rw [hfe] at hv
    by_cases hcond : lbIdx (sortedKeys entries) q < (sortedKeys entries).length ∧
        (sortedKeys entries).getD (lbIdx (sortedKeys entries) q) 0 = q
    · rw [if_pos hcond] at hv
      injection hv with hv
      have hjlt : lbIdx (sortedKeys entries) q < entries.length := by omega
      have hpair := sortEntries_pair_getD entries _ hjlt
      rw [hcond.2, hv] at hpair
      have hmem2 : (sortEntries entries).getD (lbIdx (sortedKeys entries) q)
          (0, default) ∈ sortEntries entries := by
        rw [getD_eq_getElem _ _ _ (by rw [sortEntries_length]; omega)]
        exact List.getElem_mem _
      rw [hpair]
      exact (sortEntries_perm entries).mem_iff.mp hmem2
    · rw [if_neg hcond] at hv
      exact Option.noConfusion hv
  refine ⟨hmemof, ?_, ?_⟩
  · rintro ⟨v, hv⟩
    have hvs : (q, v) ∈ sortEntries entries :=
      (sortEntries_perm entries).mem_iff.mpr hv
    have hqk : q ∈ sortedKeys entries := by
      unfold sortedKeys
      exact List.mem_map.mpr ⟨(q, v), hvs, rfl⟩
    have hhit := lbIdx_hit _ hsk q hqk
    exact ⟨(sortedVals entries).getD (lbIdx (sortedKeys entries) q) default,
      by rw [hfe, if_pos ⟨hhit.1, hhit.2⟩]⟩
  · rintro ⟨v', hv⟩
    exact ⟨v', hmemof v' hv⟩

/-! ## The claims -/

/-- C1 (corrected): the round-trip/miss/empty behaviour holds for the
sorted layout unconditionally; the Eytzinger layout agrees with it below
the index-truncation bound `N < 3·2³¹ − 1`, and the vEB layout agrees with
it on every successfully built structure.  (The unrestricted claim is
refuted by the counterexample: past the bound, Eytzinger misses a present
key.) -/
theorem claim_find_roundtrip_three_layouts {V : Type} [Inhabited V]
    (entries : List (Int × V)) (q : Int) :
    (∀ v', (SortedLookup.build entries).find q = some v' → (q, v') ∈ entries) ∧
    ((∃ v, (q, v) ∈ entries) ↔
      ∃ v', (SortedLookup.build entries).find q = some v') ∧
    (entries = [] → (SortedLookup.build entries).find q = none) ∧
    (entries.length < 3 * 2 ^ 31 - 1 →
      (EytzingerLookup.build entries).find q = (SortedLookup.build entries).find q) ∧
    (∀ s, VebLookup.build entries = .ok s →
      s.find q = (SortedLookup.build entries).find q) := by
  refine ⟨(sorted_roundtrip entries q).1, (sorted_roundtrip entries q).2, ?_, ?_, ?_⟩
  · rintro rfl
    exact SortedLookup.find_empty q
  · intro h
    exact eytFind_eq_sortedFind entries q h
  · intro s hok
    exact vebFind_eq_sortedFind entries q s hok

/-- Witness for C1 at the one-entry input `[(7, 3)]`, query `7`. -/
theorem claim_find_roundtrip_three_layouts_witness :
    ([((7 : Int), (3 : Int))].length < 3 * 2 ^ 31 - 1 ∧
      (EytzingerLookup.build [((7 : Int), (3 : Int))]).find 7
        = (SortedLookup.build [((7 : Int), (3 : Int))]).find 7) ∧
    ((7, 3) ∈ [((7 : Int), (3 : Int))] ∧
      ∃ v', (SortedLookup.build [((7 : Int), (3 : Int))]).find 7 = some v') :=
  ⟨⟨by norm_num,
    (claim_find_roundtrip_three_layouts [((7 : Int), (3 : Int))] 7).2.2.2.1
      (by norm_num)⟩,
   ⟨by simp,
    (claim_find_roundtrip_three_layouts [((7 : Int), (3 : Int))] 7).2.1.mp
      ⟨3, by simp⟩⟩⟩

/-- Counterexample to C1 as stated: on the two-block input the key `5`
occurs in the input yet the Eytzinger structure reports "not found". -/
theorem claim_find_roundtrip_three_layouts_ce :
    ((5 : Int), (5 : Int)) ∈ ceEntries ∧
    (EytzingerLookup.build ceEntries).find 5 = none := by
  refine ⟨?_, ce_eyt_find_none⟩
  unfold ceEntries
  rw [List.mem_append]
  right
  rw [List.mem_replicate]
  exact ⟨by positivity, rfl⟩

/-- C2 (corrected): below the truncation bound `N < 3·2³¹ − 1` the
recovered index behaves exactly like the tracked lower-bound candidate —
`find` returns `vals[i]` iff `1 ≤ i ≤ N` and `keys[i] = target` at the
candidate `i` — and the overall result equals lower-bound binary search on
the sorted input.  (Past the bound the `static_cast<int>` truncation in the
recovery step breaks both parts; see the counterexample.) -/
theorem claim_eytzinger_recovery_lower_bound {V : Type} [Inhabited V]
    (entries : List (Int × V)) (target : Int)
    (hn : entries.length < 3 * 2 ^ 31 - 1) :
    ((EytzingerLookup.build entries).find target =
      (if 0 < descendCand entries.length (EytzingerLookup.build entries).keys
            target 1 0 ∧
          descendCand entries.length (EytzingerLookup.build entries).keys
            target 1 0 ≤ entries.length ∧
          (EytzingerLookup.build entries).keys.getD
            (descendCand entries.length (EytzingerLookup.build entries).keys
              target 1 0) 0 = target
       then some ((EytzingerLookup.build entries).vals.getD
          (descendCand entries.length (EytzingerLookup.build entries).keys
            target 1 0) default)
       else none)) ∧
    (EytzingerLookup.build entries).find target
      = (SortedLookup.build entries).find target := by
  have hb := eyt_build_n entries
  constructor
  · have h := EytzingerLookup.find_eq_cand (EytzingerLookup.build entries) target
      (by rw [hb]; exact hn)
    rw [hb] at h
    exact h
  · exact eytFind_eq_sortedFind entries target hn

/-- Witness for C2 at `[(1, 10), (2, 20)]`, target `2`. -/
theorem claim_eytzinger_recovery_lower_bound_witness :
    [((1 : Int), (10 : Int)), (2, 20)].length < 3 * 2 ^ 31 - 1 ∧
    (EytzingerLookup.build [((1 : Int), (10 : Int)), (2, 20)]).find 2
      = (SortedLookup.build [((1 : Int), (10 : Int)), (2, 20)]).find 2 :=
  ⟨by norm_num,
   (claim_eytzinger_recovery_lower_bound [((1 : Int), (10 : Int)), (2, 20)] 2
     (by norm_num)).2⟩

/-- Counterexample to C2 as stated: on the two-block input of size
`2³⁴ − 1` the Eytzinger result differs from lower-bound binary search. -/
theorem claim_eytzinger_recovery_lower_bound_ce :
    (EytzingerLookup.build ceEntries).find 5 = none ∧
    (SortedLookup.build ceEntries).find 5 = some 5 :=
  ⟨ce_eyt_find_none, ce_sorted_find⟩

/-- C3 (confirmed): reading the built Eytzinger key array along the
in-order traversal of BFS positions `1..N` reproduces the sorted input key
sequence. -/
theorem claim_eytzinger_inorder_is_sorted {V : Type} [Inhabited V]
    (entries : List (Int × V)) :
    (inorderComplete entries.length 1).map
        (fun p => (EytzingerLookup.build entries).keys.getD p 0)
      = sortedKeys entries := by
  by_cases h0 : entries.length = 0
  · rw [inorderComplete_eq_nil (Or.inr (by omega)), List.map_nil]
    have hz : (sortedKeys entries).length = 0 := by
      rw [sortedKeys_length]
      exact h0
    exact (List.length_eq_zero.mp hz).symm
  · apply List.ext_getElem?
    intro j
    by_cases hjl : j < entries.length
    · have hX : j < (inorderComplete entries.length 1).length := by
        rw [inorderComplete_length]
        omega
      have hXm : j < ((inorderComplete entries.length 1).map
          (fun p => (EytzingerLookup.build entries).keys.getD p 0)).length := by
        rw [List.length_map, inorderComplete_length]
        omega
      have hY : j < (sortedKeys entries).length := by
        rw [sortedKeys_length]
        omega
      rw [List.getElem?_eq_getElem hXm, List.getElem?_eq_getElem hY]
      apply congrArg
      rw [List.getElem_map]
      have hk := (eyt_keys_getD entries h0).1 j hjl
      exact (congrArg (fun x => (EytzingerLookup.build entries).keys.getD x 0)
        (getD_eq_getElem _ _ 0 hX).symm).trans
        (hk.trans (getD_eq_getElem _ _ 0 hY))
    · rw [List.getElem?_eq_none
        (by rw [List.length_map, inorderComplete_length]; omega),
        List.getElem?_eq_none (by rw [sortedKeys_length]; omega)]

/-- C4 (corrected): on every nonempty input accepted by the vEB build whose
keys are pairwise distinct, (a) every tree slot `1..N` is reached by walking
the stored child fields down from `root_idx`, and (b) the strict BST
property holds at every slot: keys reached through the left child are at
most the slot key, keys reached through the right child exceed it.  (With
duplicated keys part (b) fails; see the counterexample.) -/
theorem claim_veb_tree_invariants {V : Type} [Inhabited V]
    (entries : List (Int × V)) (s : VebLookup V)
    (h0 : entries.length ≠ 0)
    (hok : VebLookup.build entries = .ok s)
    (hdist : (sortedKeys entries).Pairwise (· < ·)) :
    (∀ idx, 1 ≤ idx → idx ≤ entries.length →
      idx ∈ vebSubIdx s.tree (entries.length + 1) s.root_idx) ∧
    (∀ idx, 1 ≤ idx → idx ≤ entries.length →
      (∀ j ∈ vebSubIdx s.tree entries.length ((s.tree.getD idx default).c0),
        (s.tree.getD j default).key ≤ (s.tree.getD idx default).key) ∧
      (∀ j ∈ vebSubIdx s.tree entries.length ((s.tree.getD idx default).c1),
        (s.tree.getD idx default).key < (s.tree.getD j default).key)) :=
  veb_invariants_all entries s h0 hok hdist

/-- Witness for C4 at `[(1, 10), (2, 20)]`. -/
theorem claim_veb_tree_invariants_witness :
    ∃ s : VebLookup Int,
      VebLookup.build [((1 : Int), (10 : Int)), (2, 20)] = .ok s ∧
      (∀ idx, 1 ≤ idx → idx ≤ 2 → idx ∈ vebSubIdx s.tree 3 s.root_idx) := by
  obtain ⟨s, hok, -⟩ := veb_build_spec (V := Int)
    [((1 : Int), (10 : Int)), (2, 20)] (by norm_num) (by norm_num)
  have hdist : (sortedKeys [((1 : Int), (10 : Int)), (2, 20)]).Pairwise (· < ·) := by
    unfold sortedKeys
    rw [sortEntries_of_sorted (by decide)]
    decide
  exact ⟨s, hok,
    (claim_veb_tree_invariants [((1 : Int), (10 : Int)), (2, 20)] s
      (by norm_num) hok hdist).1⟩

/-- Counterexample to C4 as stated (no distinctness assumed): three copies
of key `5` are accepted by the build, yet a key reached through a right
child is not greater than the slot key. -/
theorem claim_veb_tree_invariants_ce : ∃ s : VebLookup Int,
    VebLookup.build (List.replicate 3 ((5 : Int), (0 : Int))) = .ok s ∧
    ∃ idx, 1 ≤ idx ∧ idx ≤ 3 ∧
      ∃ j, j ∈ vebSubIdx s.tree 3 ((s.tree.getD idx default).c1) ∧
        ¬ ((s.tree.getD idx default).key < (s.tree.getD j default).key) :=
  ce4_bst_violation

/-- C5 (corrected): when `2·N + 1 < 2³² − 1`, the exit index of the descent
is never all-ones in its low 32 bits, and the find-first-set of its
complement is nonzero, so the recovery shift is well defined.  (At
`N = 2³¹ − 1` the all-ones exit is reachable and the primitive returns `0`;
see the counterexample.) -/
theorem claim_eytzinger_descent_not_all_ones {V : Type} [Inhabited V]
    (entries : List (Int × V)) (target : Int)
    (h1 : 1 ≤ entries.length)
    (hcap : 2 * entries.length + 1 < 2 ^ 32 - 1) :
    eytDescend (EytzingerLookup.build entries).n
        (EytzingerLookup.build entries).keys target 1 % 2 ^ 32 ≠ 2 ^ 32 - 1 ∧
    ffs (2 ^ 32 - 1 -
      eytDescend (EytzingerLookup.build entries).n
        (EytzingerLookup.build entries).keys target 1 % 2 ^ 32) ≠ 0 := by
  have hb := eyt_build_n entries
  have hgt := eytDescend_gt (EytzingerLookup.build entries).n
    (EytzingerLookup.build entries).keys target _ 1 rfl le_rfl
  have hle := eytDescend_le (EytzingerLookup.build entries).n
    (EytzingerLookup.build entries).keys target _ 1 rfl le_rfl (by omega)
  have h32 : (2 : Nat) ^ 32 = 4294967296 := by norm_num
  have hlt : eytDescend (EytzingerLookup.build entries).n
      (EytzingerLookup.build entries).keys target 1 < 2 ^ 32 - 1 := by
    omega
  have hmod : eytDescend (EytzingerLookup.build entries).n
      (EytzingerLookup.build entries).keys target 1 % 2 ^ 32
      = eytDescend (EytzingerLookup.build entries).n
          (EytzingerLookup.build entries).keys target 1 :=
    Nat.mod_eq_of_lt (by omega)
  refine ⟨by omega, ?_⟩
  have hpos := ffs_pos (2 ^ 32 - 1 -
    eytDescend (EytzingerLookup.build entries).n
      (EytzingerLookup.build entries).keys target 1 % 2 ^ 32) (by omega)
  omega

/-- Witness for C5 at `[(1, 2)]`, target `0`. -/
theorem claim_eytzinger_descent_not_all_ones_witness :
    (1 ≤ [((1 : Int), (2 : Int))].length ∧
      2 * [((1 : Int), (2 : Int))].length + 1 < 2 ^ 32 - 1) ∧
    ffs (2 ^ 32 - 1 -
      eytDescend (EytzingerLookup.build [((1 : Int), (2 : Int))]).n
        (EytzingerLookup.build [((1 : Int), (2 : Int))]).keys 0 1 % 2 ^ 32) ≠ 0 :=
  ⟨⟨by norm_num, by norm_num⟩,
   (claim_eytzinger_descent_not_all_ones [((1 : Int), (2 : Int))] 0
     (by norm_num) (by norm_num)).2⟩

/-- Counterexample to C5 as stated: on the full all-zero tree of size
`2³¹ − 1`, searching `1` descends right everywhere, exits at the all-ones
index `2³² − 1`, and the find-first-set of the truncated complement is `0`
(a no-op shift). -/
theorem claim_eytzinger_descent_not_all_ones_ce :
    1 ≤ (EytzingerLookup.build
        (List.replicate (2 ^ 31 - 1) ((0 : Int), (0 : Int)))).n ∧
    ffs (2 ^ 32 - 1 -
      eytDescend (EytzingerLookup.build
          (List.replicate (2 ^ 31 - 1) ((0 : Int), (0 : Int)))).n
        (EytzingerLookup.build
          (List.replicate (2 ^ 31 - 1) ((0 : Int), (0 : Int)))).keys 1 1
        % 2 ^ 32) = 0 := by
  have h31 : (2 : Nat) ^ 31 = 2147483648 := by norm_num
  have h32 : (2 : Nat) ^ 32 = 4294967296 := by norm_num
  have hb : (EytzingerLookup.build
      (List.replicate (2 ^ 31 - 1) ((0 : Int), (0 : Int)))).n = 2 ^ 31 - 1 := by
    rw [eyt_build_n, List.length_replicate]
  refine ⟨by omega, ?_⟩
  rw [hb, ce5_descend]
  have harg : 2 ^ 32 - 1 - (2 ^ 32 - 1) % 2 ^ 32 = 0 := by
    rw [Nat.mod_eq_of_lt (by omega)]
    omega
  rw [harg, ffs_zero]

/-- C6 (corrected): the vEB build fails with `CapacityExceeded` exactly
when `N + 1 > 2³² − 1` — one earlier than the claimed `N + 1 > 2³²`, since
the guard compares against `uint32_t` max — and succeeds for every smaller
input.  (The boundary input `N + 1 = 2³²` is the counterexample.) -/
theorem claim_build_capacity_dichotomy {V : Type} [Inhabited V]
    (entries : List (Int × V)) :
    (VebLookup.build (V := V) entries = .error "CapacityExceeded"
      ↔ entries.length + 1 > 2 ^ 32 - 1) ∧
    (entries.length + 1 ≤ 2 ^ 32 - 1 →
      ∃ s, VebLookup.build (V := V) entries = .ok s) := by
  refine ⟨veb_build_error_iff entries, ?_⟩
  intro hcap
  by_cases h0 : entries.length = 0
  · have hnil : entries = [] := List.length_eq_zero.mp h0
    subst hnil
    refine ⟨⟨[], [], 0, 0⟩, ?_⟩
    simp [VebLookup.build, VebLookup.buildSt, VebLookup.init, sortEntries_length]
  · obtain ⟨s, hok, -⟩ := veb_build_spec (V := V) entries h0 hcap
    exact ⟨s, hok⟩

/-- Witness for C6 at `[(1, 2)]`. -/
theorem claim_build_capacity_dichotomy_witness :
    [((1 : Int), (2 : Int))].length + 1 ≤ 2 ^ 32 - 1 ∧
    ∃ s, VebLookup.build (V := Int) [((1 : Int), (2 : Int))] = .ok s :=
  ⟨by norm_num,
   (claim_build_capacity_dichotomy (V := Int) [((1 : Int), (2 : Int))]).2
     (by norm_num)⟩

/-- Counterexample to C6 as stated: at `N = 2³² − 1` we have
`N + 1 = 2³² ≤ 2³²`, so the claimed threshold predicts success, yet the
build throws. -/
theorem claim_build_capacity_dichotomy_ce :
    (List.replicate (2 ^ 32 - 1) ((0 : Int), (0 : Int))).length + 1 ≤ 2 ^ 32 ∧
    VebLookup.build (V := Int)
        (List.replicate (2 ^ 32 - 1) ((0 : Int), (0 : Int)))
      = .error "CapacityExceeded" := by
  have h32 : (2 : Nat) ^ 32 = 4294967296 := by norm_num
  constructor
  · rw [List.length_replicate]
    omega
  · exact (veb_build_error_iff _).mpr (by rw [List.length_replicate]; omega)

/-- C7 (corrected): the failed vEB build is not atomic — the member `n` is
assigned the new entry count before the capacity check throws, while
`tree`, `vals` and `root_idx` keep their previous values. -/
theorem claim_failed_build_updates_only_n {V : Type} [Inhabited V]
    (s : VebLookup V) (entries : List (Int × V))
    (h0 : entries.length ≠ 0)
    (hcap : entries.length + 1 > 2 ^ 32 - 1) :
    VebLookup.buildSt s entries
      = ({ s with n := entries.length }, some "CapacityExceeded") :=
  veb_buildSt_fail s entries h0 hcap

/-- Witness for C7 on a fresh structure and `2³² − 1` entries. -/
theorem claim_failed_build_updates_only_n_witness :
    ((List.replicate (2 ^ 32 - 1) ((0 : Int), (0 : Int))).length ≠ 0 ∧
      (List.replicate (2 ^ 32 - 1) ((0 : Int), (0 : Int))).length + 1
        > 2 ^ 32 - 1) ∧
    VebLookup.buildSt (VebLookup.init (V := Int))
        (List.replicate (2 ^ 32 - 1) ((0 : Int), (0 : Int)))
      = ({ VebLookup.init (V := Int) with
            n := (List.replicate (2 ^ 32 - 1) ((0 : Int), (0 : Int))).length },
         some "CapacityExceeded") :=
  ⟨⟨by rw [List.length_replicate]; norm_num,
    by rw [List.length_replicate]; norm_num⟩,
   claim_failed_build_updates_only_n (VebLookup.init (V := Int)) _
     (by rw [List.length_replicate]; norm_num)
     (by rw [List.length_replicate]; norm_num)⟩

/-- Counterexample to C7 as stated (atomicity): after the failed build the
observable member `n` differs from its value before the call. -/
theorem claim_failed_build_updates_only_n_ce :
    (VebLookup.buildSt (VebLookup.init (V := Int))
        (List.replicate (2 ^ 32 - 1) ((0 : Int), (0 : Int)))).1.n
      ≠ (VebLookup.init (V := Int)).n ∧
    (VebLookup.buildSt (VebLookup.init (V := Int))
        (List.replicate (2 ^ 32 - 1) ((0 : Int), (0 : Int)))).2
      = some "CapacityExceeded" := by
  have h32 : (2 : Nat) ^ 32 = 4294967296 := by norm_num
  have hf := veb_buildSt_fail (VebLookup.init (V := Int))
    (List.replicate (2 ^ 32 - 1) ((0 : Int), (0 : Int)))
    (by rw [List.length_replicate]; omega)
    (by rw [List.length_replicate]; omega)
  rw [hf]
  constructor
  · show (List.replicate (2 ^ 32 - 1) ((0 : Int), (0 : Int))).length ≠ 0
    rw [List.length_replicate]
    omega
  · rfl

/-- C8 (corrected): the build pipeline sorts but does not de-duplicate —
every layout stores exactly the total input count, not the distinct-key
count.  (The two-copies input is the counterexample to the distinct-count
reading.) -/
theorem claim_build_size_total_count {V : Type} [Inhabited V]
    (entries : List (Int × V)) :
    (SortedLookup.build entries).keys.length = entries.length ∧
    (EytzingerLookup.build entries).n = entries.length ∧
    (∀ s : VebLookup V, VebLookup.build entries = .ok s →
      s.n = entries.length) := by
  refine ⟨sorted_build_length entries, eyt_build_n entries, ?_⟩
  intro s hok
  have hn := veb_buildSt_n (VebLookup.init (V := V)) entries
  unfold VebLookup.build at hok
  cases hbs : VebLookup.buildSt (VebLookup.init (V := V)) entries with
  | mk s2 e =>
    rw [hbs] at hok hn
    cases e with
    | none =>
      simp only [] at hok
      injection hok with h
      rw [← h]
      exact hn
    | some err =>
      simp at hok

/-- Witness for C8 at `[(1, 2)]` with a successfully built vEB structure. -/
theorem claim_build_size_total_count_witness :
    ∃ s : VebLookup Int,
      VebLookup.build [((1 : Int), (2 : Int))] = .ok s ∧
      s.n = [((1 : Int), (2 : Int))].length := by
  obtain ⟨s, hok, -⟩ := veb_build_spec (V := Int) [((1 : Int), (2 : Int))]
    (by norm_num) (by norm_num)
  exact ⟨s, hok,
    (claim_build_size_total_count [((1 : Int), (2 : Int))]).2.2 s hok⟩

/-- Counterexample to the distinct-count reading of C8: two entries with
the same key are both stored. -/
theorem claim_build_size_total_count_ce :
    ([((5 : Int), (100 : Int)), ((5 : Int), (200 : Int))].map Prod.fst).dedup.length
      = 1 ∧
    (SortedLookup.build
        [((5 : Int), (100 : Int)), ((5 : Int), (200 : Int))]).keys.length = 2 := by
  constructor
  · decide
  · rw [sorted_build_length]
    rfl

/-- C9 (confirmed): `SortedLookup::find` returns the value at the
lower-bound position of the sorted key array — the first occurrence of a
duplicated key in sort order — and on the scenario
`[(5,100), (5,200), (10,300)]` it returns `100` for `5` (one of the two
allowed answers) and `300` for `10`. -/
theorem claim_sorted_find_duplicates :
    (∀ (entries : List (Int × Int)) (q : Int),
      (SortedLookup.build entries).find q =
        (if lbIdx (sortedKeys entries) q < (sortedKeys entries).length ∧
            (sortedKeys entries).getD (lbIdx (sortedKeys entries) q) 0 = q then
          some ((sortedVals entries).getD (lbIdx (sortedKeys entries) q) default)
        else none)) ∧
    ((SortedLookup.build [((5 : Int), (100 : Int)), (5, 200), (10, 300)]).find 5
        = some 100 ∨
     (SortedLookup.build [((5 : Int), (100 : Int)), (5, 200), (10, 300)]).find 5
        = some 200) ∧
    (SortedLookup.build [((5 : Int), (100 : Int)), (5, 200), (10, 300)]).find 10
      = some 300 := by
  have hso : sortEntries [((5 : Int), (100 : Int)), (5, 200), (10, 300)]
      = [((5 : Int), (100 : Int)), (5, 200), (10, 300)] :=
    sortEntries_of_sorted (by decide)
  have hsk : sortedKeys [((5 : Int), (100 : Int)), (5, 200), (10, 300)]
      = [5, 5, 10] := by
    unfold sortedKeys
    rw [hso]
    rfl
  have hsv : sortedVals [((5 : Int), (100 : Int)), (5, 200), (10, 300)]
      = [100, 200, 300] := by
    unfold sortedVals
    rw [hso]
    rfl
  refine ⟨fun entries q => SortedLookup.find_eq_lb entries q, ?_, ?_⟩
  · left
    rw [SortedLookup.find_eq_lb, hsk, hsv]
    rw [show lbIdx [(5 : Int), 5, 10] 5 = 0 from by decide]
    rw [if_pos (by constructor <;> decide)]
    rfl
  · rw [SortedLookup.find_eq_lb, hsk, hsv]
    rw [show lbIdx [(5 : Int), 5, 10] 10 = 2 from by decide]
    rw [if_pos (by constructor <;> decide)]
    rfl

/-- C10 (corrected): the v1 and v2 vEB lookups agree — same build outcome,
identical `find` on every query — on all inputs where the v1 `int`
arithmetic has defined behaviour, `2·N + 1 ≤ 2³¹ − 1`.  (That range, not
the v2 acceptance range: at `N = 2³⁰` v2 builds fine but `2·N + 1` already
overflows `int` in v1; see the counterexample.) -/
theorem claim_veb_v1_v2_equivalence {V : Type} [Inhabited V]
    (entries : List (Int × V))
    (hn : 2 * entries.length + 1 ≤ 2 ^ 31 - 1) :
    ∃ (s1 : VebLookup1 V) (s2 : VebLookup V),
      VebLookup1.build entries = some s1 ∧
      VebLookup.build entries = .ok s2 ∧
      ∀ target, s1.find target = s2.find target :=
  veb1_refines_veb2 entries hn

/-- Witness for C10 at `[(1, 2)]`. -/
theorem claim_veb_v1_v2_equivalence_witness :
    2 * [((1 : Int), (2 : Int))].length + 1 ≤ 2 ^ 31 - 1 ∧
    ∃ (s1 : VebLookup1 Int) (s2 : VebLookup Int),
      VebLookup1.build [((1 : Int), (2 : Int))] = some s1 ∧
      VebLookup.build [((1 : Int), (2 : Int))] = .ok s2 ∧
      ∀ target, s1.find target = s2.find target :=
  ⟨by norm_num,
   claim_veb_v1_v2_equivalence [((1 : Int), (2 : Int))] (by norm_num)⟩

/-- Counterexample to C10 as stated: at `N = 2³⁰`, an input accepted by the
v2 build, the v1 build hits signed-`int` overflow (undefined behaviour)
while v2 succeeds. -/
theorem claim_veb_v1_v2_equivalence_ce :
    VebLookup1.build (V := Int)
        (List.replicate (2 ^ 30) ((0 : Int), (0 : Int))) = none ∧
    ∃ s2 : VebLookup Int,
      VebLookup.build (List.replicate (2 ^ 30) ((0 : Int), (0 : Int)))
        = .ok s2 :=
  ce10_divergence

end LLTI
